import Mathlib

/-!
Orbital-net: path selection engine and relay coordinator.

A shallow embedding of `pathfinder/model/graph.go` (graph construction and the
widest-path router) and of `communications/model` (the relay coordinator),
with the properties of the design document stated and proved over it.

Modelling conventions.

* A Go map that is only read and written by key is a finite association list
  (the two maps of `Graph`) or a total function returning the zero value for
  an absent key (the local maps of `WidestPath`, and its `restricted`
  argument).  The restriction set of the coordinator is a list used as a set.
* A loop whose termination is not structural carries a fuel argument; running
  out of fuel is the result `none`, and `WidestPath_spec` proves that the
  router never does.
* A Go panic (index out of range, nil dereference) is the result `none`.
* A `*LogicalNode` is the index of the node in the coordinator's node slice.
* The JSON input is taken after decoding: numbers are integers, a field that
  is absent or not a number is `none`.
* Network effects are left out: the route query is a function (`Router`), and
  the record posted to the message store is appended to `delivered`.

The definitions come first, then the theorems.
-/

namespace OrbitalNet

/-! ## Go maps keyed by strings -/

/-- Go `m[k]` on a `map[string]V`: the stored value, or the zero value `d`. -/
def mapGet {β : Type} (d : β) (m : List (String × β)) (k : String) : β :=
  match m with
  | [] => d
  | (k', v) :: rest => if k' = k then v else mapGet d rest k

/-- Go `m[k] = v`: replace the entry of `k` if there is one, else add it. -/
def mapSet {β : Type} (m : List (String × β)) (k : String) (v : β) : List (String × β) :=
  match m with
  | [] => [(k, v)]
  | (k', v') :: rest => if k' = k then (k, v) :: rest else (k', v') :: mapSet rest k v

/-! ## graph.go : the graph -/

/-- Go `type Graph struct { adj map[string][]string; portgen map[string]int }`. -/
structure Graph where
  adj : List (String × List String)
  portgen : List (String × Int)
deriving DecidableEq, Repr

/-- Go `NewGraph`. -/
def NewGraph : Graph := { adj := [], portgen := [] }

/-- Go `g.adj[node]` (a nil slice for an absent key). -/
def Graph.neighbors (g : Graph) (node : String) : List String := mapGet [] g.adj node

/-- Go `g.portgen[node]` (0 for an absent key). -/
def Graph.cap (g : Graph) (node : String) : Int := mapGet 0 g.portgen node

/-- Go `contains`. -/
def contains (slice : List String) (val : String) : Bool :=
  match slice with
  | [] => false
  | item :: rest => if item = val then true else contains rest val

/-- Go `if !contains(g.adj[a], b) { g.adj[a] = append(g.adj[a], b) }`. -/
def Graph.link (g : Graph) (a b : String) : Graph :=
  if !contains (g.neighbors a) b then
    { g with adj := mapSet g.adj a (g.neighbors a ++ [b]) }
  else g

/-- One iteration of the loop of `AddEdges`: the edge, then the reverse edge. -/
def Graph.addEdge (node : String) (g : Graph) (neighbor : String) : Graph :=
  (g.link node neighbor).link neighbor node

/-- Go `(g *Graph) AddEdges(node, neighbors)`. -/
def Graph.AddEdges (g : Graph) (node : String) (neighbors : List String) : Graph :=
  neighbors.foldl (Graph.addEdge node) g

/-! ## graph.go : the widest-path router -/

/-- Go `type state struct { node string; minPG int }` (local to `WidestPath`). -/
structure State where
  node : String
  minPG : Int
deriving DecidableEq, Repr

/-- The local variables of `WidestPath`: three maps read with zero default,
and the frontier slice. -/
structure Search where
  maxPortgen : String → Int
  prev : String → String
  visited : String → Bool
  queue : List State

/-- The scan `for i := 1; i < len(queue); i++` of `WidestPath`, on the rest of
the queue from index `i`, with the running `bestIdx` and `queue[bestIdx].minPG`. -/
def scanBest : List State → Nat → Nat → Int → Nat
  | [], _, best, _ => best
  | q :: rest, i, best, bestPG =>
    if q.minPG > bestPG then scanBest rest (i + 1) i q.minPG
    else scanBest rest (i + 1) best bestPG

/-- The index of the first entry of largest `minPG` (0 on the empty queue). -/
def bestIdx (queue : List State) : Nat :=
  match queue with
  | [] => 0
  | q :: rest => scanBest rest 1 0 q.minPG

/-- The body of `for _, neighbor := range g.adj[current.node]`. -/
def relax (g : Graph) (start end_ : String) (restricted : String → Bool)
    (current : State) (s : Search) (neighbor : String) : Search :=
  if neighbor ≠ start ∧ neighbor ≠ end_ ∧ restricted neighbor = true then s
  else if s.visited neighbor = true then s
  else
    let edgePG := min (g.cap current.node) (g.cap neighbor)
    let newMin := min current.minPG edgePG
    if newMin > s.maxPortgen neighbor then
      { s with
        maxPortgen := fun x => if x = neighbor then newMin else s.maxPortgen x
        prev := fun x => if x = neighbor then current.node else s.prev x
        queue := s.queue ++ [{ node := neighbor, minPG := newMin }] }
    else s

/-- The path reconstruction `for node := end; node != start; { node = prev[node];
path = append([]string{node}, path...) }`. -/
def buildPath (prev : String → String) (start : String) :
    Nat → String → List String → Option (List String)
  | 0, _, _ => none
  | fuel + 1, node, path =>
    if node = start then some path
    else buildPath prev start fuel (prev node) (prev node :: path)

/-- The bound on loop iterations used as fuel: the total length of the
adjacency lists, plus two. -/
def Graph.fuel (g : Graph) : Nat := (g.adj.map (fun e => e.2.length)).sum + 2

/-- The loop `for len(queue) > 0` of `WidestPath`.  The result is `none` only
when the fuel runs out. -/
def searchLoop (g : Graph) (start end_ : String) (restricted : String → Bool) :
    Nat → Search → Option (List String × Bool)
  | 0, _ => none
  | fuel + 1, s =>
    match s.queue with
    | [] => some ([], false)
    | q0 :: _ =>
      let b := bestIdx s.queue
      let current := s.queue.getD b q0
      let s1 : Search := { s with queue := s.queue.eraseIdx b }
      if s1.visited current.node = true then searchLoop g start end_ restricted fuel s1
      else
        let s2 : Search :=
          { s1 with visited := fun x => if x = current.node then true else s1.visited x }
        if current.node = end_ then
          (buildPath s2.prev start g.fuel end_ [end_]).map (fun path => (path, true))
        else
          searchLoop g start end_ restricted fuel
            ((g.neighbors current.node).foldl (relax g start end_ restricted current) s2)

/-- The state of `WidestPath` on entry to its loop. -/
def initSearch (g : Graph) (start : String) : Search :=
  { maxPortgen := fun x => if x = start then g.cap start else 0
    prev := fun _ => ""
    visited := fun _ => false
    queue := [{ node := start, minPG := g.cap start }] }

/-- Go `(g *Graph) WidestPath(start, end, restricted) ([]string, bool)`.
A nil path is `[]`. -/
def Graph.WidestPath (g : Graph) (start end_ : String) (restricted : String → Bool) :
    Option (List String × Bool) :=
  if start = end_ then some ([start], true)
  else searchLoop g start end_ restricted g.fuel (initSearch g start)

/-! ## Paths of a graph -/

/-- Consecutive elements are adjacent: each one is in the neighbor list of the
one before it. -/
def IsWalk (g : Graph) (p : List String) : Prop :=
  List.Chain' (fun a b => b ∈ g.neighbors a) p

/-- A path from `s` to `e` in the adjacency. -/
def PathFromTo (g : Graph) (s e : String) (p : List String) : Prop :=
  p.head? = some s ∧ p.getLast? = some e ∧ IsWalk g p

/-- The minimum capacity over the nodes of a path (0 on the empty list). -/
def pathMin (g : Graph) : List String → Int
  | [] => 0
  | [x] => g.cap x
  | x :: y :: rest => min (g.cap x) (pathMin g (y :: rest))


/-- Adjacency symmetry of a graph. -/
def Graph.Symmetric (g : Graph) : Prop :=
  ∀ a b : String, b ∈ g.neighbors a ↔ a ∈ g.neighbors b

/-! ## Specification of the router -/

/-- A node the router may step onto: `start`, `end`, or a node outside the
excluded set. -/
def Allowed (start end_ : String) (restricted : String → Bool) (x : String) : Prop :=
  x = start ∨ x = end_ ∨ restricted x = false

/-- `Reach g start end_ restricted v m`: some walk from `start` to `v` in the
adjacency, over allowed nodes only, has every node capacity at least `m`. -/
inductive Reach (g : Graph) (start end_ : String) (restricted : String → Bool) :
    String → Int → Prop
  | base (m : Int) : m ≤ g.cap start → Reach g start end_ restricted start m
  | step (u v : String) (m : Int) : Reach g start end_ restricted u m →
      v ∈ g.neighbors u → Allowed start end_ restricted v → m ≤ g.cap v →
      Reach g start end_ restricted v m

/-- `Trail prev start v rp`: following `prev` from `v` reaches `start`, and `rp`
is the list of nodes met, `v` first and `start` last. -/
inductive Trail (prev : String → String) (start : String) : String → List String → Prop
  | root : Trail prev start start [start]
  | step (v : String) (rp : List String) : v ≠ start → Trail prev start (prev v) rp →
      Trail prev start v (v :: rp)

/-- What the router has recorded about a discovered node `v`: its predecessor
is settled and adjacent to it, and its bottleneck is the predecessor's capped
by its own capacity. -/
structure Linked (g : Graph) (start end_ : String) (restricted : String → Bool)
    (s : Search) (v : String) : Prop where
  prevVisited : s.visited (s.prev v) = true
  edge : v ∈ g.neighbors (s.prev v)
  allowed : Allowed start end_ restricted v
  value : s.maxPortgen v = min (s.maxPortgen (s.prev v)) (g.cap v)
  pos : 0 < s.maxPortgen v

/-- The loop invariant of `WidestPath`.  `k` bounds the number of iterations
done; while the neighbors of `cur` are being scanned, `todo` is the part of the
neighbor list still to come (`[]` between iterations). -/
structure Inv (g : Graph) (start end_ : String) (restricted : String → Bool)
    (k : Nat) (cur : String) (todo : List String) (s : Search) : Prop where
  startVal : s.maxPortgen start = g.cap start
  fresh : s.visited start = false →
    s.queue = [{ node := start, minPG := g.cap start }] ∧ ∀ v, s.visited v = false
  nonneg : ∀ v, v ≠ start → 0 ≤ s.maxPortgen v
  queueLe : ∀ e ∈ s.queue, e.minPG ≤ s.maxPortgen e.node
  queuePos : ∀ e ∈ s.queue, e.node ≠ start → 0 < e.minPG
  linked : ∀ v, v ≠ start → 0 < s.maxPortgen v → Linked g start end_ restricted s v
  pending : ∀ v, v ≠ start → 0 < s.maxPortgen v → s.visited v = false →
    ({ node := v, minPG := s.maxPortgen v } : State) ∈ s.queue
  visitedPos : ∀ v, v ≠ start → s.visited v = true → 0 < s.maxPortgen v
  trail : ∀ v, s.visited v = true →
    ∃ rp, Trail s.prev start v rp ∧ (∀ x ∈ rp, s.visited x = true) ∧ rp.Nodup ∧ rp.length ≤ k
  optimal : ∀ v m, s.visited v = true → Reach g start end_ restricted v m →
    m ≤ s.maxPortgen v
  relaxed : ∀ u w, s.visited u = true → w ∈ g.neighbors u →
    Allowed start end_ restricted w → s.visited w = false → (u = cur → w ∉ todo) →
    min (s.maxPortgen u) (g.cap w) ≤ s.maxPortgen w

/-- The total length of the adjacency lists of the nodes not yet settled. -/
def unsettledDegree (adj : List (String × List String)) (visited : String → Bool) : Nat :=
  match adj with
  | [] => 0
  | (k, ns) :: rest =>
    (if visited k = true then 0 else ns.length) + unsettledDegree rest visited

/-- The quantity that decreases at every iteration of the loop of `WidestPath`. -/
def potential (g : Graph) (s : Search) : Nat :=
  s.queue.length + unsettledDegree g.adj s.visited

/-- What `WidestPath` promises about a path it returns. -/
structure GoodPath (g : Graph) (start end_ : String) (restricted : String → Bool)
    (p : List String) : Prop where
  isPath : PathFromTo g start end_ p
  nodup : p.Nodup
  allowed : ∀ x ∈ p, Allowed start end_ restricted x
  widest : ∀ m, Reach g start end_ restricted end_ m → m ≤ pathMin g p

/-- The invariant while the neighbors of the settled node `current` are being
scanned: `todo` is the rest of its neighbor list. -/
structure Mid (g : Graph) (start end_ : String) (restricted : String → Bool)
    (k : Nat) (current : State) (todo : List String) (s : Search) : Prop where
  inv : Inv g start end_ restricted k current.node todo s
  startVisited : s.visited start = true
  curVisited : s.visited current.node = true
  curVal : s.maxPortgen current.node = current.minPG
  curCap : current.minPG ≤ g.cap current.node
  todoSub : ∀ w ∈ todo, w ∈ g.neighbors current.node

/-- What the loop of `WidestPath` promises about its result. -/
structure LoopResult (g : Graph) (start end_ : String) (restricted : String → Bool)
    (res : List String × Bool) : Prop where
  found : res.2 = true → GoodPath g start end_ restricted res.1 ∧ 0 < pathMin g res.1
  notFound : res.2 = false →
    res.1 = [] ∧ ∀ m, Reach g start end_ restricted end_ m → m ≤ 0

/-! ## Example graphs -/

/-- A diamond: `a - b - d` and `a - c - d`, where `b` is the narrow node. -/
def diamond : Graph :=
  { adj := ((NewGraph.AddEdges "a" ["b", "c"]).AddEdges "d" ["b", "c"]).adj
    portgen := [("a", 9), ("b", 1), ("c", 5), ("d", 7)] }

/-- A chain `a - b - c` with capacities 5, 3, 5. -/
def chain3 : Graph :=
  { adj := ((NewGraph.AddEdges "a" ["b"]).AddEdges "b" ["c"]).adj
    portgen := [("a", 5), ("b", 3), ("c", 5)] }

/-- Two adjacent nodes of capacity 0. -/
def pairZero : Graph :=
  { adj := (NewGraph.AddEdges "a" ["b"]).adj
    portgen := [("a", 0), ("b", 0)] }

/-! ## graph.go : building the graph -/

/-- One element of the node array served by the simulator, as `CreateGraph` and
`GetLogicalNodes` read it: `obj["id"]`, `obj["name"]`, and `obj["ports"]`,
`obj["portgen"]` converted by `int(...)` when they are present as numbers
(`none` otherwise). -/
structure BaseNode where
  id : String
  name : String
  ports : Option Int
  portgen : Option Int
deriving DecidableEq, Repr

/-- Go `fmt.Sprintf("%s:port%d", id, portNum)`. -/
def portId (id : String) (portNum : Nat) : String := id ++ ":port" ++ toString portNum

/-- Go `ports := 1; if portsVal, ok := obj["ports"].(float64); ok && int(portsVal) > 0
{ ports = int(portsVal) }`. -/
def BaseNode.portCount (b : BaseNode) : Nat :=
  match b.ports with
  | some p => if p > 0 then p.toNat else 1
  | none => 1

/-- The value `CreateGraph` stores in `g.portgen[id]`: the capacity, or -1. -/
def BaseNode.baseCap (b : BaseNode) : Int :=
  match b.portgen with
  | some p => p
  | none => -1

/-- The loop `for j, val := range row` of `CreateGraph`, from column `j`, with
the `neighbors` slice built so far.  `none` is the index panic of `nodes[j]`. -/
def rowNeighbors (nodes : List BaseNode) : Nat → List Bool → List String → Option (List String)
  | _, [], neighbors => some neighbors
  | j, val :: rest, neighbors =>
    if val = true then
      match nodes[j]? with
      | none => none
      | some neighborObj =>
        rowNeighbors nodes (j + 1) rest
          (neighbors ++ (List.range' 1 neighborObj.portCount).map (portId neighborObj.id))
    else rowNeighbors nodes (j + 1) rest neighbors

/-- The body of `for portNum := 1; portNum <= ports; portNum++`. -/
def addPort (nodes : List BaseNode) (row : List Bool) (id : String) (g : Graph)
    (portNum : Nat) : Option Graph :=
  match rowNeighbors nodes 0 row [] with
  | none => none
  | some neighbors =>
    let g1 := g.AddEdges (portId id portNum) neighbors
    some { g1 with portgen := mapSet g1.portgen (portId id portNum) (g1.cap id) }

/-- The body of `for idx, node := range nodes`.  `none` is the index panic of
`matrix[idx]`. -/
def addNode (nodes : List BaseNode) (matrix : List (List Bool)) (g : Graph)
    (entry : Nat × BaseNode) : Option Graph :=
  let g0 : Graph := { g with portgen := mapSet g.portgen entry.2.id entry.2.baseCap }
  match matrix[entry.1]? with
  | none => none
  | some row =>
    (List.range' 1 entry.2.portCount).foldlM (addPort nodes row entry.2.id) g0

/-- Go `CreateGraph`, on the node array and visibility matrix it fetches. -/
def CreateGraph (nodes : List BaseNode) (matrix : List (List Bool)) : Option Graph :=
  nodes.enum.foldlM (addNode nodes matrix) NewGraph

/-- The entry `visibility[i][j]` (false outside the matrix). -/
def visible (matrix : List (List Bool)) (i j : Nat) : Bool :=
  (matrix.getD i []).getD j false

/-- The symmetric closure of a visibility matrix. -/
def symClosure (matrix : List (List Bool)) : List (List Bool) :=
  (List.range matrix.length).map (fun i =>
    (List.range matrix.length).map (fun j => visible matrix i j || visible matrix j i))

/-- The edges `CreateGraph` asks for: `a` and `b` are port nodes of base nodes
`i` and `j`, in either order, with `visibility[i][j]` true. -/
def EdgeRel (nodes : List BaseNode) (matrix : List (List Bool)) (a b : String) : Prop :=
  ∃ (i j : Nat) (bi bj : BaseNode) (k l : Nat), nodes[i]? = some bi ∧ nodes[j]? = some bj ∧ visible matrix i j = true ∧
    (1 ≤ k ∧ k ≤ bi.portCount) ∧ (1 ≤ l ∧ l ≤ bj.portCount) ∧
    ((a = portId bi.id k ∧ b = portId bj.id l) ∨ (b = portId bi.id k ∧ a = portId bj.id l))

/-- The value of a list of decimal digit characters. -/
def digitsValue (l : List Char) : Nat :=
  l.foldl (fun acc c => acc * 10 + (c.toNat - 48)) 0

/-- Scenario A of the design document: three base nodes with one port each,
capacities 5, 3, 5. -/
def scenarioNodes : List BaseNode :=
  [{ id := "A", name := "a", ports := some 1, portgen := some 5 },
   { id := "B", name := "b", ports := some 1, portgen := some 3 },
   { id := "C", name := "c", ports := some 1, portgen := some 5 }]

/-- Scenario A: visibility `A - B` and `B - C` only. -/
def scenarioMatrix : List (List Bool) :=
  [[false, true, false], [true, false, true], [false, true, false]]

/-- The edges one port `p` of the base node `id` asks for, along its row of the
visibility matrix: to every port of every base node the row marks visible. -/
def PortEdges (nodes : List BaseNode) (row : List Bool) (id : String) (p : Nat)
    (a b : String) : Prop :=
  ∃ (t : Nat) (nb : BaseNode) (l : Nat), row[t]? = some true ∧ nodes[t]? = some nb ∧
    (1 ≤ l ∧ l ≤ nb.portCount) ∧
    ((a = portId id p ∧ b = portId nb.id l) ∨ (b = portId id p ∧ a = portId nb.id l))

/-- The nodes of a graph: the keys of its capacity map. -/
def Graph.nodeIds (g : Graph) : List String := g.portgen.map Prod.fst

/-- Scenario A with a visibility matrix that lists each link in one direction only. -/
def scenarioMatrixOneWay : List (List Bool) :=
  [[false, true, false], [false, false, true], [false, false, false]]

/-- A base node that reports a port count of 0. -/
def zeroPortNode : BaseNode := { id := "b", name := "b", ports := some 0, portgen := some 5 }

/-- Two base nodes, the first with a port count of 0, visible to each other. -/
def twoNodes : List BaseNode :=
  [zeroPortNode, { id := "c", name := "c", ports := some 2, portgen := some 4 }]

/-- The visibility matrix of `twoNodes`. -/
def twoMatrix : List (List Bool) := [[false, true], [true, false]]

/-- The graph `CreateGraph` builds from `twoNodes` and `twoMatrix`. -/
def twoGraph : Graph :=
  { adj := [("b:port1", ["c:port1", "c:port2"]), ("c:port1", ["b:port1"]),
      ("c:port2", ["b:port1"])],
    portgen := [("b", 5), ("b:port1", 5), ("c", 4), ("c:port1", 4), ("c:port2", 4)] }

/-- Two base nodes, visible to each other, that report no capacity. -/
def noCapNodes : List BaseNode :=
  [{ id := "A", name := "a", ports := some 1, portgen := none },
   { id := "B", name := "b", ports := some 1, portgen := none }]

/-- The graph `CreateGraph` builds from `noCapNodes` and `twoMatrix`: every
capacity is -1. -/
def noCapGraph : Graph :=
  { adj := [("A:port1", ["B:port1"]), ("B:port1", ["A:port1"])],
    portgen := [("A", -1), ("A:port1", -1), ("B", -1), ("B:port1", -1)] }

/-! ## communications/model : the relay coordinator -/

/-- Go `type Instruction struct { Origin, Objective *LogicalNode; Payload string }`.
A pointer to a logical node is its index in the coordinator's node slice;
`none` is nil. -/
structure Instruction where
  Origin : Option Nat
  Objective : Option Nat
  Payload : String
deriving DecidableEq, Repr

/-- Go `Instruction{}`. -/
def Instruction.empty : Instruction := { Origin := none, Objective := none, Payload := "" }

/-- Go `type LogicalNode struct`. -/
structure LogicalNode where
  ID : String
  Name : String
  Message : Instruction
  Memory : List String
  State : String
deriving DecidableEq, Repr

/-- Go `&LogicalNode{}`. -/
def LogicalNode.empty : LogicalNode :=
  { ID := "", Name := "", Message := Instruction.empty, Memory := [], State := "" }

/-- The JSON object `msg` that `sendMessageToDB` posts to the message store. -/
structure Delivery where
  reciever_id : String
  sender_id : String
  payload : String
deriving DecidableEq, Repr

/-- The state the coordinator owns: the node slice and the restriction set of
`communications/main.go`, and the records handed to the delivery sink so far
(oldest first). -/
structure Coordinator where
  logicalNodes : List LogicalNode
  restrictions : List String
  delivered : List Delivery
deriving DecidableEq, Repr

/-- The route query as `GetPath` sees it: start, end and excluded ids to the
path of the answer, `[]` when `GetPath` returns nil. -/
abbrev Router := String → String → List String → List String

/-- Go `restrictions[id] = struct{}{}`. -/
def setAdd (s : List String) (id : String) : List String :=
  if id ∈ s then s else s ++ [id]

/-- Go `delete(restrictions, id)`. -/
def setDel (s : List String) (id : String) : List String :=
  s.filter (fun x => x ≠ id)

/-- Go `GetLogicalNodes`, on the node array it fetches: one logical node per port. -/
def GetLogicalNodes (rawNodes : List BaseNode) : List LogicalNode :=
  rawNodes.flatMap (fun node =>
    match node.ports with
    | some ports =>
      (List.range' 1 ports.toNat).map (fun i =>
        { ID := portId node.id i
          Name := node.name ++ " (port " ++ toString i ++ ")"
          Message := Instruction.empty, Memory := [], State := "" })
    | none =>
      [{ ID := portId node.id 1, Name := node.name ++ " (port 1)"
         Message := Instruction.empty, Memory := [], State := "" }])

/-- Go `(ln *LogicalNode) SendInstruction(objLn, msg)`, on the node at index `i`. -/
def SendInstruction (logicalNodes : List LogicalNode) (i objLn : Nat) (msg : String) :
    List LogicalNode :=
  match logicalNodes[i]? with
  | none => logicalNodes
  | some ln =>
    logicalNodes.set i
      { ln with
        Message := { Origin := some i, Objective := some objLn, Payload := msg }
        State := "wsc" }

/-- Go `(ln *LogicalNode) GetPath(restrictions)`: the excluded ids are the
restriction set without the holder and the objective.  `none` is the nil
dereference of `ln.Message.Objective`. -/
def GetPath (router : Router) (logicalNodes : List LogicalNode) (ln : LogicalNode)
    (restrictions : List String) : Option (List String) :=
  match ln.Message.Objective.bind (fun o => logicalNodes[o]?) with
  | none => none
  | some objective =>
    some (router ln.ID objective.ID
      (restrictions.filter (fun id => id ≠ ln.ID ∧ id ≠ objective.ID)))

/-- Go `GetLogicalNodeById`: the index of the first node with this id; `none`
stands for the fresh `&LogicalNode{}` returned when there is none. -/
def GetLogicalNodeById (id : String) : List LogicalNode → Option Nat
  | [] => none
  | ln :: rest =>
    if ln.ID = id then some 0 else (GetLogicalNodeById id rest).map (fun j => j + 1)

/-- The closure `stripID` of `sendMessageToDB`: the id up to its first `:`. -/
def stripID (fullID : String) : String :=
  String.mk (fullID.data.takeWhile (fun ch => ch ≠ ':'))

/-- The record `sendMessageToDB(origin, target)` builds and posts. -/
def sendMessageToDB (origin target : LogicalNode) : Delivery :=
  { reciever_id := stripID target.ID
    sender_id := stripID origin.ID
    payload := target.Message.Payload }

/-- A write through the pointer `tempLn`: to the node at its index, or to the
fresh node, which nobody else sees. -/
def writeNode (logicalNodes : List LogicalNode) (p : Option Nat) (v : LogicalNode) :
    List LogicalNode :=
  match p with
  | none => logicalNodes
  | some j => logicalNodes.set j v

/-- A read through the pointer `tempLn`. -/
def readNode (logicalNodes : List LogicalNode) (p : Option Nat) : LogicalNode :=
  match p.bind (fun j => logicalNodes[j]?) with
  | none => LogicalNode.empty
  | some t => t

/-- Go `ln.Message = Instruction{}; ln.State = ""` on the node at index `i`. -/
def clearNode (logicalNodes : List LogicalNode) (i : Nat) : List LogicalNode :=
  match logicalNodes[i]? with
  | none => logicalNodes
  | some t => logicalNodes.set i { t with Message := Instruction.empty, State := "" }

/-- The body of `for _, ln := range logicalNodes` in `CommunicationProtocol`, for
the node at index `i`.  `none` is the panic of `GetPath`. -/
def relayStep (router : Router) (c : Coordinator) (i : Nat) : Option Coordinator :=
  match c.logicalNodes[i]? with
  | none => some c
  | some ln =>
    if ln.State ≠ "wsc" then some c
    else
      match GetPath router c.logicalNodes ln c.restrictions with
      | none => none
      | some path =>
        match path with
        | [] => some c
        | [_] => some c
        | _ :: hop :: _ =>
          let tempLn := GetLogicalNodeById hop c.logicalNodes
          let t1 : LogicalNode := { readNode c.logicalNodes tempLn with Message := ln.Message }
          let r1 := setAdd c.restrictions t1.ID
          let objectiveID :=
            (ln.Message.Objective.bind (fun o => c.logicalNodes[o]?)).map (fun o => o.ID)
          if objectiveID = some t1.ID then
            let record := sendMessageToDB ln t1
            let n2 := writeNode c.logicalNodes tempLn
              { t1 with State := "", Message := Instruction.empty }
            some { logicalNodes := clearNode n2 i
                   restrictions := setDel (setDel r1 t1.ID) ln.ID
                   delivered := c.delivered ++ [record] }
          else
            let n2 := writeNode c.logicalNodes tempLn { t1 with State := "wsc" }
            some { logicalNodes := clearNode n2 i
                   restrictions := setDel r1 ln.ID
                   delivered := c.delivered }

/-- One pass from index `i` on: the loop of `CommunicationProtocol` over the
nodes `i, i+1, ..`. -/
def passFrom (router : Router) (i : Nat) (c : Coordinator) : Option Coordinator :=
  (List.range' i (c.logicalNodes.length - i)).foldlM (relayStep router) c

/-- Go `CommunicationProtocol(logicalNodes, restrictions)`: one pass. -/
def CommunicationProtocol (router : Router) (c : Coordinator) : Option Coordinator :=
  passFrom router 0 c

/-- Go `matchesBaseID`: `baseID` is a leading part of `fullID`. -/
def matchesBaseID (fullID baseID : String) : Bool :=
  decide (fullID.data.length ≥ baseID.data.length) &&
    decide (fullID.data.take baseID.data.length = baseID.data)

/-- Go `getFreePortNode`: the index of the first node of the base id that is
not in the restriction set; `none` is nil. -/
def getFreePortFrom (baseID : String) (restrictions : List String) :
    Nat → List LogicalNode → Option Nat
  | _, [] => none
  | i, ln :: rest =>
    if matchesBaseID ln.ID baseID = true ∧ ln.ID ∉ restrictions then some i
    else getFreePortFrom baseID restrictions (i + 1) rest

/-- Go `getFreePortNode(baseID, logicalNodes, restrictions)`. -/
def getFreePortNode (baseID : String) (logicalNodes : List LogicalNode)
    (restrictions : List String) : Option Nat :=
  getFreePortFrom baseID restrictions 0 logicalNodes

/-- Go `SendMessage(originID, destinationID, message, logicalNodes, restrictions)`. -/
def SendMessage (originID destinationID message : String) (c : Coordinator) : Coordinator :=
  match getFreePortNode originID c.logicalNodes c.restrictions,
    getFreePortNode destinationID c.logicalNodes c.restrictions with
  | some origin, some destination =>
    { c with logicalNodes := SendInstruction c.logicalNodes origin destination message }
  | _, _ => c

/-- The route query answered by the pathfinder service (`/path` in
`pathfinder/main.go`) over a fixed topology, as `GetPath` decodes the answer: the
path on success, nil otherwise.  Ids are taken to contain no comma, blank or
URL-reserved character, so that the query string carries them unchanged. -/
def pathfinder (nodes : List BaseNode) (matrix : List (List Bool)) : Router :=
  fun start end_ restricted =>
    if start = "" ∨ end_ = "" then []
    else
      match CreateGraph nodes matrix with
      | none => []
      | some g =>
        match g.WidestPath start end_ (fun x => decide (x ∈ restricted)) with
        | some (path, true) => path
        | _ => []

/-- The coordinator at start-up: every port node Idle, nothing restricted,
nothing delivered. -/
def initCoordinator (rawNodes : List BaseNode) : Coordinator :=
  { logicalNodes := GetLogicalNodes rawNodes, restrictions := [], delivered := [] }

/-- Scenario A after `SendMessage(A, C, "hi")`. -/
def scenarioStart : Coordinator := SendMessage "A" "C" "hi" (initCoordinator scenarioNodes)

/-- Scenario A with the node list in the order `C, B, A`, after
`SendMessage(A, C, "hi")`. -/
def scenarioStartReversed : Coordinator :=
  SendMessage "A" "C" "hi" (initCoordinator scenarioNodes.reverse)

/-- The state after the holder at index `i` has handed its Instruction to the
node at index `j`, which is not the objective: `j` is RelayPending and holds the
Instruction, `i` is Idle, and `j` has replaced `i` in the restriction set. -/
def afterHop (c : Coordinator) (i j : Nat) (ln tj : LogicalNode) : Coordinator :=
  { logicalNodes :=
      (c.logicalNodes.set j { tj with Message := ln.Message, State := "wsc" }).set i
        { ln with Message := Instruction.empty, State := "" }
    restrictions := setDel (setAdd c.restrictions tj.ID) ln.ID
    delivered := c.delivered }

/-- The router of Scenario A: the pathfinder over the fixed topology. -/
def scenarioRouter : Router := pathfinder scenarioNodes scenarioMatrix

/-- Port node `A:port1` holding the Instruction of Scenario A, in the list order
`C, B, A`. -/
def holderA : LogicalNode :=
  { ID := "A:port1", Name := "a (port 1)",
    Message := { Origin := some 2, Objective := some 0, Payload := "hi" },
    Memory := [], State := "wsc" }

/-- Port node `B:port1`, Idle. -/
def idleB : LogicalNode :=
  { ID := "B:port1", Name := "b (port 1)", Message := Instruction.empty, Memory := [],
    State := "" }

/-- Port node `C:port1`, Idle. -/
def idleC : LogicalNode :=
  { ID := "C:port1", Name := "c (port 1)", Message := Instruction.empty, Memory := [],
    State := "" }

/-! ## communications/main.go : the originate command -/

/-- Go `type SendRequest struct` of `handleSendMessage`, after JSON decoding (an
absent field is the empty string). -/
structure SendRequest where
  Origin : String
  Destination : String
  Message : String
deriving DecidableEq, Repr

/-- What `handleSendMessage` writes to its `http.ResponseWriter`: the status
code and the body. -/
structure HttpResponse where
  status : Nat
  body : String
deriving DecidableEq, Repr

/-- Go `handleSendMessage(w, r)`: the request method, the decoded body (`none`
when decoding fails) and the coordinator state to the response and the state
afterwards.  `http.Error` ends the body with a newline. -/
def handleSendMessage (method : String) (body : Option SendRequest) (c : Coordinator) :
    HttpResponse × Coordinator :=
  if method ≠ "POST" then ({ status := 405, body := "Only POST allowed\n" }, c)
  else
    match body with
    | none => ({ status := 400, body := "Invalid JSON\n" }, c)
    | some req =>
      if req.Origin = "" ∨ req.Destination = "" ∨ req.Message = "" then
        ({ status := 400, body := "Missing origin, destination, or message\n" }, c)
      else
        ({ status := 200, body := "Message sent" },
          SendMessage req.Origin req.Destination req.Message c)

/-! ## Runs of the coordinator -/

/-- An event the coordinator serves: an originate command, or a tick, with the
router that answers the route queries of that pass. -/
inductive Op where
  | send (originID destinationID message : String)
  | tick (router : Router)

/-- The coordinator state after a sequence of events (`none`: a pass panicked). -/
def run : List Op → Coordinator → Option Coordinator
  | [], c => some c
  | Op.send originID destinationID message :: rest, c =>
    run rest (SendMessage originID destinationID message c)
  | Op.tick router :: rest, c => (CommunicationProtocol router c).bind (run rest)

/-- Every PortNode is Idle and holds the empty Instruction, and the
RestrictionSet is empty. -/
def AllIdle (c : Coordinator) : Prop :=
  (∀ ln ∈ c.logicalNodes, ln.State ≠ "wsc" ∧ ln.Message = Instruction.empty) ∧
    c.restrictions = []

/-- Every next hop the router returns is one of the ids `ids`. -/
def HopsExist (router : Router) (ids : List String) : Prop :=
  ∀ (start end_ : String) (restricted : List String) (first hop : String)
    (rest : List String), router start end_ restricted = first :: hop :: rest → hop ∈ ids

/-- The invariant of the coordinator: restricted ids belong to RelayPending
nodes, a RelayPending node has an objective in the node slice and is the first
node with its id, and an Idle node holds the empty Instruction. -/
structure Sound (c : Coordinator) : Prop where
  restricted : ∀ id ∈ c.restrictions,
    ∃ (i : Nat) (ln : LogicalNode), c.logicalNodes[i]? = some ln ∧ ln.ID = id ∧ ln.State = "wsc"
  pending : ∀ (i : Nat) (ln : LogicalNode), c.logicalNodes[i]? = some ln → ln.State = "wsc" →
    ∃ o, ln.Message.Objective = some o ∧ o < c.logicalNodes.length
  first : ∀ (i : Nat) (ln : LogicalNode), c.logicalNodes[i]? = some ln → ln.State = "wsc" →
    GetLogicalNodeById ln.ID c.logicalNodes = some i
  idle : ∀ (i : Nat) (ln : LogicalNode), c.logicalNodes[i]? = some ln → ln.State ≠ "wsc" →
    ln.Message = Instruction.empty

/-! ## Further scenarios -/

/-- Scenario A after a second `SendMessage(A, C, "again")`. -/
def scenarioSecondSend : Coordinator := SendMessage "A" "C" "again" scenarioStart

/-- Base nodes `AB`, `A`, `C`: the id of the second is a leading part of the id
of the first. -/
def overlapNodes : List BaseNode :=
  [{ id := "AB", name := "ab", ports := some 1, portgen := some 5 },
   { id := "A", name := "a", ports := some 1, portgen := some 5 },
   { id := "C", name := "c", ports := some 1, portgen := some 5 }]

/-- Scenario A where the relay node `B` reports a port count of 0: the graph of
the pathfinder has the node `B:port1`, the coordinator has no such PortNode. -/
def ghostNodes : List BaseNode :=
  [{ id := "A", name := "a", ports := some 1, portgen := some 5 },
   { id := "B", name := "b", ports := some 0, portgen := some 3 },
   { id := "C", name := "c", ports := some 1, portgen := some 5 }]

/-- The coordinator of `ghostNodes` after `SendMessage(A, C, "hi")`. -/
def ghostStart : Coordinator := SendMessage "A" "C" "hi" (initCoordinator ghostNodes)

/-- Five base nodes `Q, X, P, R, Y`, one port each, equal capacities. -/
def crossNodes : List BaseNode :=
  [{ id := "Q", name := "q", ports := some 1, portgen := some 5 },
   { id := "X", name := "x", ports := some 1, portgen := some 5 },
   { id := "P", name := "p", ports := some 1, portgen := some 5 },
   { id := "R", name := "r", ports := some 1, portgen := some 5 },
   { id := "Y", name := "y", ports := some 1, portgen := some 5 }]

/-- The links `P - Q`, `Q - X`, `R - X`, `X - Y` of `crossNodes`. -/
def crossMatrix : List (List Bool) :=
  [[false, true, true, false, false],
   [true, false, false, true, true],
   [true, false, false, false, false],
   [false, true, false, false, false],
   [false, true, false, false, false]]

/-- The router over the topology of `crossNodes`. -/
def crossRouter : Router := pathfinder crossNodes crossMatrix

/-- Two relays over `crossNodes`: `P` to `X` with payload `m`, and `R` to `Y`
with payload `n`, which has to pass through `X`. -/
def crossSends : List Op := [Op.send "P" "X" "m", Op.send "R" "Y" "n"]

/-- Scenario C: the nodes of Scenario A with no link at all. -/
def isolatedMatrix : List (List Bool) :=
  [[false, false, false], [false, false, false], [false, false, false]]

/-- The router over the topology of Scenario C. -/
def isolatedRouter : Router := pathfinder scenarioNodes isolatedMatrix

/-- Port node `A:port1` holding the Instruction of Scenario A, in the list order
`A, B, C`. -/
def pendingA : LogicalNode :=
  { ID := "A:port1", Name := "a (port 1)",
    Message := { Origin := some 0, Objective := some 2, Payload := "hi" },
    Memory := [], State := "wsc" }

/-- A well-formed originate request for a base id that has no port node. -/
def unknownRequest : SendRequest := { Origin := "Z", Destination := "C", Message := "hi" }

/-- A well-formed originate request of Scenario A. -/
def scenarioRequest : SendRequest := { Origin := "A", Destination := "C", Message := "hi" }

/-- Scenario A in the list order `C, B, A`, one pass after `SendMessage(A, C, "hi")`: the
Instruction is with `B:port1`. -/
def scenarioMidway : Coordinator := afterHop scenarioStartReversed 2 1 holderA idleB

/-- Port node `B:port1` holding the Instruction of Scenario A, list order `C, B, A`. -/
def holderB : LogicalNode := { idleB with Message := holderA.Message, State := "wsc" }

/-- An Idle port node with the given id and name. -/
def idleNode (id name : String) : LogicalNode :=
  { ID := id, Name := name, Message := Instruction.empty, Memory := [], State := "" }

/-- The node `t`, RelayPending with the Instruction `m`. -/
def armed (t : LogicalNode) (m : Instruction) : LogicalNode :=
  { t with Message := m, State := "wsc" }

/-- The coordinator of `crossNodes` after the two `SendMessage` calls of `crossSends`. -/
def crossStart : Coordinator :=
  SendMessage "R" "Y" "n" (SendMessage "P" "X" "m" (initCoordinator crossNodes))

/-- The Instruction from `P` to `X`. -/
def instrM : Instruction := { Origin := some 2, Objective := some 1, Payload := "m" }

/-- The Instruction from `R` to `Y`. -/
def instrN : Instruction := { Origin := some 3, Objective := some 4, Payload := "n" }

/-- During the first pass over `crossStart`, after `P:port1` has handed `instrM` to
`Q:port1`: `Q:port1` is RelayPending and restricted, `R:port1` is still to be processed. -/
def crossAfterP : Coordinator :=
  afterHop crossStart 2 0 (armed (idleNode "P:port1" "p (port 1)") instrM)
    (idleNode "Q:port1" "q (port 1)")

/-- The coordinator of `crossNodes` after the first pass: `Q:port1` holds `instrM`, whose
objective is `X:port1`, and `X:port1` holds `instrN`; both are restricted. -/
def crossMidway : Coordinator :=
  { logicalNodes :=
      [armed (idleNode "Q:port1" "q (port 1)") instrM,
       armed (idleNode "X:port1" "x (port 1)") instrN,
       idleNode "P:port1" "p (port 1)", idleNode "R:port1" "r (port 1)",
       idleNode "Y:port1" "y (port 1)"],
    restrictions := ["Q:port1", "X:port1"],
    delivered := [] }

/-- The number of logical nodes `GetLogicalNodes` creates for a base node. -/
def BaseNode.logicalPorts (b : BaseNode) : Nat :=
  match b.ports with
  | some ports => ports.toNat
  | none => 1

/-- A run over Scenario A: a relay from `A` to `C`, a pass, a second
`SendMessage`, and two more passes. -/
def scenarioOps : List Op :=
  [Op.send "A" "C" "hi", Op.tick scenarioRouter, Op.send "B" "A" "yo",
   Op.tick scenarioRouter, Op.tick scenarioRouter]

/-! ## Maps and edges -/

theorem mapGet_mapSet {β : Type} (d : β) (m : List (String × β)) (k k' : String) (v : β) :
    mapGet d (mapSet m k v) k' = if k = k' then v else mapGet d m k' := by
  induction m with
  | nil => simp [mapSet, mapGet]
  | cons e rest ih =>
    obtain ⟨k0, v0⟩ := e
    by_cases h0 : k0 = k
    · subst h0
      by_cases h1 : k0 = k' <;> simp [mapSet, mapGet, h1]
    · by_cases h1 : k0 = k'
      · subst h1
        simp [mapSet, mapGet, h0, Ne.symm h0]
      · simp [mapSet, mapGet, h0, h1, ih]

theorem contains_iff (slice : List String) (val : String) :
    contains slice val = true ↔ val ∈ slice := by
  induction slice with
  | nil => simp [contains]
  | cons item rest ih =>
    by_cases h : item = val
    · simp [contains, h]
    · simp [contains, h, ih, Ne.symm h]

theorem mem_neighbors_link (g : Graph) (x y a b : String) :
    b ∈ (g.link x y).neighbors a ↔ b ∈ g.neighbors a ∨ (a = x ∧ b = y) := by
  unfold Graph.link
  by_cases h1 : contains (g.neighbors x) y = true
  · have h1m := (contains_iff _ _).1 h1
    simp only [h1, Bool.not_true, Bool.false_eq_true, if_false]
    constructor
    · intro h; exact Or.inl h
    · rintro (h | ⟨rfl, rfl⟩)
      · exact h
      · exact h1m
  · simp only [h1, Bool.not_false, if_true]
    by_cases ha : x = a
    · subst ha
      simp [Graph.neighbors, mapGet_mapSet]
    · have ha' : ¬ a = x := fun h => ha h.symm
      simp [Graph.neighbors, mapGet_mapSet, ha, ha']

theorem mem_neighbors_addEdge (g : Graph) (node neighbor a b : String) :
    b ∈ (g.addEdge node neighbor).neighbors a ↔
      b ∈ g.neighbors a ∨ (a = node ∧ b = neighbor) ∨ (a = neighbor ∧ b = node) := by
  unfold Graph.addEdge
  rw [mem_neighbors_link, mem_neighbors_link, or_assoc]

theorem mem_neighbors_AddEdges (node : String) (neighbors : List String) (g : Graph)
    (a b : String) :
    b ∈ (g.AddEdges node neighbors).neighbors a ↔
      b ∈ g.neighbors a ∨ (a = node ∧ b ∈ neighbors) ∨ (b = node ∧ a ∈ neighbors) := by
  induction neighbors generalizing g with
  | nil => simp [Graph.AddEdges]
  | cons n rest ih =>
    have h := ih (g.addEdge node n)
    simp only [Graph.AddEdges, List.foldl_cons] at h ⊢
    rw [h, mem_neighbors_addEdge]
    simp only [List.mem_cons]
    constructor
    · rintro ((h1 | ⟨rfl, rfl⟩ | ⟨rfl, rfl⟩) | ⟨rfl, h1⟩ | ⟨rfl, h1⟩)
      · exact Or.inl h1
      · exact Or.inr (Or.inl ⟨rfl, Or.inl rfl⟩)
      · exact Or.inr (Or.inr ⟨rfl, Or.inl rfl⟩)
      · exact Or.inr (Or.inl ⟨rfl, Or.inr h1⟩)
      · exact Or.inr (Or.inr ⟨rfl, Or.inr h1⟩)
    · rintro (h1 | ⟨rfl, rfl | h1⟩ | ⟨rfl, rfl | h1⟩)
      · exact Or.inl (Or.inl h1)
      · exact Or.inl (Or.inr (Or.inl ⟨rfl, rfl⟩))
      · exact Or.inr (Or.inl ⟨rfl, h1⟩)
      · exact Or.inl (Or.inr (Or.inr ⟨rfl, rfl⟩))
      · exact Or.inr (Or.inr ⟨rfl, h1⟩)

theorem portgen_link (g : Graph) (x y : String) : (g.link x y).portgen = g.portgen := by
  unfold Graph.link
  split <;> rfl

theorem portgen_AddEdges (node : String) (neighbors : List String) (g : Graph) :
    (g.AddEdges node neighbors).portgen = g.portgen := by
  induction neighbors generalizing g with
  | nil => rfl
  | cons n rest ih =>
    have h := ih (g.addEdge node n)
    simp only [Graph.AddEdges, List.foldl_cons] at h ⊢
    rw [h]
    simp [Graph.addEdge, portgen_link]

theorem Symmetric_AddEdges (g : Graph) (node : String) (neighbors : List String)
    (h : g.Symmetric) : (g.AddEdges node neighbors).Symmetric := by
  intro a b
  rw [mem_neighbors_AddEdges, mem_neighbors_AddEdges, h a b]
  constructor
  · rintro (h1 | h1 | h1)
    · exact Or.inl h1
    · exact Or.inr (Or.inr h1)
    · exact Or.inr (Or.inl h1)
  · rintro (h1 | h1 | h1)
    · exact Or.inl h1
    · exact Or.inr (Or.inr h1)
    · exact Or.inr (Or.inl h1)

/-- C7: starting from `NewGraph`, after any sequence of `AddEdges` calls, `b` is in
the neighbor list of `a` if and only if `a` is in the neighbor list of `b`. -/
theorem AddEdges_adjacency_symmetric (calls : List (String × List String)) (a b : String) :
    b ∈ (calls.foldl (fun g c => g.AddEdges c.1 c.2) NewGraph).neighbors a ↔
      a ∈ (calls.foldl (fun g c => g.AddEdges c.1 c.2) NewGraph).neighbors b := by
  have key : ∀ (cs : List (String × List String)) (g : Graph), g.Symmetric →
      (cs.foldl (fun g c => g.AddEdges c.1 c.2) g).Symmetric := by
    intro cs
    induction cs with
    | nil => intro g hg; exact hg
    | cons c rest ih =>
      intro g hg
      exact ih _ (Symmetric_AddEdges g c.1 c.2 hg)
  exact key calls NewGraph (fun x y => by simp [NewGraph, Graph.neighbors, mapGet]) a b

/-- C5: `WidestPath(s, s, excluded)` is the one-element path `[s]` with found = true,
for every graph, node id and excluded set. -/
theorem WidestPath_same_node (g : Graph) (s : String) (restricted : String → Bool) :
    g.WidestPath s s restricted = some ([s], true) := by
  simp [Graph.WidestPath]


/-! ## The frontier scan -/

theorem scanBest_spec (rest : List State) :
    ∀ (pre : List State) (best : Nat) (c : State),
      pre[best]? = some c → (∀ e ∈ pre, e.minPG ≤ c.minPG) →
      ∃ c', (pre ++ rest)[scanBest rest pre.length best c.minPG]? = some c' ∧
        ∀ e ∈ pre ++ rest, e.minPG ≤ c'.minPG := by
  induction rest with
  | nil =>
    intro pre best c hb hmax
    exact ⟨c, by simpa [scanBest] using hb, by simpa using hmax⟩
  | cons q rest ih =>
    intro pre best c hb hmax
    have happ : pre ++ q :: rest = (pre ++ [q]) ++ rest := by simp
    have hlen : (pre ++ [q]).length = pre.length + 1 := by simp
    by_cases hq : q.minPG > c.minPG
    · have h1 : (pre ++ [q])[pre.length]? = some q := by simp
      have h2 : ∀ e ∈ pre ++ [q], e.minPG ≤ q.minPG := by
        intro e he
        rcases List.mem_append.1 he with he | he
        · exact le_trans (hmax e he) (le_of_lt hq)
        · simp at he; subst he; exact le_refl _
      obtain ⟨c', hc', hmax'⟩ := ih (pre ++ [q]) pre.length q h1 h2
      refine ⟨c', ?_, ?_⟩
      · simp only [scanBest, hq, if_true]
        rw [happ, ← hlen]; exact hc'
      · rw [happ]; exact hmax'
    · have h1 : (pre ++ [q])[best]? = some c := by
        have hlt : best < pre.length := by
          by_contra hcon
          rw [List.getElem?_eq_none (not_lt.1 hcon)] at hb
          exact absurd hb (by simp)
        rw [List.getElem?_append_left hlt]; exact hb
      have h2 : ∀ e ∈ pre ++ [q], e.minPG ≤ c.minPG := by
        intro e he
        rcases List.mem_append.1 he with he | he
        · exact hmax e he
        · simp at he; subst he; exact not_lt.1 hq
      obtain ⟨c', hc', hmax'⟩ := ih (pre ++ [q]) best c h1 h2
      refine ⟨c', ?_, ?_⟩
      · simp only [scanBest, hq, if_false]
        rw [happ, ← hlen]; exact hc'
      · rw [happ]; exact hmax'

theorem bestIdx_spec (q0 : State) (rest : List State) :
    ∃ c, (q0 :: rest)[bestIdx (q0 :: rest)]? = some c ∧ ∀ e ∈ q0 :: rest, e.minPG ≤ c.minPG := by
  have h := scanBest_spec rest [q0] 0 q0 (by simp) (by simp)
  simpa [bestIdx] using h

theorem mem_eraseIdx_of_ne {l : List State} {i : Nat} {c x : State}
    (hc : l[i]? = some c) (hx : x ∈ l) (hne : x ≠ c) : x ∈ l.eraseIdx i := by
  rw [List.mem_eraseIdx_iff_getElem?]
  obtain ⟨j, hj⟩ := List.getElem?_of_mem hx
  refine ⟨j, ?_, hj⟩
  intro hji
  subst hji
  rw [hj] at hc
  exact hne (Option.some.inj hc)

/-! ## Reachability and trails -/

theorem Reach_le_cap {g : Graph} {start end_ : String} {restricted : String → Bool}
    {v : String} {m : Int} (h : Reach g start end_ restricted v m) : m ≤ g.cap v := by
  cases h with
  | base _ h => exact h
  | step _ _ _ _ _ _ h => exact h

theorem Reach_mono {g : Graph} {start end_ : String} {restricted : String → Bool}
    {v : String} {m m' : Int} (h : Reach g start end_ restricted v m) (hle : m' ≤ m) :
    Reach g start end_ restricted v m' := by
  induction h with
  | base _ h => exact Reach.base _ (le_trans hle h)
  | step u v _ _ hadj hal hcap ih =>
    exact Reach.step u v _ (ih hle) hadj hal (le_trans hle hcap)

theorem Trail_congr {prev prev' : String → String} {start v : String} {rp : List String}
    (h : Trail prev start v rp) (hagree : ∀ x ∈ rp, prev' x = prev x) :
    Trail prev' start v rp := by
  induction h with
  | root => exact Trail.root
  | step v rp hne _ ih =>
    have hv : prev' v = prev v := hagree v (List.mem_cons_self _ _)
    refine Trail.step v rp hne ?_
    rw [hv]
    exact ih (fun x hx => hagree x (List.mem_cons_of_mem _ hx))

theorem Trail_head {prev : String → String} {start v : String} {rp : List String}
    (h : Trail prev start v rp) : rp.head? = some v := by
  cases h <;> rfl

theorem Trail_getLast {prev : String → String} {start v : String} {rp : List String}
    (h : Trail prev start v rp) : rp.getLast? = some start := by
  induction h with
  | root => rfl
  | step v rp _ htr ih =>
    cases rp with
    | nil => cases htr
    | cons y ys => rw [List.getLast?_cons_cons]; exact ih

theorem buildPath_of_Trail {prev : String → String} {start v : String} {rp : List String}
    (h : Trail prev start v rp) :
    ∀ (fuel : Nat) (acc : List String), rp.length ≤ fuel →
      buildPath prev start fuel v (v :: acc) = some (rp.reverse ++ acc) := by
  induction h with
  | root =>
    intro fuel acc hf
    cases fuel with
    | zero => simp at hf
    | succ f => simp [buildPath]
  | step v rp hne htr ih =>
    intro fuel acc hf
    cases fuel with
    | zero => simp at hf
    | succ f =>
      have hf' : rp.length ≤ f := by simpa using hf
      simp only [buildPath, hne, if_false]
      rw [ih f (v :: acc) hf']
      simp

/-! ## One neighbor -/

theorem Mid_skip {g : Graph} {start end_ : String} {restricted : String → Bool}
    {k : Nat} {current : State} {w : String} {todo : List String} {s : Search}
    (h : Mid g start end_ restricted k current (w :: todo) s)
    (hw : Allowed start end_ restricted w → s.visited w = false →
      min current.minPG (g.cap w) ≤ s.maxPortgen w) :
    Mid g start end_ restricted k current todo s := by
  refine ⟨?_, h.startVisited, h.curVisited, h.curVal, h.curCap,
    fun x hx => h.todoSub x (List.mem_cons_of_mem _ hx)⟩
  refine ⟨h.inv.startVal, h.inv.fresh, h.inv.nonneg, h.inv.queueLe, h.inv.queuePos,
    h.inv.linked, h.inv.pending, h.inv.visitedPos, h.inv.trail, h.inv.optimal, ?_⟩
  intro u w' hu hadj hal hw' htodo
  by_cases hww : w' = w
  · subst hww
    by_cases huc : u = current.node
    · subst huc
      rw [h.curVal]
      exact hw hal hw'
    · exact h.inv.relaxed u w' hu hadj hal hw' (fun hc => absurd hc huc)
  · refine h.inv.relaxed u w' hu hadj hal hw' (fun hc => ?_)
    intro hmem
    rcases List.mem_cons.1 hmem with hm | hm
    · exact hww hm
    · exact htodo hc hm

theorem relax_spec {g : Graph} {start end_ : String} {restricted : String → Bool}
    {k : Nat} {current : State} {w : String} {todo : List String} {s : Search}
    (h : Mid g start end_ restricted k current (w :: todo) s) :
    Mid g start end_ restricted k current todo (relax g start end_ restricted current s w) ∧
      (relax g start end_ restricted current s w).visited = s.visited ∧
      (relax g start end_ restricted current s w).queue.length ≤ s.queue.length + 1 := by
  unfold relax
  by_cases hres : w ≠ start ∧ w ≠ end_ ∧ restricted w = true
  · rw [if_pos hres]
    refine ⟨Mid_skip h ?_, rfl, Nat.le_succ _⟩
    intro hal _
    rcases hal with hal | hal | hal
    · exact absurd hal hres.1
    · exact absurd hal hres.2.1
    · rw [hres.2.2] at hal; exact absurd hal (by simp)
  rw [if_neg hres]
  have hal : Allowed start end_ restricted w := by
    unfold Allowed
    by_cases h1 : w = start
    · exact Or.inl h1
    by_cases h2 : w = end_
    · exact Or.inr (Or.inl h2)
    · right; right
      cases hr : restricted w with
      | false => rfl
      | true => exact absurd ⟨h1, h2, hr⟩ hres
  by_cases hvis : s.visited w = true
  · rw [if_pos hvis]
    refine ⟨Mid_skip h ?_, rfl, Nat.le_succ _⟩
    intro _ hw
    rw [hvis] at hw
    exact absurd hw (by simp)
  rw [if_neg hvis]
  have hwv : s.visited w = false := by simpa using hvis
  have hcap := h.curCap
  by_cases hgt : min current.minPG (min (g.cap current.node) (g.cap w)) > s.maxPortgen w
  · simp only [hgt, if_true]
    have hws : w ≠ start := by
      intro hc; rw [hc, h.startVisited] at hwv; exact absurd hwv (by simp)
    have hwc : w ≠ current.node := by
      intro hc; rw [hc, h.curVisited] at hwv; exact absurd hwv (by simp)
    have hnn := h.inv.nonneg w hws
    have hvne : ∀ x, s.visited x = true → x ≠ w := by
      intro x hx hc; rw [hc, hwv] at hx; exact absurd hx (by simp)
    refine ⟨⟨⟨?_, ?_, ?_, ?_, ?_, ?_, ?_, ?_, ?_, ?_, ?_⟩, h.startVisited, h.curVisited, ?_,
      h.curCap, fun x hx => h.todoSub x (List.mem_cons_of_mem _ hx)⟩, trivial, ?_⟩
    · -- startVal
      simp only [Ne.symm hws, if_false]
      exact h.inv.startVal
    · -- fresh
      intro hc
      have := h.startVisited
      simp only at hc
      rw [hc] at this; exact absurd this (by simp)
    · -- nonneg
      intro x hx
      by_cases hxw : x = w
      · simp only [hxw, if_true]; omega
      · simp only [hxw, if_false]; exact h.inv.nonneg x hx
    · -- queueLe
      intro e he
      rcases List.mem_append.1 he with he | he
      · have := h.inv.queueLe e he
        by_cases hxw : e.node = w
        · simp only [hxw, if_true]; rw [hxw] at this; omega
        · simp only [hxw, if_false]; exact this
      · simp only [List.mem_singleton] at he
        subst he
        simp
    · -- queuePos
      intro e he hne
      rcases List.mem_append.1 he with he | he
      · exact h.inv.queuePos e he hne
      · simp only [List.mem_singleton] at he
        subst he
        simp only; omega
    · -- linked
      intro x hx hpos
      by_cases hxw : x = w
      · subst hxw
        refine ⟨?_, ?_, hal, ?_, ?_⟩
        · simpa using h.curVisited
        · simpa using h.todoSub x (List.mem_cons_self _ _)
        · simp only [if_true, hwc.symm, if_false, h.curVal]; omega
        · simp only [if_true]; omega
      · simp only [hxw, if_false] at hpos
        have hl := h.inv.linked x hx hpos
        have hpw : s.prev x ≠ w := hvne _ hl.prevVisited
        refine ⟨?_, ?_, hl.allowed, ?_, ?_⟩
        · simpa [hxw] using hl.prevVisited
        · simpa [hxw] using hl.edge
        · simp only [hxw, if_false, hpw]; exact hl.value
        · simp only [hxw, if_false]; exact hl.pos
    · -- pending
      intro x hx hpos hxv
      by_cases hxw : x = w
      · subst hxw
        simp
      · simp only [hxw, if_false] at hpos ⊢
        exact List.mem_append_left _ (h.inv.pending x hx hpos hxv)
    · -- visitedPos
      intro x hx hxv
      simp only [hvne x hxv, if_false]
      exact h.inv.visitedPos x hx hxv
    · -- trail
      intro x hxv
      obtain ⟨rp, htr, hall, hnd, hlen⟩ := h.inv.trail x hxv
      refine ⟨rp, Trail_congr htr ?_, hall, hnd, hlen⟩
      intro y hy
      simp only [hvne y (hall y hy), if_false]
    · -- optimal
      intro x m hxv hr
      simp only [hvne x hxv, if_false]
      exact h.inv.optimal x m hxv hr
    · -- relaxed
      intro u w' hu hadj hal' hw' htodo
      simp only [hvne u hu, if_false]
      by_cases hww : w' = w
      · subst hww
        simp only [if_true]
        by_cases huc : u = current.node
        · subst huc
          rw [h.curVal]; omega
        · have := h.inv.relaxed u w' hu hadj hal' hw' (fun hc => absurd hc huc)
          omega
      · simp only [hww, if_false]
        refine h.inv.relaxed u w' hu hadj hal' hw' (fun hc => ?_)
        intro hmem
        rcases List.mem_cons.1 hmem with hm | hm
        · exact hww hm
        · exact htodo hc hm
    · -- curVal
      simp only [hwc.symm, if_false]
      exact h.curVal
    · simp
  · simp only [hgt, if_false]
    refine ⟨Mid_skip h ?_, trivial, Nat.le_succ _⟩
    intro _ _
    omega

/-! ## All neighbors of the settled node -/

theorem relaxAll_spec {g : Graph} {start end_ : String} {restricted : String → Bool}
    {k : Nat} {current : State} (todo : List String) :
    ∀ s : Search, Mid g start end_ restricted k current todo s →
      Mid g start end_ restricted k current []
          (todo.foldl (relax g start end_ restricted current) s) ∧
        (todo.foldl (relax g start end_ restricted current) s).visited = s.visited ∧
        (todo.foldl (relax g start end_ restricted current) s).queue.length
          ≤ s.queue.length + todo.length := by
  induction todo with
  | nil => intro s h; exact ⟨h, rfl, by simp⟩
  | cons w rest ih =>
    intro s h
    obtain ⟨h1, h2, h3⟩ := relax_spec h
    obtain ⟨h4, h5, h6⟩ := ih _ h1
    refine ⟨h4, h5.trans h2, ?_⟩
    simp only [List.foldl_cons, List.length_cons]
    omega

/-! ## Settling a node -/

theorem frontier {g : Graph} {start end_ : String} {restricted : String → Bool}
    {k : Nat} {c : String} {s : Search} (hinv : Inv g start end_ restricted k c [] s)
    {w : String} {m : Int} (hr : Reach g start end_ restricted w m) :
    s.visited w = false → ∃ y, s.visited y = false ∧ m ≤ s.maxPortgen y := by
  induction hr with
  | base m hm =>
    intro hw
    exact ⟨start, hw, by rw [hinv.startVal]; exact hm⟩
  | step u v m hru hadj hal hcap ih =>
    intro hw
    cases hu : s.visited u with
    | false => exact ih hu
    | true =>
      have h1 := hinv.optimal u m hu hru
      have h2 := hinv.relaxed u v hu hadj hal hw (fun _ => List.not_mem_nil _)
      exact ⟨v, hw, by omega⟩

theorem visit_spec {g : Graph} {start end_ : String} {restricted : String → Bool}
    {k : Nat} {c : String} {s : Search} {b : Nat} {current : State}
    (hinv : Inv g start end_ restricted k c [] s)
    (hc : s.queue[b]? = some current)
    (hmax : ∀ e ∈ s.queue, e.minPG ≤ current.minPG)
    (hunv : s.visited current.node = false) :
    Mid g start end_ restricted (k + 1) current (g.neighbors current.node)
      { maxPortgen := s.maxPortgen
        prev := s.prev
        visited := fun x => if x = current.node then true else s.visited x
        queue := s.queue.eraseIdx b } := by
  have hmem : current ∈ s.queue := List.mem_iff_getElem?.2 ⟨b, hc⟩
  -- either this is the first iteration, or `start` is settled already
  have hcase : (current.node = start ∧ current.minPG = g.cap start) ∨
      (current.node ≠ start ∧ s.visited start = true) := by
    cases hs : s.visited start with
    | false =>
      left
      have hq := (hinv.fresh hs).1
      rw [hq] at hmem
      simp only [List.mem_singleton] at hmem
      subst hmem
      exact ⟨rfl, rfl⟩
    | true =>
      right
      refine ⟨?_, rfl⟩
      intro hcs
      rw [hcs, hs] at hunv
      exact absurd hunv (by simp)
  have hval : s.maxPortgen current.node = current.minPG := by
    rcases hcase with ⟨h1, h2⟩ | ⟨h1, _⟩
    · rw [h1, h2]; exact hinv.startVal
    · have hpos := hinv.queuePos current hmem h1
      have hle := hinv.queueLe current hmem
      have hp := hinv.pending current.node h1 (by omega) hunv
      have := hmax _ hp
      simp only at this
      omega
  have hcap : current.minPG ≤ g.cap current.node := by
    rcases hcase with ⟨h1, h2⟩ | ⟨h1, _⟩
    · rw [h1, h2]
    · have hpos := hinv.queuePos current hmem h1
      have hl := hinv.linked current.node h1 (by omega)
      have := hl.value
      omega
  have hposv : current.node ≠ start → 0 < s.maxPortgen current.node := by
    intro h1
    have hpos := hinv.queuePos current hmem h1
    omega
  have hopt : ∀ m, Reach g start end_ restricted current.node m →
      m ≤ s.maxPortgen current.node := by
    intro m hr
    rcases hcase with ⟨h1, _⟩ | ⟨h1, h2⟩
    · have := Reach_le_cap hr
      rw [h1] at this ⊢
      rw [hinv.startVal]
      exact this
    · obtain ⟨y, hy, hmy⟩ := frontier hinv hr hunv
      have hys : y ≠ start := by
        intro hc'; subst hc'
        rw [h2] at hy; exact absurd hy (by simp)
      have hnn := hinv.nonneg y hys
      have hpos := hinv.queuePos current hmem h1
      by_cases hyp : 0 < s.maxPortgen y
      · have := hmax _ (hinv.pending y hys hyp hy)
        simp only at this
        omega
      · omega
  have htrail : ∃ rp, Trail s.prev start current.node rp ∧
      (∀ x ∈ rp, (if x = current.node then true else s.visited x) = true) ∧
      rp.Nodup ∧ rp.length ≤ k + 1 := by
    rcases hcase with ⟨h1, _⟩ | ⟨h1, _⟩
    · refine ⟨[start], ?_, ?_, by simp, by simp⟩
      · rw [h1]; exact Trail.root
      · intro x hx
        simp only [List.mem_singleton] at hx
        simp [hx, h1]
    · have hl := hinv.linked current.node h1 (hposv h1)
      obtain ⟨rp, htr, hall, hnd, hlen⟩ := hinv.trail _ hl.prevVisited
      refine ⟨current.node :: rp, Trail.step _ _ h1 htr, ?_, ?_, by simp; omega⟩
      · intro x hx
        rcases List.mem_cons.1 hx with hx | hx
        · simp [hx]
        · simp [hall x hx]
      · refine List.nodup_cons.2 ⟨?_, hnd⟩
        intro hin
        have := hall _ hin
        rw [hunv] at this
        exact absurd this (by simp)
  have hsv : (if start = current.node then true else s.visited start) = true := by
    rcases hcase with ⟨h1, _⟩ | ⟨_, h1⟩
    · simp [h1]
    · simp [h1]
  refine ⟨⟨hinv.startVal, ?_, hinv.nonneg, ?_, ?_, ?_, ?_, ?_, ?_, ?_, ?_⟩, hsv, by simp,
    hval, hcap, fun w hw => hw⟩
  · -- fresh
    intro hf
    simp only at hf
    rw [hsv] at hf
    exact absurd hf (by simp)
  · -- queueLe
    intro e he
    exact hinv.queueLe e (List.mem_of_mem_eraseIdx he)
  · -- queuePos
    intro e he
    exact hinv.queuePos e (List.mem_of_mem_eraseIdx he)
  · -- linked
    intro x hx hpos
    have hl := hinv.linked x hx hpos
    refine ⟨?_, hl.edge, hl.allowed, hl.value, hl.pos⟩
    simp only
    rw [hl.prevVisited]
    simp
  · -- pending
    intro x hx hpos hxv
    simp only at hxv
    have hxc : x ≠ current.node := by
      intro hcx
      rw [if_pos hcx] at hxv
      exact absurd hxv (by simp)
    rw [if_neg hxc] at hxv
    refine mem_eraseIdx_of_ne hc (hinv.pending x hx hpos hxv) ?_
    intro heq
    apply hxc
    rw [← heq]
  · -- visitedPos
    intro x hx hxv
    simp only at hxv
    by_cases hxc : x = current.node
    · rw [hxc]; rw [hxc] at hx; exact hposv hx
    · rw [if_neg hxc] at hxv
      exact hinv.visitedPos x hx hxv
  · -- trail
    intro x hxv
    simp only at hxv
    by_cases hxc : x = current.node
    · rw [hxc]; exact htrail
    · rw [if_neg hxc] at hxv
      obtain ⟨rp, htr, hall, hnd, hlen⟩ := hinv.trail x hxv
      refine ⟨rp, htr, ?_, hnd, by omega⟩
      intro y hy
      simp [hall y hy]
  · -- optimal
    intro x m hxv hr
    simp only at hxv
    by_cases hxc : x = current.node
    · rw [hxc]; rw [hxc] at hr; exact hopt m hr
    · rw [if_neg hxc] at hxv
      exact hinv.optimal x m hxv hr
  · -- relaxed
    intro u w hu hadj hal hw htodo
    simp only at hu hw
    by_cases huc : u = current.node
    · rw [huc] at hadj
      exact absurd hadj (htodo huc)
    · rw [if_neg huc] at hu
      have hwc : w ≠ current.node := by
        intro hcw
        rw [if_pos hcw] at hw
        exact absurd hw (by simp)
      rw [if_neg hwc] at hw
      exact hinv.relaxed u w hu hadj hal hw (fun _ => List.not_mem_nil _)

/-! ## Termination measure -/

theorem unsettledDegree_visit (adj : List (String × List String)) (visited : String → Bool)
    (v : String) (hv : visited v = false) :
    unsettledDegree adj (fun x => if x = v then true else visited x)
      + (mapGet [] adj v).length ≤ unsettledDegree adj visited := by
  induction adj with
  | nil => simp [unsettledDegree, mapGet]
  | cons e rest ih =>
    obtain ⟨k, ns⟩ := e
    by_cases hk : k = v
    · subst hk
      have hmono : ∀ l : List (String × List String),
          unsettledDegree l (fun x => if x = k then true else visited x)
            ≤ unsettledDegree l visited := by
        intro l
        induction l with
        | nil => simp [unsettledDegree]
        | cons e' r ih' =>
          obtain ⟨k', ns'⟩ := e'
          simp only [unsettledDegree]
          by_cases h1 : k' = k
          · simp only [h1, if_true]; omega
          · simp only [h1, if_false]; omega
      have := hmono rest
      simp only [unsettledDegree, mapGet, if_true, hv]
      simp only [Bool.false_eq_true, if_false]
      omega
    · simp only [unsettledDegree, mapGet, hk, if_false]
      omega

/-! ## Minimum capacity of a path -/

theorem pathMin_le (g : Graph) (p : List String) : ∀ x ∈ p, pathMin g p ≤ g.cap x := by
  induction p with
  | nil => intro x hx; cases hx
  | cons a rest ih =>
    intro x hx
    cases rest with
    | nil =>
      simp only [List.mem_singleton] at hx
      subst hx
      simp [pathMin]
    | cons b r =>
      simp only [pathMin]
      rcases List.mem_cons.1 hx with hx | hx
      · subst hx; exact min_le_left _ _
      · exact le_trans (min_le_right _ _) (ih x hx)

theorem pathMin_attained (g : Graph) (p : List String) (hp : p ≠ []) :
    ∃ x ∈ p, g.cap x = pathMin g p := by
  induction p with
  | nil => exact absurd rfl hp
  | cons a rest ih =>
    cases rest with
    | nil => exact ⟨a, by simp, by simp [pathMin]⟩
    | cons b r =>
      obtain ⟨x, hx, hxe⟩ := ih (by simp)
      simp only [pathMin]
      by_cases hle : g.cap a ≤ pathMin g (b :: r)
      · exact ⟨a, by simp, by rw [min_eq_left hle]⟩
      · exact ⟨x, List.mem_cons_of_mem _ hx, by rw [min_eq_right (le_of_not_le hle)]; exact hxe⟩

theorem pathMin_eq_of (g : Graph) (p : List String) (m : Int)
    (hle : ∀ x ∈ p, m ≤ g.cap x) (hat : ∃ x ∈ p, g.cap x = m) : pathMin g p = m := by
  obtain ⟨x, hx, hxe⟩ := hat
  have hne : p ≠ [] := by intro hc; rw [hc] at hx; cases hx
  obtain ⟨y, hy, hye⟩ := pathMin_attained g p hne
  have h1 := pathMin_le g p x hx
  have h2 := hle y hy
  omega

/-- A path over allowed nodes witnesses reachability at its minimum capacity. -/
theorem Reach_of_path (g : Graph) (start end_ : String) (restricted : String → Bool)
    (q : List String) :
    ∀ v, PathFromTo g start v q → (∀ x ∈ q, Allowed start end_ restricted x) →
      Reach g start end_ restricted v (pathMin g q) := by
  induction q using List.reverseRecOn with
  | nil =>
    intro v h _
    exact absurd h.1 (by simp)
  | append_singleton q' x ih =>
    intro v h hal
    obtain ⟨hhead, hlast, hwalk⟩ := h
    have hxv : x = v := by simpa using hlast
    subst hxv
    cases hq' : q'.getLast? with
    | none =>
      have : q' = [] := by simpa using hq'
      subst this
      have hxs : x = start := by simpa using hhead
      subst hxs
      exact Reach.base _ (by simp [pathMin])
    | some u =>
      have hne : q' ≠ [] := by
        intro hc; rw [hc] at hq'; simp at hq'
      have hhead' : q'.head? = some start := by
        cases q' with
        | nil => exact absurd rfl hne
        | cons a r => simpa using hhead
      have hch := List.chain'_append.1 hwalk
      have hadj : x ∈ g.neighbors u := hch.2.2 u (by simp [hq']) x (by simp)
      have hr := ih u ⟨hhead', hq', hch.1⟩ (fun y hy => hal y (List.mem_append_left _ hy))
      obtain ⟨y, hy, hye⟩ := pathMin_attained g q' hne
      have hle : pathMin g (q' ++ [x]) ≤ pathMin g q' := by
        rw [← hye]
        exact pathMin_le g _ y (List.mem_append_left _ hy)
      exact Reach.step u x _ (Reach_mono hr hle) hadj (hal x (by simp))
        (pathMin_le g _ x (by simp))

/-! ## The path read off the predecessor map -/

theorem Trail_props {g : Graph} {start end_ : String} {restricted : String → Bool}
    {s : Search} {v : String} {rp : List String} (h : Trail s.prev start v rp)
    (hstart : s.maxPortgen start = g.cap start)
    (hl : ∀ x ∈ rp, x ≠ start → Linked g start end_ restricted s x) :
    List.Chain' (fun a b => a ∈ g.neighbors b) rp ∧
      (∀ x ∈ rp, Allowed start end_ restricted x) ∧
      (∀ x ∈ rp, s.maxPortgen v ≤ g.cap x) ∧ (∃ x ∈ rp, g.cap x = s.maxPortgen v) := by
  induction h with
  | root =>
    refine ⟨List.chain'_singleton _, ?_, ?_, ⟨start, by simp, hstart.symm⟩⟩
    · intro x hx
      simp only [List.mem_singleton] at hx
      exact Or.inl hx
    · intro x hx
      simp only [List.mem_singleton] at hx
      rw [hx, hstart]
  | step v rp hne htr ih =>
    obtain ⟨hch, hal, hle, x0, hx0, hx0e⟩ := ih (fun x hx => hl x (List.mem_cons_of_mem _ hx))
    have hlv := hl v (List.mem_cons_self _ _) hne
    have hval := hlv.value
    refine ⟨?_, ?_, ?_, ?_⟩
    · rw [List.chain'_cons']
      refine ⟨?_, hch⟩
      intro y hy
      rw [Trail_head htr] at hy
      simp only [Option.mem_def, Option.some.injEq] at hy
      rw [← hy]
      exact hlv.edge
    · intro x hx
      rcases List.mem_cons.1 hx with hx | hx
      · rw [hx]; exact hlv.allowed
      · exact hal x hx
    · intro x hx
      rcases List.mem_cons.1 hx with hx | hx
      · rw [hx]; omega
      · have := hle x hx
        omega
    · by_cases hc : g.cap v ≤ s.maxPortgen (s.prev v)
      · exact ⟨v, List.mem_cons_self _ _, by omega⟩
      · exact ⟨x0, List.mem_cons_of_mem _ hx0, by omega⟩

theorem goodPath_of_Inv {g : Graph} {start end_ : String} {restricted : String → Bool}
    {k : Nat} {c : String} {todo : List String} {s : Search}
    (hinv : Inv g start end_ restricted k c todo s) (hend : s.visited end_ = true)
    (hne : start ≠ end_) :
    ∃ rp, Trail s.prev start end_ rp ∧ rp.length ≤ k ∧
      GoodPath g start end_ restricted rp.reverse ∧ 0 < pathMin g rp.reverse := by
  obtain ⟨rp, htr, hall, hnd, hlen⟩ := hinv.trail end_ hend
  have hl : ∀ x ∈ rp, x ≠ start → Linked g start end_ restricted s x := by
    intro x hx hxs
    exact hinv.linked x hxs (hinv.visitedPos x hxs (hall x hx))
  obtain ⟨hch, hal, hle, hat⟩ := Trail_props htr hinv.startVal hl
  have hmin : pathMin g rp.reverse = s.maxPortgen end_ := by
    apply pathMin_eq_of
    · intro x hx; exact hle x (List.mem_reverse.1 hx)
    · obtain ⟨x, hx, hxe⟩ := hat
      exact ⟨x, List.mem_reverse.2 hx, hxe⟩
  refine ⟨rp, htr, hlen, ⟨⟨?_, ?_, ?_⟩, List.nodup_reverse.2 hnd, ?_, ?_⟩, ?_⟩
  · rw [List.head?_reverse]; exact Trail_getLast htr
  · rw [List.getLast?_reverse]; exact Trail_head htr
  · exact List.chain'_reverse.2 hch
  · intro x hx; exact hal x (List.mem_reverse.1 hx)
  · intro m hr
    rw [hmin]
    exact hinv.optimal end_ m hend hr
  · rw [hmin]
    exact hinv.visitedPos end_ (Ne.symm hne) hend

/-! ## The loop of `WidestPath` -/

theorem Inv_init (g : Graph) (start end_ : String) (restricted : String → Bool) :
    Inv g start end_ restricted 0 start [] (initSearch g start) := by
  refine ⟨by simp [initSearch], ?_, ?_, ?_, ?_, ?_, ?_, ?_, ?_, ?_, ?_⟩
  · intro _; exact ⟨rfl, fun _ => rfl⟩
  · intro v hv; simp [initSearch, hv]
  · intro e he
    simp only [initSearch, List.mem_singleton] at he
    subst he
    simp [initSearch]
  · intro e he hne
    simp only [initSearch, List.mem_singleton] at he
    subst he
    exact absurd rfl hne
  · intro v hv hpos
    simp [initSearch, hv] at hpos
  · intro v hv hpos
    simp [initSearch, hv] at hpos
  · intro v _ hvis
    simp [initSearch] at hvis
  · intro v hvis
    simp [initSearch] at hvis
  · intro v m hvis
    simp [initSearch] at hvis
  · intro u w hvis
    simp [initSearch] at hvis

theorem searchLoop_spec (g : Graph) (start end_ : String) (restricted : String → Bool)
    (hne : start ≠ end_) :
    ∀ (fuel k : Nat) (c : String) (s : Search),
      Inv g start end_ restricted k c [] s → s.visited end_ = false →
      potential g s < fuel → k + fuel ≤ g.fuel →
      ∃ res, searchLoop g start end_ restricted fuel s = some res ∧
        LoopResult g start end_ restricted res := by
  intro fuel
  induction fuel with
  | zero => intro k c s _ _ hpot _; exact absurd hpot (Nat.not_lt_zero _)
  | succ f ih =>
    intro k c s hinv hend hpot hfuel
    cases hq : s.queue with
    | nil =>
      refine ⟨([], false), by simp [searchLoop, hq], ?_, ?_⟩
      · intro h; exact absurd h (by simp)
      · intro _
        refine ⟨rfl, ?_⟩
        intro m hr
        obtain ⟨y, hy, hmy⟩ := frontier hinv hr hend
        by_cases hys : y = start
        · subst hys
          have := (hinv.fresh hy).1
          rw [hq] at this
          exact absurd this (by simp)
        · have hnn := hinv.nonneg y hys
          by_cases hyp : 0 < s.maxPortgen y
          · have := hinv.pending y hys hyp hy
            rw [hq] at this
            exact absurd this (List.not_mem_nil _)
          · omega
    | cons q0 rest =>
      obtain ⟨cur, hcur, hmax⟩ := bestIdx_spec q0 rest
      rw [← hq] at hcur hmax
      have hgetD : s.queue.getD (bestIdx s.queue) q0 = cur := by
        rw [List.getD_eq_getElem?_getD, hcur]; rfl
      have hblt : bestIdx s.queue < s.queue.length := by
        by_contra hcon
        rw [List.getElem?_eq_none (not_lt.1 hcon)] at hcur
        exact absurd hcur (by simp)
      have hlen : (s.queue.eraseIdx (bestIdx s.queue)).length + 1 = s.queue.length := by
        rw [List.length_eraseIdx_of_lt hblt]
        omega
      have hunfold : searchLoop g start end_ restricted (f + 1) s =
          if s.visited cur.node = true then
            searchLoop g start end_ restricted f
              { s with queue := s.queue.eraseIdx (bestIdx s.queue) }
          else if cur.node = end_ then
            (buildPath s.prev start g.fuel end_ [end_]).map (fun path => (path, true))
          else
            searchLoop g start end_ restricted f
              ((g.neighbors cur.node).foldl (relax g start end_ restricted cur)
                { maxPortgen := s.maxPortgen
                  prev := s.prev
                  visited := fun x => if x = cur.node then true else s.visited x
                  queue := s.queue.eraseIdx (bestIdx s.queue) }) := by
        rw [searchLoop]
        simp only [hq]
        rw [← hq, hgetD]
      rw [hunfold]
      by_cases hvis : s.visited cur.node = true
      · rw [if_pos hvis]
        have hsv : s.visited start = true := by
          cases hs : s.visited start with
          | true => rfl
          | false =>
            have := (hinv.fresh hs).2 cur.node
            rw [hvis] at this
            exact absurd this (by simp)
        apply ih k c
        · refine ⟨hinv.startVal, ?_, hinv.nonneg, ?_, ?_,
            fun v hv hp => ⟨(hinv.linked v hv hp).prevVisited, (hinv.linked v hv hp).edge,
              (hinv.linked v hv hp).allowed, (hinv.linked v hv hp).value,
              (hinv.linked v hv hp).pos⟩,
            ?_, hinv.visitedPos, hinv.trail, hinv.optimal, hinv.relaxed⟩
          · intro hf
            simp only at hf
            rw [hsv] at hf
            exact absurd hf (by simp)
          · intro e he
            exact hinv.queueLe e (List.mem_of_mem_eraseIdx he)
          · intro e he
            exact hinv.queuePos e (List.mem_of_mem_eraseIdx he)
          · intro x hx hpos hxv
            refine mem_eraseIdx_of_ne hcur (hinv.pending x hx hpos hxv) ?_
            intro heq
            have : x = cur.node := by rw [← heq]
            rw [this, hvis] at hxv
            exact absurd hxv (by simp)
        · exact hend
        · simp only [potential] at hpot ⊢
          omega
        · omega
      · rw [if_neg hvis]
        have hunv : s.visited cur.node = false := by simpa using hvis
        have hmid := visit_spec hinv hcur hmax hunv
        by_cases hce : cur.node = end_
        · rw [if_pos hce]
          rw [hce] at hmid
          obtain ⟨rp, htr, hlen', hgood, hpos⟩ := goodPath_of_Inv hmid.inv (by simp) hne
          have hrp : rp.head? = some end_ := Trail_head htr
          have hb := buildPath_of_Trail htr g.fuel [] (by omega)
          rw [hb]
          refine ⟨(rp.reverse, true), by simp, fun _ => ⟨hgood, hpos⟩, ?_⟩
          intro h; exact absurd h (by simp)
        · rw [if_neg hce]
          obtain ⟨hmid', hv', hq'⟩ := relaxAll_spec (g.neighbors cur.node) _ hmid
          apply ih (k + 1) cur.node
          · exact hmid'.inv
          · rw [hv']
            simp only
            rw [if_neg (Ne.symm hce)]
            exact hend
          · have hdeg := unsettledDegree_visit g.adj s.visited cur.node hunv
            simp only [potential] at hpot ⊢
            rw [hv']
            simp only at hq' ⊢
            have : (g.neighbors cur.node).length = (mapGet [] g.adj cur.node).length := rfl
            omega
          · omega

theorem potential_init (g : Graph) (start : String) :
    potential g (initSearch g start) < g.fuel := by
  have h : ∀ adj : List (String × List String),
      unsettledDegree adj (fun _ => false) = (adj.map (fun e => e.2.length)).sum := by
    intro adj
    induction adj with
    | nil => rfl
    | cons e rest ih =>
      obtain ⟨k, ns⟩ := e
      simp [unsettledDegree, ih]
  simp only [potential, initSearch, Graph.fuel, h, List.length_singleton]
  omega

/-- The router returns (it never runs out of fuel), and its result is as
promised. -/
theorem WidestPath_spec (g : Graph) (start end_ : String) (restricted : String → Bool)
    (hne : start ≠ end_) :
    ∃ res, g.WidestPath start end_ restricted = some res ∧
      LoopResult g start end_ restricted res := by
  unfold Graph.WidestPath
  rw [if_neg hne]
  exact searchLoop_spec g start end_ restricted hne g.fuel 0 start (initSearch g start)
    (Inv_init g start end_ restricted) rfl (potential_init g start) (by omega)

/-! ## The contract of the router -/

theorem WidestPath_same_start_end (g : Graph) (s : String) (restricted : String → Bool) :
    g.WidestPath s s restricted = some ([s], true) := by
  simp [Graph.WidestPath]

theorem Allowed_unrestricted (start end_ x : String) :
    Allowed start end_ (fun _ => false) x := Or.inr (Or.inr rfl)

/-- For distinct endpoints the router reports a path exactly when some path
from `start` to `end`, with every intermediate node outside the excluded set,
has only nodes of positive capacity. -/
theorem WidestPath_found_iff (g : Graph) (start end_ : String) (restricted : String → Bool)
    (hne : start ≠ end_) :
    (∃ path, g.WidestPath start end_ restricted = some (path, true)) ↔
      ∃ q, PathFromTo g start end_ q ∧
        (∀ x ∈ q, x ≠ start → x ≠ end_ → restricted x = false) ∧ ∀ x ∈ q, 0 < g.cap x := by
  obtain ⟨res, hres, hspec⟩ := WidestPath_spec g start end_ restricted hne
  constructor
  · rintro ⟨path, hp⟩
    rw [hres] at hp
    have hr : res = (path, true) := Option.some.inj hp
    subst hr
    obtain ⟨hgood, hpos⟩ := hspec.found rfl
    refine ⟨path, hgood.isPath, ?_, ?_⟩
    · intro x hx h1 h2
      rcases hgood.allowed x hx with h | h | h
      · exact absurd h h1
      · exact absurd h h2
      · exact h
    · intro x hx
      have := pathMin_le g path x hx
      simp only at hpos
      omega
  · rintro ⟨q, hq, hal, hpos⟩
    have hqne : q ≠ [] := by
      intro hc; rw [hc] at hq; exact absurd hq.1 (by simp)
    have hr := Reach_of_path g start end_ restricted q end_ hq (by
      intro x hx
      by_cases h1 : x = start
      · exact Or.inl h1
      by_cases h2 : x = end_
      · exact Or.inr (Or.inl h2)
      · exact Or.inr (Or.inr (hal x hx h1 h2)))
    obtain ⟨y, hy, hye⟩ := pathMin_attained g q hqne
    have hposq : 0 < pathMin g q := by rw [← hye]; exact hpos y hy
    obtain ⟨p, b⟩ := res
    cases b with
    | true => exact ⟨p, hres⟩
    | false =>
      have := (hspec.notFound rfl).2 _ hr
      omega

/-- C1: whenever `WidestPath(s, e, ∅)` returns `(path, true)`, the path is a path from
`s` to `e` and its minimum node capacity is the maximum, over all paths from `s` to `e`
in the adjacency, of the minimum node capacity on the path. -/
theorem WidestPath_bottleneck_optimal (g : Graph) (s e : String) (path : List String)
    (h : g.WidestPath s e (fun _ => false) = some (path, true)) :
    PathFromTo g s e path ∧ ∀ q, PathFromTo g s e q → pathMin g q ≤ pathMin g path := by
  by_cases hse : s = e
  · subst hse
    have hp : path = [s] := by
      simp [Graph.WidestPath] at h
      exact h.symm
    subst hp
    refine ⟨⟨rfl, rfl, List.chain'_singleton _⟩, ?_⟩
    intro q hq
    have hmem : s ∈ q := List.mem_of_mem_head? hq.1
    simpa [pathMin] using pathMin_le g q s hmem
  · obtain ⟨res, hres, hspec⟩ := WidestPath_spec g s e (fun _ => false) hse
    rw [hres] at h
    have hr : res = (path, true) := Option.some.inj h
    subst hr
    obtain ⟨hgood, _⟩ := hspec.found rfl
    refine ⟨hgood.isPath, ?_⟩
    intro q hq
    exact hgood.widest _ (Reach_of_path g s e _ q e hq (fun x _ => Allowed_unrestricted s e x))

theorem WidestPath_bottleneck_optimal_witness :
    diamond.WidestPath "a" "d" (fun _ => false) = some (["a", "c", "d"], true) ∧
      PathFromTo diamond "a" "d" ["a", "c", "d"] ∧
      ∀ q, PathFromTo diamond "a" "d" q → pathMin diamond q ≤ pathMin diamond ["a", "c", "d"] :=
  ⟨by decide, WidestPath_bottleneck_optimal diamond "a" "d" ["a", "c", "d"] (by decide)⟩

/-- C3: whenever `WidestPath` returns `(path, true)`, the path is non-empty, starts at
`start`, ends at `end`, has consecutive elements adjacent, repeats no node, and has no
element other than `start` and `end` in the excluded set. -/
theorem WidestPath_path_wellformed (g : Graph) (start end_ : String)
    (restricted : String → Bool) (path : List String)
    (h : g.WidestPath start end_ restricted = some (path, true)) :
    path ≠ [] ∧ path.head? = some start ∧ path.getLast? = some end_ ∧ IsWalk g path ∧
      path.Nodup ∧ ∀ x ∈ path, x ≠ start → x ≠ end_ → restricted x = false := by
  by_cases hse : start = end_
  · subst hse
    have hp : path = [start] := by
      simp [Graph.WidestPath] at h
      exact h.symm
    subst hp
    refine ⟨by simp, rfl, rfl, List.chain'_singleton _, by simp, ?_⟩
    intro x hx h1
    simp only [List.mem_singleton] at hx
    exact absurd hx h1
  · obtain ⟨res, hres, hspec⟩ := WidestPath_spec g start end_ restricted hse
    rw [hres] at h
    have hr : res = (path, true) := Option.some.inj h
    subst hr
    obtain ⟨hgood, _⟩ := hspec.found rfl
    refine ⟨?_, hgood.isPath.1, hgood.isPath.2.1, hgood.isPath.2.2, hgood.nodup, ?_⟩
    · intro hc
      have := hgood.isPath.1
      simp only at this
      rw [hc] at this
      exact absurd this (by simp)
    · intro x hx h1 h2
      rcases hgood.allowed x hx with h | h | h
      · exact absurd h h1
      · exact absurd h h2
      · exact h

theorem WidestPath_path_wellformed_witness :
    diamond.WidestPath "a" "d" (fun x => x == "c") = some (["a", "b", "d"], true) ∧
      (["a", "b", "d"] ≠ [] ∧ ["a", "b", "d"].head? = some "a" ∧
        ["a", "b", "d"].getLast? = some "d" ∧ IsWalk diamond ["a", "b", "d"] ∧
        ["a", "b", "d"].Nodup ∧
        ∀ x ∈ ["a", "b", "d"], x ≠ "a" → x ≠ "d" → (fun x => x == "c") x = false) :=
  ⟨by decide, WidestPath_path_wellformed diamond "a" "d" (fun x => x == "c")
    ["a", "b", "d"] (by decide)⟩

/-- C4: if every path from `s` to `e` passes through a node `X` other than `s` and `e`,
and `X` is in the excluded set, then `WidestPath(s, e, excluded)` returns a nil path and
found = false. -/
theorem WidestPath_cut_node_excluded (g : Graph) (s e X : String) (restricted : String → Bool)
    (hXs : X ≠ s) (hXe : X ≠ e) (hcut : ∀ q, PathFromTo g s e q → X ∈ q)
    (hex : restricted X = true) :
    g.WidestPath s e restricted = some ([], false) := by
  have hse : s ≠ e := by
    intro hc
    subst hc
    have := hcut [s] ⟨rfl, rfl, List.chain'_singleton _⟩
    simp only [List.mem_singleton] at this
    exact hXs this
  obtain ⟨res, hres, hspec⟩ := WidestPath_spec g s e restricted hse
  obtain ⟨p, b⟩ := res
  cases b with
  | true =>
    obtain ⟨hgood, _⟩ := hspec.found rfl
    have hX := hcut p hgood.isPath
    rcases hgood.allowed X hX with h | h | h
    · exact absurd h hXs
    · exact absurd h hXe
    · rw [hex] at h; exact absurd h (by simp)
  | false =>
    have := (hspec.notFound rfl).1
    simp only at this
    rw [hres, this]

theorem chain3_cut (q : List String) (h : PathFromTo chain3 "a" "c" q) : "b" ∈ q := by
  obtain ⟨hhead, hlast, hwalk⟩ := h
  cases q with
  | nil => simp at hhead
  | cons x rest =>
    have hx : x = "a" := by simpa using hhead
    subst hx
    cases rest with
    | nil => simp at hlast
    | cons y r =>
      have hadj : y ∈ chain3.neighbors "a" := (List.chain'_cons.1 hwalk).1
      have hn : chain3.neighbors "a" = ["b"] := by decide
      rw [hn] at hadj
      simp only [List.mem_singleton] at hadj
      subst hadj
      simp

theorem WidestPath_cut_node_excluded_witness :
    chain3.WidestPath "a" "c" (fun x => x == "b") = some ([], false) :=
  WidestPath_cut_node_excluded chain3 "a" "c" "b" (fun x => x == "b") (by decide) (by decide)
    chain3_cut (by decide)

/-- C2 (what the code does at capacities 0 and -1): `a` and `b` are adjacent and nothing
is excluded, yet `WidestPath(a, b, ∅)` returns found = false; the same happens between the
ports of two mutually visible base nodes for which `CreateGraph` stored the capacity -1. -/
theorem WidestPath_misses_nonpositive_capacity_path :
    (PathFromTo pairZero "a" "b" ["a", "b"] ∧
      pairZero.WidestPath "a" "b" (fun _ => false) = some ([], false)) ∧
    (CreateGraph noCapNodes twoMatrix = some noCapGraph ∧
      PathFromTo noCapGraph "A:port1" "B:port1" ["A:port1", "B:port1"] ∧
      noCapGraph.WidestPath "A:port1" "B:port1" (fun _ => false) = some ([], false)) := by
  refine ⟨⟨⟨rfl, rfl, ?_⟩, by decide⟩, by decide, ⟨rfl, rfl, ?_⟩, by decide⟩
  · unfold IsWalk
    rw [List.chain'_cons]
    exact ⟨by decide, List.chain'_singleton _⟩
  · unfold IsWalk
    rw [List.chain'_cons]
    exact ⟨by decide, List.chain'_singleton _⟩

/-! ## Port ids -/

theorem digitChar_value (k : Nat) (hk : k < 10) : (Nat.digitChar k).toNat - 48 = k := by
  interval_cases k <;> rfl

theorem digitChar_isDigit (k : Nat) (hk : k < 10) : (Nat.digitChar k).isDigit = true := by
  interval_cases k <;> rfl

theorem toDigitsCore_value (fuel : Nat) :
    ∀ (n : Nat) (ds : List Char), n < fuel →
      (Nat.toDigitsCore 10 fuel n ds).foldl (fun acc c => acc * 10 + (c.toNat - 48)) 0
        = ds.foldl (fun acc c => acc * 10 + (c.toNat - 48)) n := by
  induction fuel with
  | zero => intro n ds h; exact absurd h (Nat.not_lt_zero _)
  | succ f ih =>
    intro n ds h
    have hmod : n % 10 < 10 := Nat.mod_lt _ (by decide)
    by_cases hn : n / 10 = 0
    · have hlt : n < 10 := by omega
      simp only [Nat.toDigitsCore, hn, if_true, List.foldl_cons]
      rw [digitChar_value _ hmod, Nat.mod_eq_of_lt hlt]
      simp
    · have hlt : n / 10 < f := by omega
      simp only [Nat.toDigitsCore, hn, if_false]
      rw [ih (n / 10) _ hlt]
      simp only [List.foldl_cons]
      rw [digitChar_value _ hmod]
      have : n / 10 * 10 + n % 10 = n := by omega
      rw [this]

theorem digitsValue_toDigits (n : Nat) : digitsValue (Nat.toDigits 10 n) = n := by
  unfold digitsValue Nat.toDigits
  rw [toDigitsCore_value (n + 1) n [] (Nat.lt_succ_self n)]
  rfl

theorem toDigitsCore_isDigit (fuel : Nat) :
    ∀ (n : Nat) (ds : List Char), (∀ c ∈ ds, c.isDigit = true) →
      ∀ c ∈ Nat.toDigitsCore 10 fuel n ds, c.isDigit = true := by
  induction fuel with
  | zero => intro n ds h; simpa [Nat.toDigitsCore] using h
  | succ f ih =>
    intro n ds h
    have hmod : n % 10 < 10 := Nat.mod_lt _ (by decide)
    have hds : ∀ c ∈ Nat.digitChar (n % 10) :: ds, c.isDigit = true := by
      intro c hc
      rcases List.mem_cons.1 hc with hc | hc
      · rw [hc]; exact digitChar_isDigit _ hmod
      · exact h c hc
    by_cases hn : n / 10 = 0
    · simp only [Nat.toDigitsCore, hn, if_true]
      exact hds
    · simp only [Nat.toDigitsCore, hn, if_false]
      exact ih _ _ hds

theorem toDigits_isDigit (n : Nat) : ∀ c ∈ Nat.toDigits 10 n, c.isDigit = true :=
  toDigitsCore_isDigit (n + 1) n [] (fun _ hc => absurd hc (List.not_mem_nil _))

theorem portId_data (id : String) (n : Nat) :
    (portId id n).data = id.data ++ [':', 'p', 'o', 'r', 't'] ++ Nat.toDigits 10 n := by
  simp [portId, toString, Nat.repr, List.asString]

theorem suffix_cancel (xs ys d1 d2 : List Char)
    (h1 : ∀ c ∈ d1, c.isDigit = true) (h2 : ∀ c ∈ d2, c.isDigit = true)
    (h : xs ++ [':', 'p', 'o', 'r', 't'] ++ d1 = ys ++ [':', 'p', 'o', 'r', 't'] ++ d2) :
    xs = ys ∧ d1 = d2 := by
  have key : ∀ (a c a' dd : List Char), (∀ x ∈ dd, x.isDigit = true) →
      c ++ [':', 'p', 'o', 'r', 't'] = a ++ [':', 'p', 'o', 'r', 't'] ++ a' → dd = a' ++ d2 ∨ dd = a' ++ d1 →
      a' = [] := by
    intro a c a' dd hdd heq hsplit
    by_contra hne
    have hl1 : (c ++ [':', 'p', 'o', 'r', 't']).getLast? = some 't' := by simp
    have hl2 : (a ++ [':', 'p', 'o', 'r', 't'] ++ a').getLast? = a'.getLast? := by
      rw [List.getLast?_append_of_ne_nil _ hne]
    rw [heq, hl2] at hl1
    have hmem : 't' ∈ a' := List.mem_of_getLast?_eq_some hl1
    have hmem' : 't' ∈ dd := by
      rcases hsplit with hs | hs <;> rw [hs] <;> exact List.mem_append_left _ hmem
    have := hdd _ hmem'
    exact absurd this (by decide)
  rcases List.append_eq_append_iff.1 h with ⟨a', hc, hd⟩ | ⟨c', ha, hd⟩
  · have ha' := key xs ys a' d1 h1 hc (Or.inl hd)
    subst ha'
    simp only [List.append_nil, List.nil_append] at hc hd
    exact ⟨(List.append_cancel_right hc).symm, hd⟩
  · have hc' := key ys xs c' d2 h2 ha (Or.inr hd)
    subst hc'
    simp only [List.append_nil, List.nil_append] at ha hd
    exact ⟨List.append_cancel_right ha, hd.symm⟩

/-- Distinct (base id, port number) pairs have distinct port ids. -/
theorem portId_injective (a b : String) (k l : Nat) (h : portId a k = portId b l) :
    a = b ∧ k = l := by
  have hd := congrArg String.data h
  rw [portId_data, portId_data] at hd
  obtain ⟨h1, h2⟩ := suffix_cancel _ _ _ _ (toDigits_isDigit k) (toDigits_isDigit l) hd
  refine ⟨String.ext h1, ?_⟩
  have := congrArg digitsValue h2
  rwa [digitsValue_toDigits, digitsValue_toDigits] at this

/-! ## Folds that may fail -/

theorem foldlM_or {α σ : Type} (f : σ → α → Option σ) (R : σ → Prop) (Q : α → Prop)
    (l : List α) :
    ∀ s s', (∀ t x t', x ∈ l → f t x = some t' → (R t' ↔ R t ∨ Q x)) →
      l.foldlM f s = some s' → (R s' ↔ R s ∨ ∃ x ∈ l, Q x) := by
  induction l with
  | nil =>
    intro s s' _ h
    simp only [List.foldlM_nil, pure, Option.some.injEq] at h
    subst h
    simp
  | cons x rest ih =>
    intro s s' hstep h
    rw [List.foldlM_cons] at h
    cases hx : f s x with
    | none => rw [hx] at h; exact absurd h (by simp)
    | some t =>
      rw [hx] at h
      simp only [Option.some_bind, bind] at h
      have h1 := hstep s x t (List.mem_cons_self _ _) hx
      have h2 := ih t s' (fun a b c hb => hstep a b c (List.mem_cons_of_mem _ hb)) h
      rw [h2, h1]
      simp only [List.mem_cons, exists_eq_or_imp, or_assoc]

theorem foldlM_some {α σ : Type} (f : σ → α → Option σ) (l : List α) :
    ∀ s, (∀ t, ∀ x ∈ l, ∃ t', f t x = some t') → ∃ s', l.foldlM f s = some s' := by
  induction l with
  | nil => intro s _; exact ⟨s, rfl⟩
  | cons x rest ih =>
    intro s h
    obtain ⟨t, ht⟩ := h s x (List.mem_cons_self _ _)
    obtain ⟨s', hs'⟩ := ih t (fun a b hb => h a b (List.mem_cons_of_mem _ hb))
    exact ⟨s', by rw [List.foldlM_cons, ht]; exact hs'⟩

theorem foldlM_inv {α σ : Type} (f : σ → α → Option σ) (I : σ → Prop) (l : List α) :
    ∀ s s', (∀ t x t', x ∈ l → f t x = some t' → I t → I t') → I s →
      l.foldlM f s = some s' → I s' := by
  induction l with
  | nil =>
    intro s s' _ hs h
    simp only [List.foldlM_nil, pure, Option.some.injEq] at h
    subst h
    exact hs
  | cons x rest ih =>
    intro s s' hstep hs h
    rw [List.foldlM_cons] at h
    cases hx : f s x with
    | none => rw [hx] at h; exact absurd h (by simp)
    | some t =>
      rw [hx] at h
      simp only [Option.some_bind, bind] at h
      exact ih t s' (fun a b c hb => hstep a b c (List.mem_cons_of_mem _ hb))
        (hstep s x t (List.mem_cons_self _ _) hx hs) h

/-! ## The adjacency built by `CreateGraph` -/

theorem rowNeighbors_mem (nodes : List BaseNode) (row : List Bool) :
    ∀ (j : Nat) (acc r : List String), rowNeighbors nodes j row acc = some r →
      ∀ x, x ∈ r ↔ x ∈ acc ∨ ∃ t nb l, row[t]? = some true ∧ nodes[j + t]? = some nb ∧
        (1 ≤ l ∧ l ≤ nb.portCount) ∧ x = portId nb.id l := by
  induction row with
  | nil =>
    intro j acc r h x
    simp only [rowNeighbors, Option.some.injEq] at h
    subst h
    simp
  | cons val rest ih =>
    intro j acc r h x
    have hshift : ∀ (P : Nat → Prop), (∃ t, (val :: rest)[t]? = some true ∧ P t) ↔
        ((val = true ∧ P 0) ∨ ∃ t, rest[t]? = some true ∧ P (t + 1)) := by
      intro P
      constructor
      · rintro ⟨t, ht, hp⟩
        cases t with
        | zero => left; exact ⟨by simpa using ht, hp⟩
        | succ t => right; exact ⟨t, by simpa using ht, hp⟩
      · rintro (⟨hv, hp⟩ | ⟨t, ht, hp⟩)
        · exact ⟨0, by simpa using hv, hp⟩
        · exact ⟨t + 1, by simpa using ht, hp⟩
    have hmain := hshift (fun t => ∃ nb l, nodes[j + t]? = some nb ∧
      (1 ≤ l ∧ l ≤ nb.portCount) ∧ x = portId nb.id l)
    have hre : (∃ t nb l, (val :: rest)[t]? = some true ∧ nodes[j + t]? = some nb ∧
        (1 ≤ l ∧ l ≤ nb.portCount) ∧ x = portId nb.id l) ↔
        (∃ t, (val :: rest)[t]? = some true ∧ ∃ nb l, nodes[j + t]? = some nb ∧
        (1 ≤ l ∧ l ≤ nb.portCount) ∧ x = portId nb.id l) := by
      constructor
      · rintro ⟨t, nb, l, h1, h2⟩; exact ⟨t, h1, nb, l, h2⟩
      · rintro ⟨t, h1, nb, l, h2⟩; exact ⟨t, nb, l, h1, h2⟩
    rw [hre, hmain]
    have hrest : ∀ acc', rowNeighbors nodes (j + 1) rest acc' = some r →
        (x ∈ r ↔ x ∈ acc' ∨ ∃ t, rest[t]? = some true ∧ ∃ nb l, nodes[j + (t + 1)]? = some nb ∧
          (1 ≤ l ∧ l ≤ nb.portCount) ∧ x = portId nb.id l) := by
      intro acc' h'
      rw [ih (j + 1) acc' r h' x]
      constructor
      · rintro (h1 | ⟨t, nb, l, h1, h2, h3⟩)
        · exact Or.inl h1
        · right
          refine ⟨t, h1, nb, l, ?_, h3⟩
          rw [← h2]; congr 1; omega
      · rintro (h1 | ⟨t, h1, nb, l, h2, h3⟩)
        · exact Or.inl h1
        · right
          refine ⟨t, nb, l, h1, ?_, h3⟩
          rw [← h2]; congr 1; omega
    by_cases hv : val = true
    · simp only [rowNeighbors, hv, if_true] at h
      cases hn : nodes[j]? with
      | none => rw [hn] at h; exact absurd h (by simp)
      | some nb0 =>
        rw [hn] at h
        simp only at h
        rw [hrest _ h]
        simp only [List.mem_append, List.mem_map, List.mem_range'_1, hv, true_and,
          Nat.add_zero, hn, Option.some.injEq]
        constructor
        · rintro ((h1 | ⟨l, hl, rfl⟩) | h1)
          · exact Or.inl h1
          · exact Or.inr (Or.inl ⟨nb0, l, rfl, ⟨hl.1, by omega⟩, rfl⟩)
          · exact Or.inr (Or.inr h1)
        · rintro (h1 | ⟨nb, l, rfl, hl, rfl⟩ | h1)
          · exact Or.inl (Or.inl h1)
          · exact Or.inl (Or.inr ⟨l, ⟨hl.1, by omega⟩, rfl⟩)
          · exact Or.inr h1
    · simp only [rowNeighbors, hv, if_false] at h
      rw [hrest _ h]
      simp [hv]

theorem rowNeighbors_some (nodes : List BaseNode) (row : List Bool) :
    ∀ (j : Nat) (acc : List String), j + row.length ≤ nodes.length →
      ∃ r, rowNeighbors nodes j row acc = some r := by
  induction row with
  | nil => intro j acc _; exact ⟨acc, rfl⟩
  | cons val rest ih =>
    intro j acc h
    simp only [List.length_cons] at h
    by_cases hv : val = true
    · have hj : j < nodes.length := by omega
      simp only [rowNeighbors, hv, if_true, List.getElem?_eq_getElem hj]
      exact ih (j + 1) _ (by omega)
    · simp only [rowNeighbors, hv, if_false]
      exact ih (j + 1) _ (by omega)

theorem addPort_adj (nodes : List BaseNode) (row : List Bool) (id : String) (g g' : Graph)
    (p : Nat) (a b : String) (h : addPort nodes row id g p = some g') :
    b ∈ g'.neighbors a ↔ b ∈ g.neighbors a ∨ PortEdges nodes row id p a b := by
  unfold addPort at h
  cases hr : rowNeighbors nodes 0 row [] with
  | none => rw [hr] at h; exact absurd h (by simp)
  | some nbrs =>
    rw [hr] at h
    simp only [Option.some.injEq] at h
    subst h
    have hmem := rowNeighbors_mem nodes row 0 [] nbrs hr
    have hn : ∀ x, Graph.neighbors
        { adj := (g.AddEdges (portId id p) nbrs).adj
          portgen := mapSet (g.AddEdges (portId id p) nbrs).portgen (portId id p)
            ((g.AddEdges (portId id p) nbrs).cap id) } x
        = (g.AddEdges (portId id p) nbrs).neighbors x := fun _ => rfl
    rw [hn, mem_neighbors_AddEdges, hmem, hmem]
    simp only [List.not_mem_nil, false_or, Nat.zero_add]
    unfold PortEdges
    constructor
    · rintro (h1 | ⟨h1, t, nb, l, h2, h3, h4, h5⟩ | ⟨h1, t, nb, l, h2, h3, h4, h5⟩)
      · exact Or.inl h1
      · exact Or.inr ⟨t, nb, l, h2, h3, h4, Or.inl ⟨h1, h5⟩⟩
      · exact Or.inr ⟨t, nb, l, h2, h3, h4, Or.inr ⟨h1, h5⟩⟩
    · rintro (h1 | ⟨t, nb, l, h2, h3, h4, ⟨h1, h5⟩ | ⟨h1, h5⟩⟩)
      · exact Or.inl h1
      · exact Or.inr (Or.inl ⟨h1, t, nb, l, h2, h3, h4, h5⟩)
      · exact Or.inr (Or.inr ⟨h1, t, nb, l, h2, h3, h4, h5⟩)

theorem addNode_adj (nodes : List BaseNode) (matrix : List (List Bool)) (g g' : Graph)
    (e : Nat × BaseNode) (a b : String) (h : addNode nodes matrix g e = some g') :
    b ∈ g'.neighbors a ↔ b ∈ g.neighbors a ∨
      ∃ row, matrix[e.1]? = some row ∧
        ∃ p ∈ List.range' 1 e.2.portCount, PortEdges nodes row e.2.id p a b := by
  unfold addNode at h
  cases hm : matrix[e.1]? with
  | none => rw [hm] at h; exact absurd h (by simp)
  | some row =>
    rw [hm] at h
    simp only at h
    have := foldlM_or (addPort nodes row e.2.id) (fun s => b ∈ s.neighbors a)
      (fun p => PortEdges nodes row e.2.id p a b) (List.range' 1 e.2.portCount) _ g'
      (fun t x t' _ ht => addPort_adj nodes row e.2.id t t' x a b ht) h
    beta_reduce at this
    rw [this]
    simp only [Option.some.injEq, exists_eq_left']
    rfl

theorem visible_iff (matrix : List (List Bool)) (i j : Nat) :
    visible matrix i j = true ↔ ∃ row, matrix[i]? = some row ∧ row[j]? = some true := by
  unfold visible
  rw [List.getD_eq_getElem?_getD, List.getD_eq_getElem?_getD]
  cases hm : matrix[i]? with
  | none => simp
  | some row =>
    cases hr : row[j]? with
    | none => simp [hr]
    | some v => simp [hr]

theorem CreateGraph_adj (nodes : List BaseNode) (matrix : List (List Bool)) (g : Graph)
    (a b : String) (h : CreateGraph nodes matrix = some g) :
    b ∈ g.neighbors a ↔ EdgeRel nodes matrix a b := by
  unfold CreateGraph at h
  have := foldlM_or (addNode nodes matrix) (fun s => b ∈ s.neighbors a)
    (fun e => ∃ row, matrix[e.1]? = some row ∧
      ∃ p ∈ List.range' 1 e.2.portCount, PortEdges nodes row e.2.id p a b)
    nodes.enum _ g (fun t x t' _ ht => addNode_adj nodes matrix t t' x a b ht) h
  beta_reduce at this
  rw [this]
  have h0 : ¬ b ∈ NewGraph.neighbors a := by simp [NewGraph, Graph.neighbors, mapGet]
  simp only [h0, false_or]
  unfold EdgeRel PortEdges
  constructor
  · rintro ⟨⟨i, bi⟩, he, row, hrow, p, hp, t, nb, l, h1, h2, h3, h4⟩
    have hi : nodes[i]? = some bi := List.mk_mem_enum_iff_getElem?.1 he
    have hp' := List.mem_range'_1.1 hp
    simp only at hp'
    exact ⟨i, t, bi, nb, p, l, hi, h2, (visible_iff _ _ _).2 ⟨row, hrow, h1⟩,
      ⟨hp'.1, by omega⟩, h3, h4⟩
  · rintro ⟨i, j, bi, bj, k, l, hi, hj, hv, hk, hl, h4⟩
    obtain ⟨row, hrow, hrj⟩ := (visible_iff _ _ _).1 hv
    exact ⟨(i, bi), List.mk_mem_enum_iff_getElem?.2 hi, row, hrow, k,
      List.mem_range'_1.2 ⟨hk.1, by simp only; omega⟩, j, bj, l, hrj, hj, hl, h4⟩

theorem CreateGraph_some (nodes : List BaseNode) (matrix : List (List Bool))
    (hrows : matrix.length = nodes.length)
    (hcols : ∀ row ∈ matrix, row.length = nodes.length) :
    ∃ g, CreateGraph nodes matrix = some g := by
  unfold CreateGraph
  apply foldlM_some
  rintro t ⟨i, bi⟩ he
  have hi : nodes[i]? = some bi := List.mk_mem_enum_iff_getElem?.1 he
  have hlt : i < matrix.length := by
    rw [hrows]
    by_contra hcon
    rw [List.getElem?_eq_none (not_lt.1 hcon)] at hi
    exact absurd hi (by simp)
  unfold addNode
  simp only [List.getElem?_eq_getElem hlt]
  apply foldlM_some
  intro t' p _
  unfold addPort
  obtain ⟨r, hr⟩ := rowNeighbors_some nodes matrix[i] 0 []
    (by rw [hcols _ (List.getElem_mem hlt)]; omega)
  rw [hr]
  exact ⟨_, rfl⟩

theorem index_of_id {nodes : List BaseNode} (hdist : (nodes.map BaseNode.id).Nodup)
    {i j : Nat} {bi bj : BaseNode} (hi : nodes[i]? = some bi) (hj : nodes[j]? = some bj)
    (hid : bi.id = bj.id) : i = j := by
  have hi' : (nodes.map BaseNode.id)[i]? = some bi.id := by simp [List.getElem?_map, hi]
  have hj' : (nodes.map BaseNode.id)[j]? = some bj.id := by simp [List.getElem?_map, hj]
  have hlen : ∀ {t : Nat} {x : String}, (nodes.map BaseNode.id)[t]? = some x →
      t < (nodes.map BaseNode.id).length := by
    intro t x ht
    by_contra hcon
    rw [List.getElem?_eq_none (not_lt.1 hcon)] at ht
    exact absurd ht (by simp)
  have hnd := List.nodup_iff_getElem?_ne_getElem?.1 hdist
  rcases Nat.lt_trichotomy i j with hlt | heq | hgt
  · exact absurd (by rw [hi', hj', hid]) (hnd i j hlt (hlen hj'))
  · exact heq
  · exact absurd (by rw [hi', hj', hid]) (hnd j i hgt (hlen hi'))

theorem visible_symClosure (matrix : List (List Bool)) (i j : Nat)
    (hi : i < matrix.length) (hj : j < matrix.length) :
    visible (symClosure matrix) i j = (visible matrix i j || visible matrix j i) := by
  simp [visible, symClosure, List.getD_eq_getElem?_getD, List.getElem?_map,
    List.getElem?_range, hi, hj]

theorem EdgeRel_symClosure (nodes : List BaseNode) (matrix : List (List Bool))
    (hrows : matrix.length = nodes.length) (a b : String) :
    EdgeRel nodes (symClosure matrix) a b ↔ EdgeRel nodes matrix a b := by
  have hlen : ∀ {t : Nat} {x : BaseNode}, nodes[t]? = some x → t < matrix.length := by
    intro t x ht
    rw [hrows]
    by_contra hcon
    rw [List.getElem?_eq_none (not_lt.1 hcon)] at ht
    exact absurd ht (by simp)
  unfold EdgeRel
  constructor
  · rintro ⟨i, j, bi, bj, k, l, hi, hj, hv, hk, hl, h4⟩
    rw [visible_symClosure matrix i j (hlen hi) (hlen hj), Bool.or_eq_true] at hv
    rcases hv with hv | hv
    · exact ⟨i, j, bi, bj, k, l, hi, hj, hv, hk, hl, h4⟩
    · exact ⟨j, i, bj, bi, l, k, hj, hi, hv, hl, hk, h4.symm.imp And.symm And.symm⟩
  · rintro ⟨i, j, bi, bj, k, l, hi, hj, hv, hk, hl, h4⟩
    refine ⟨i, j, bi, bj, k, l, hi, hj, ?_, hk, hl, h4⟩
    rw [visible_symClosure matrix i j (hlen hi) (hlen hj), hv]
    rfl

/-- C6: for base nodes with distinct ids and a square visibility matrix aligned to them,
`CreateGraph` returns a graph in which a port of base node `i` and a port of base node `j`
are adjacent if and only if `visibility[i][j]` or `visibility[j][i]` is true; and the
adjacency is the same, as sets, for the matrix and for its symmetric closure. -/
theorem CreateGraph_adjacency_iff_visible (nodes : List BaseNode) (matrix : List (List Bool))
    (hdist : (nodes.map BaseNode.id).Nodup) (hrows : matrix.length = nodes.length)
    (hcols : ∀ row ∈ matrix, row.length = nodes.length) :
    ∃ g, CreateGraph nodes matrix = some g ∧
      (∀ (i j : Nat) (bi bj : BaseNode) (k l : Nat), nodes[i]? = some bi → nodes[j]? = some bj →
        1 ≤ k → k ≤ bi.portCount → 1 ≤ l → l ≤ bj.portCount →
        (portId bj.id l ∈ g.neighbors (portId bi.id k) ↔
          (visible matrix i j = true ∨ visible matrix j i = true))) ∧
      ∃ g', CreateGraph nodes (symClosure matrix) = some g' ∧
        ∀ a b, b ∈ g'.neighbors a ↔ b ∈ g.neighbors a := by
  obtain ⟨g, hg⟩ := CreateGraph_some nodes matrix hrows hcols
  have hsl : (symClosure matrix).length = nodes.length := by simp [symClosure, hrows]
  have hsc : ∀ row ∈ symClosure matrix, row.length = nodes.length := by
    intro row hrow
    simp only [symClosure, List.mem_map] at hrow
    obtain ⟨i, _, rfl⟩ := hrow
    simp [hrows]
  obtain ⟨g', hg'⟩ := CreateGraph_some nodes (symClosure matrix) hsl hsc
  refine ⟨g, hg, ?_, g', hg', ?_⟩
  · intro i j bi bj k l hi hj hk1 hk2 hl1 hl2
    rw [CreateGraph_adj nodes matrix g _ _ hg]
    constructor
    · rintro ⟨i', j', bi', bj', k', l', hi', hj', hv, _, _, ⟨h1, h2⟩ | ⟨h1, h2⟩⟩
      · have e1 := (portId_injective _ _ _ _ h1).1
        have e2 := (portId_injective _ _ _ _ h2).1
        have := index_of_id hdist hi hi' e1
        have := index_of_id hdist hj hj' e2
        subst_vars
        exact Or.inl hv
      · have e1 := (portId_injective _ _ _ _ h1).1
        have e2 := (portId_injective _ _ _ _ h2).1
        have := index_of_id hdist hj hi' e1
        have := index_of_id hdist hi hj' e2
        subst_vars
        exact Or.inr hv
    · rintro (hv | hv)
      · exact ⟨i, j, bi, bj, k, l, hi, hj, hv, ⟨hk1, hk2⟩, ⟨hl1, hl2⟩, Or.inl ⟨rfl, rfl⟩⟩
      · exact ⟨j, i, bj, bi, l, k, hj, hi, hv, ⟨hl1, hl2⟩, ⟨hk1, hk2⟩, Or.inr ⟨rfl, rfl⟩⟩
  · intro a b
    rw [CreateGraph_adj nodes _ g' a b hg', CreateGraph_adj nodes _ g a b hg]
    exact EdgeRel_symClosure nodes matrix hrows a b

/-! ## The capacity map built by `CreateGraph` -/

theorem mem_keys_mapSet {β : Type} (m : List (String × β)) (k : String) (v : β) (x : String) :
    x ∈ (mapSet m k v).map Prod.fst ↔ x ∈ m.map Prod.fst ∨ x = k := by
  induction m with
  | nil => simp [mapSet]
  | cons e rest ih =>
    obtain ⟨k0, v0⟩ := e
    by_cases h0 : k0 = k
    · subst h0
      simp only [mapSet, if_true, List.map_cons, List.mem_cons]
      constructor
      · rintro (h | h)
        · exact Or.inr h
        · exact Or.inl (Or.inr h)
      · rintro ((h | h) | h)
        · exact Or.inl h
        · exact Or.inr h
        · exact Or.inl h
    · simp only [mapSet, h0, if_false, List.map_cons, List.mem_cons, ih]
      simp only [or_assoc]

theorem portId_ne_self (id : String) (p : Nat) : portId id p ≠ id := by
  intro h
  have hd := congrArg (fun s => s.data.length) h
  simp only [portId_data, List.length_append, List.length_cons, List.length_nil] at hd
  omega

theorem addPort_portgen (nodes : List BaseNode) (row : List Bool) (id : String) (g g' : Graph)
    (p : Nat) (h : addPort nodes row id g p = some g') :
    g'.portgen = mapSet g.portgen (portId id p) (g.cap id) := by
  unfold addPort at h
  cases hr : rowNeighbors nodes 0 row [] with
  | none => rw [hr] at h; exact absurd h (by simp)
  | some nbrs =>
    rw [hr] at h
    simp only [Option.some.injEq] at h
    subst h
    simp [Graph.cap, portgen_AddEdges]

theorem addPort_cap (nodes : List BaseNode) (row : List Bool) (id : String) (g g' : Graph)
    (p : Nat) (h : addPort nodes row id g p = some g') (K : String) :
    g'.cap K = if portId id p = K then g.cap id else g.cap K := by
  simp [Graph.cap, addPort_portgen nodes row id g g' p h, mapGet_mapSet]

theorem addPort_nodeIds (nodes : List BaseNode) (row : List Bool) (id : String) (g g' : Graph)
    (p : Nat) (h : addPort nodes row id g p = some g') (K : String) :
    K ∈ g'.nodeIds ↔ K ∈ g.nodeIds ∨ K = portId id p := by
  unfold Graph.nodeIds
  rw [addPort_portgen nodes row id g g' p h, mem_keys_mapSet]

theorem ports_fold_cap (nodes : List BaseNode) (row : List Bool) (id : String) (c : Int)
    (ps : List Nat) :
    ∀ g g', ps.foldlM (addPort nodes row id) g = some g' → g.cap id = c →
      g'.cap id = c ∧ ∀ k, (k ∈ ps ∨ g.cap (portId id k) = c) → g'.cap (portId id k) = c := by
  induction ps with
  | nil =>
    intro g g' h hc
    simp only [List.foldlM_nil, pure, Option.some.injEq] at h
    subst h
    exact ⟨hc, fun k hk => by simpa using hk⟩
  | cons p rest ih =>
    intro g g' h hc
    rw [List.foldlM_cons] at h
    cases hx : addPort nodes row id g p with
    | none => rw [hx] at h; exact absurd h (by simp)
    | some t =>
      rw [hx] at h
      simp only [Option.some_bind, bind] at h
      have hcap := addPort_cap nodes row id g t p hx
      have htc : t.cap id = c := by rw [hcap, if_neg (portId_ne_self id p)]; exact hc
      obtain ⟨h1, h2⟩ := ih t g' h htc
      refine ⟨h1, ?_⟩
      intro k hk
      apply h2
      by_cases hkp : k = p
      · right; rw [hcap, hkp, if_pos rfl]; exact hc
      · rcases hk with hk | hk
        · rcases List.mem_cons.1 hk with hk | hk
          · exact absurd hk hkp
          · exact Or.inl hk
        · right
          rw [hcap]
          by_cases hpk : portId id p = portId id k
          · rw [if_pos hpk]; exact hc
          · rw [if_neg hpk]; exact hk

theorem ports_fold_other (nodes : List BaseNode) (row : List Bool) (id : String)
    (ps : List Nat) (K : String) (hK : ∀ p, K ≠ portId id p) (g g' : Graph)
    (h : ps.foldlM (addPort nodes row id) g = some g') :
    g'.cap K = g.cap K ∧ (K ∈ g'.nodeIds → K ∈ g.nodeIds) := by
  refine foldlM_inv (addPort nodes row id)
    (fun t => t.cap K = g.cap K ∧ (K ∈ t.nodeIds → K ∈ g.nodeIds)) ps g g' ?_ ⟨rfl, fun hk => hk⟩ h
  intro t x t' _ ht hI
  refine ⟨?_, ?_⟩
  · rw [addPort_cap nodes row id t t' x ht, if_neg (Ne.symm (hK x))]
    exact hI.1
  · intro hk
    rcases (addPort_nodeIds nodes row id t t' x ht K).1 hk with hk | hk
    · exact hI.2 hk
    · exact absurd hk (hK x)

theorem addNode_own (nodes : List BaseNode) (matrix : List (List Bool)) (g g' : Graph)
    (e : Nat × BaseNode) (h : addNode nodes matrix g e = some g') :
    ∀ k, 1 ≤ k → k ≤ e.2.portCount → g'.cap (portId e.2.id k) = e.2.baseCap := by
  unfold addNode at h
  cases hm : matrix[e.1]? with
  | none => rw [hm] at h; exact absurd h (by simp)
  | some row =>
    rw [hm] at h
    simp only at h
    have h0 : Graph.cap { adj := g.adj, portgen := mapSet g.portgen e.2.id e.2.baseCap } e.2.id
        = e.2.baseCap := by simp [Graph.cap, mapGet_mapSet]
    intro k hk1 hk2
    exact (ports_fold_cap nodes row e.2.id e.2.baseCap _ _ g' h h0).2 k
      (Or.inl (List.mem_range'_1.2 ⟨hk1, by omega⟩))

theorem addNode_other (nodes : List BaseNode) (matrix : List (List Bool)) (g g' : Graph)
    (e : Nat × BaseNode) (h : addNode nodes matrix g e = some g') (K : String)
    (hK0 : K ≠ e.2.id) (hK : ∀ p, K ≠ portId e.2.id p) :
    g'.cap K = g.cap K ∧ (K ∈ g'.nodeIds → K ∈ g.nodeIds) := by
  unfold addNode at h
  cases hm : matrix[e.1]? with
  | none => rw [hm] at h; exact absurd h (by simp)
  | some row =>
    rw [hm] at h
    simp only at h
    obtain ⟨h1, h2⟩ := ports_fold_other nodes row e.2.id _ K hK _ g' h
    refine ⟨?_, ?_⟩
    · rw [h1]
      simp [Graph.cap, mapGet_mapSet, Ne.symm hK0]
    · intro hk
      have := h2 hk
      simp only [Graph.nodeIds, mem_keys_mapSet] at this
      rcases this with h3 | h3
      · exact h3
      · exact absurd h3 hK0

theorem addNode_nodeIds (nodes : List BaseNode) (matrix : List (List Bool)) (g g' : Graph)
    (e : Nat × BaseNode) (h : addNode nodes matrix g e = some g') (K : String) :
    K ∈ g'.nodeIds ↔ K ∈ g.nodeIds ∨
      (K = e.2.id ∨ ∃ p ∈ List.range' 1 e.2.portCount, K = portId e.2.id p) := by
  unfold addNode at h
  cases hm : matrix[e.1]? with
  | none => rw [hm] at h; exact absurd h (by simp)
  | some row =>
    rw [hm] at h
    simp only at h
    have := foldlM_or (addPort nodes row e.2.id) (fun s => K ∈ s.nodeIds)
      (fun p => K = portId e.2.id p) (List.range' 1 e.2.portCount) _ g'
      (fun t x t' _ ht => addPort_nodeIds nodes row e.2.id t t' x ht K) h
    beta_reduce at this
    rw [this]
    simp only [Graph.nodeIds, mem_keys_mapSet, or_assoc]

theorem CreateGraph_nodeIds (nodes : List BaseNode) (matrix : List (List Bool)) (g : Graph)
    (h : CreateGraph nodes matrix = some g) (K : String) :
    K ∈ g.nodeIds ↔ ∃ e ∈ nodes.enum,
      (K = e.2.id ∨ ∃ p ∈ List.range' 1 e.2.portCount, K = portId e.2.id p) := by
  unfold CreateGraph at h
  have := foldlM_or (addNode nodes matrix) (fun s => K ∈ s.nodeIds)
    (fun e => K = e.2.id ∨ ∃ p ∈ List.range' 1 e.2.portCount, K = portId e.2.id p)
    nodes.enum _ g (fun t x t' _ ht => addNode_nodeIds nodes matrix t t' x ht K) h
  beta_reduce at this
  rw [this]
  simp [NewGraph, Graph.nodeIds]

theorem CreateGraph_adjacency_iff_visible_witness :
    (scenarioNodes.map BaseNode.id).Nodup ∧ scenarioMatrixOneWay.length = scenarioNodes.length ∧
      (∀ row ∈ scenarioMatrixOneWay, row.length = scenarioNodes.length) ∧
      ∃ g, CreateGraph scenarioNodes scenarioMatrixOneWay = some g ∧
        (∀ (i j : Nat) (bi bj : BaseNode) (k l : Nat), scenarioNodes[i]? = some bi →
          scenarioNodes[j]? = some bj → 1 ≤ k → k ≤ bi.portCount → 1 ≤ l → l ≤ bj.portCount →
          (portId bj.id l ∈ g.neighbors (portId bi.id k) ↔
            (visible scenarioMatrixOneWay i j = true ∨ visible scenarioMatrixOneWay j i = true))) ∧
        ∃ g', CreateGraph scenarioNodes (symClosure scenarioMatrixOneWay) = some g' ∧
          ∀ a b, b ∈ g'.neighbors a ↔ b ∈ g.neighbors a :=
  ⟨by decide, by decide, by decide,
    CreateGraph_adjacency_iff_visible scenarioNodes scenarioMatrixOneWay
      (by decide) (by decide) (by decide)⟩

theorem portId_ne_of_short (x id : String) (k : Nat) (h : x.data.length < id.data.length + 5) :
    x ≠ portId id k := by
  intro hc
  have hd := congrArg (fun s => s.data.length) hc
  simp only [portId_data, List.length_append, List.length_cons, List.length_nil] at hd
  omega

theorem portCount_le_iff (b : BaseNode) (n : Int) (hn : b.ports = some n) (k : Nat) :
    k ≤ b.portCount ↔ (k : Int) ≤ max n 1 := by
  unfold BaseNode.portCount
  rw [hn]
  by_cases hp : n > 0
  · simp only [hp, if_true]; omega
  · simp only [hp, if_false]; omega

/-- C8 (counterexample): for a base node `b` with port count 0 the built graph has the
port node `b:port1`, so its port nodes are not the 0 nodes `b:port1 .. b:port0`. -/
theorem CreateGraph_port_count_zero :
    zeroPortNode.ports = some 0 ∧
      CreateGraph [zeroPortNode] [[false]]
        = some { adj := [], portgen := [("b", 5), ("b:port1", 5)] } ∧
      ¬ (∀ k : Nat, portId "b" k ∈
          Graph.nodeIds { adj := [], portgen := [("b", 5), ("b:port1", 5)] } ↔
            (1 ≤ k ∧ (k : Int) ≤ 0)) := by
  refine ⟨rfl, by decide, ?_⟩
  intro h
  have h1 := (h 1).1 (by decide)
  omega

/-- C8 (amended): for a base node with id `b`, port count `n` and capacity `c`, in an
input with distinct base ids none of which is itself a port id of `b`, the built graph
has exactly the port nodes `b:port1 .. b:portN` for `N = max(n, 1)`, each of capacity `c`. -/
theorem CreateGraph_port_nodes (nodes : List BaseNode) (matrix : List (List Bool)) (g : Graph)
    (hg : CreateGraph nodes matrix = some g) (hdist : (nodes.map BaseNode.id).Nodup)
    (i : Nat) (b : BaseNode) (hb : nodes[i]? = some b) (n c : Int)
    (hn : b.ports = some n) (hc : b.portgen = some c)
    (hfresh : ∀ x ∈ nodes, ∀ k, x.id ≠ portId b.id k) :
    (∀ k : Nat, portId b.id k ∈ g.nodeIds ↔ (1 ≤ k ∧ (k : Int) ≤ max n 1)) ∧
      ∀ k : Nat, 1 ≤ k → (k : Int) ≤ max n 1 → g.cap (portId b.id k) = c := by
  have hcap : b.baseCap = c := by simp [BaseNode.baseCap, hc]
  have hkeys : ∀ k : Nat, portId b.id k ∈ g.nodeIds ↔ (1 ≤ k ∧ (k : Int) ≤ max n 1) := by
    intro k
    rw [CreateGraph_nodeIds nodes matrix g hg, ← portCount_le_iff b n hn k]
    constructor
    · rintro ⟨⟨j, x⟩, he, h1 | ⟨p, hp, h1⟩⟩
      · have hx : nodes[j]? = some x := List.mk_mem_enum_iff_getElem?.1 he
        exact absurd h1.symm (hfresh x (List.getElem?_mem hx) k)
      · have hx : nodes[j]? = some x := List.mk_mem_enum_iff_getElem?.1 he
        obtain ⟨e1, e2⟩ := portId_injective _ _ _ _ h1
        simp only at e1
        have hij := index_of_id hdist hb hx e1
        subst hij
        rw [hb] at hx
        have hbx : b = x := Option.some.inj hx
        subst hbx
        have hp' := List.mem_range'_1.1 hp
        simp only at hp'
        omega
    · rintro ⟨h1, h2⟩
      exact ⟨(i, b), List.mk_mem_enum_iff_getElem?.2 hb, Or.inr ⟨k,
        List.mem_range'_1.2 ⟨h1, by simp only; omega⟩, rfl⟩⟩
  refine ⟨hkeys, ?_⟩
  intro k hk1 hk2
  have hk3 : k ≤ b.portCount := (portCount_le_iff b n hn k).2 hk2
  have hI : portId b.id k ∈ g.nodeIds → g.cap (portId b.id k) = b.baseCap := by
    unfold CreateGraph at hg
    refine foldlM_inv (addNode nodes matrix)
      (fun t => portId b.id k ∈ t.nodeIds → t.cap (portId b.id k) = b.baseCap)
      nodes.enum NewGraph g ?_ ?_ hg
    · rintro t ⟨j, x⟩ t' he ht hI
      have hx : nodes[j]? = some x := List.mk_mem_enum_iff_getElem?.1 he
      by_cases hid : x.id = b.id
      · have hij := index_of_id hdist hb hx hid.symm
        subst hij
        rw [hb] at hx
        have hbx : b = x := Option.some.inj hx
        subst hbx
        intro _
        exact addNode_own nodes matrix t t' (i, b) ht k hk1 hk3
      · have hoth := addNode_other nodes matrix t t' (j, x) ht (portId b.id k)
          (fun h => hfresh x (List.getElem?_mem hx) k h.symm)
          (fun p h => hid (portId_injective _ _ _ _ h).1.symm)
        intro hmem
        rw [hoth.1]
        exact hI (hoth.2 hmem)
    · intro hmem
      simp [NewGraph, Graph.nodeIds] at hmem
  rw [hI ((hkeys k).2 ⟨hk1, hk2⟩), hcap]

theorem CreateGraph_port_nodes_witness :
    CreateGraph twoNodes twoMatrix = some twoGraph ∧
      (twoNodes.map BaseNode.id).Nodup ∧ twoNodes[0]? = some zeroPortNode ∧
      zeroPortNode.ports = some 0 ∧ zeroPortNode.portgen = some 5 ∧
      (∀ x ∈ twoNodes, ∀ k, x.id ≠ portId zeroPortNode.id k) ∧
      (∀ k : Nat, portId zeroPortNode.id k ∈ twoGraph.nodeIds ↔
        (1 ≤ k ∧ (k : Int) ≤ max 0 1)) ∧
      ∀ k : Nat, 1 ≤ k → (k : Int) ≤ max 0 1 → twoGraph.cap (portId zeroPortNode.id k) = 5 :=
  have hfresh : ∀ x ∈ twoNodes, ∀ k, x.id ≠ portId zeroPortNode.id k := by
    intro x hx k
    simp only [twoNodes, List.mem_cons, List.mem_singleton, List.not_mem_nil, or_false] at hx
    rcases hx with rfl | rfl <;> exact portId_ne_of_short _ _ k (by decide)
  ⟨by decide, by decide, rfl, rfl, rfl, hfresh,
    CreateGraph_port_nodes twoNodes twoMatrix twoGraph (by decide) (by decide) 0 zeroPortNode
      rfl 0 5 rfl rfl hfresh⟩

/-! ## One pass of the relay coordinator -/

theorem GetLogicalNodeById_some (id : String) (nodes : List LogicalNode) :
    ∀ j, GetLogicalNodeById id nodes = some j → ∃ t, nodes[j]? = some t ∧ t.ID = id := by
  induction nodes with
  | nil => intro j h; simp [GetLogicalNodeById] at h
  | cons ln rest ih =>
    intro j h
    by_cases hid : ln.ID = id
    · simp only [GetLogicalNodeById, hid, if_true, Option.some.injEq] at h
      subst h
      exact ⟨ln, by simp, hid⟩
    · simp only [GetLogicalNodeById, hid, if_false, Option.map_eq_some'] at h
      obtain ⟨j', hj', rfl⟩ := h
      obtain ⟨t, ht, htid⟩ := ih j' hj'
      exact ⟨t, by simpa using ht, htid⟩

theorem relayStep_idle (router : Router) (c : Coordinator) (k : Nat) (t : LogicalNode)
    (hk : c.logicalNodes[k]? = some t) (hst : t.State ≠ "wsc") :
    relayStep router c k = some c := by
  simp [relayStep, hk, hst]

theorem foldlM_idle (router : Router) (c : Coordinator) (l : List Nat)
    (h : ∀ k ∈ l, ∃ t, c.logicalNodes[k]? = some t ∧ t.State ≠ "wsc") :
    l.foldlM (relayStep router) c = some c := by
  induction l with
  | nil => rfl
  | cons k rest ih =>
    obtain ⟨t, ht, hst⟩ := h k (List.mem_cons_self _ _)
    rw [List.foldlM_cons, relayStep_idle router c k t ht hst]
    exact ih (fun k' hk' => h k' (List.mem_cons_of_mem _ hk'))

theorem relayStep_forward (router : Router) (c : Coordinator) (i j o : Nat)
    (ln tj obj : LogicalNode) (first hop : String) (rest : List String)
    (hi : c.logicalNodes[i]? = some ln) (hst : ln.State = "wsc")
    (ho : ln.Message.Objective = some o) (hobj : c.logicalNodes[o]? = some obj)
    (hpath : router ln.ID obj.ID
      (c.restrictions.filter (fun id => id ≠ ln.ID ∧ id ≠ obj.ID)) = first :: hop :: rest)
    (hj : GetLogicalNodeById hop c.logicalNodes = some j) (htj : c.logicalNodes[j]? = some tj)
    (hne : hop ≠ obj.ID) (hji : j ≠ i) :
    relayStep router c i = some (afterHop c i j ln tj) := by
  obtain ⟨t, ht, htid⟩ := GetLogicalNodeById_some hop c.logicalNodes j hj
  rw [htj] at ht
  have htt : tj = t := Option.some.inj ht
  subst htt
  have hgp : GetPath router c.logicalNodes ln c.restrictions = some (first :: hop :: rest) := by
    simp only [GetPath, ho, Option.some_bind, hobj, hpath]
  have hread : readNode c.logicalNodes (some j) = tj := by
    simp [readNode, htj]
  have hcond : ¬ (some obj.ID = some tj.ID) := by
    intro hc
    exact hne (by rw [← htid]; exact (Option.some.inj hc).symm)
  have hclear : ∀ v : LogicalNode, clearNode (c.logicalNodes.set j v) i
      = (c.logicalNodes.set j v).set i { ln with Message := Instruction.empty, State := "" } := by
    intro v
    simp [clearNode, List.getElem?_set_ne hji, hi]
  simp only [relayStep, hi, hst, ne_eq, not_true_eq_false, if_false, hgp, hj, hread, ho,
    Option.some_bind, hobj, Option.map_some', hcond, writeNode, hclear, afterHop]

/-- C9 (amended): with a single Instruction in flight, held by the node at index `i`, whose
next hop is the node at index `j`, not the objective: if `j` lies before `i` in the list the
pass ends with `j` RelayPending holding the Instruction (one hop); if `j` lies after `i`
the pass goes on from `j`, which is RelayPending, so `j` is processed in the same pass. -/
theorem CommunicationProtocol_live_state (router : Router) (c : Coordinator) (i j o : Nat)
    (ln tj obj : LogicalNode) (first hop : String) (rest : List String)
    (hi : c.logicalNodes[i]? = some ln) (hst : ln.State = "wsc")
    (hsingle : ∀ p ∈ c.logicalNodes.enum, p.1 ≠ i → p.2.State ≠ "wsc")
    (ho : ln.Message.Objective = some o) (hobj : c.logicalNodes[o]? = some obj)
    (hpath : router ln.ID obj.ID
      (c.restrictions.filter (fun id => id ≠ ln.ID ∧ id ≠ obj.ID)) = first :: hop :: rest)
    (hj : GetLogicalNodeById hop c.logicalNodes = some j) (htj : c.logicalNodes[j]? = some tj)
    (hne : hop ≠ obj.ID) (hji : j ≠ i) :
    (afterHop c i j ln tj).logicalNodes[j]?
        = some { tj with Message := ln.Message, State := "wsc" } ∧
      (j < i → CommunicationProtocol router c = some (afterHop c i j ln tj)) ∧
      (i < j → CommunicationProtocol router c = passFrom router j (afterHop c i j ln tj)) := by
  have hilt : i < c.logicalNodes.length := by
    by_contra hcon
    rw [List.getElem?_eq_none (not_lt.1 hcon)] at hi
    exact absurd hi (by simp)
  have hjlt : j < c.logicalNodes.length := by
    by_contra hcon
    rw [List.getElem?_eq_none (not_lt.1 hcon)] at htj
    exact absurd htj (by simp)
  have hlen : (afterHop c i j ln tj).logicalNodes.length = c.logicalNodes.length := by
    simp [afterHop]
  -- nodes other than `i` are Idle before the hop
  have hidle : ∀ k, k < c.logicalNodes.length → k ≠ i →
      ∃ t, c.logicalNodes[k]? = some t ∧ t.State ≠ "wsc" := by
    intro k hk hki
    refine ⟨c.logicalNodes[k], List.getElem?_eq_getElem hk, ?_⟩
    exact hsingle (k, c.logicalNodes[k])
      (List.mk_mem_enum_iff_getElem?.2 (List.getElem?_eq_getElem hk)) hki
  -- nodes other than `j` are Idle after the hop
  have hidle' : ∀ k, k < c.logicalNodes.length → k ≠ j →
      ∃ t, (afterHop c i j ln tj).logicalNodes[k]? = some t ∧ t.State ≠ "wsc" := by
    intro k hk hkj
    by_cases hki : k = i
    · subst hki
      refine ⟨{ ln with Message := Instruction.empty, State := "" }, ?_, by simp⟩
      simp [afterHop, List.getElem?_set, hilt]
    · obtain ⟨t, ht, hts⟩ := hidle k hk hki
      refine ⟨t, ?_, hts⟩
      simp only [afterHop]
      rw [List.getElem?_set_ne (Ne.symm hki), List.getElem?_set_ne (Ne.symm hkj)]
      exact ht
  have hstep := relayStep_forward router c i j o ln tj obj first hop rest hi hst ho hobj hpath
    hj htj hne hji
  -- the pass up to and including the holder
  have hsplit : List.range' 0 (c.logicalNodes.length - 0)
      = List.range' 0 i ++ (i :: List.range' (i + 1) (c.logicalNodes.length - (i + 1))) := by
    have h1 : c.logicalNodes.length - 0 = (c.logicalNodes.length - i) + i := by omega
    have h2 : c.logicalNodes.length - i = (c.logicalNodes.length - (i + 1)) + 1 := by omega
    rw [h1, ← List.range'_append_1, Nat.zero_add, h2, List.range'_succ]
  have hhead : CommunicationProtocol router c
      = (List.range' (i + 1) (c.logicalNodes.length - (i + 1))).foldlM (relayStep router)
          (afterHop c i j ln tj) := by
    unfold CommunicationProtocol passFrom
    rw [hsplit, List.foldlM_append, foldlM_idle router c (List.range' 0 i) (by
      intro k hk
      have := List.mem_range'_1.1 hk
      exact hidle k (by omega) (by omega))]
    simp only [Option.some_bind, bind, List.foldlM_cons, hstep]
  refine ⟨?_, ?_, ?_⟩
  · simp [afterHop, List.getElem?_set, hjlt, hji, Ne.symm hji]
  · intro hlt
    rw [hhead]
    apply foldlM_idle
    intro k hk
    have := List.mem_range'_1.1 hk
    exact hidle' k (by omega) (by omega)
  · intro hlt
    rw [hhead]
    have h1 : c.logicalNodes.length - (i + 1)
        = (c.logicalNodes.length - j) + (j - (i + 1)) := by omega
    have h2 : i + 1 + (j - (i + 1)) = j := by omega
    unfold passFrom
    rw [hlen, h1, ← List.range'_append_1, h2, List.foldlM_append,
      foldlM_idle router _ (List.range' (i + 1) (j - (i + 1))) (by
        intro k hk
        have := List.mem_range'_1.1 hk
        exact hidle' k (by omega) (by omega))]
    rfl

theorem CommunicationProtocol_live_state_witness :
    scenarioStartReversed.logicalNodes[2]? = some holderA ∧ holderA.State = "wsc" ∧
      (∀ p ∈ scenarioStartReversed.logicalNodes.enum, p.1 ≠ 2 → p.2.State ≠ "wsc") ∧
      scenarioRouter holderA.ID idleC.ID
        (scenarioStartReversed.restrictions.filter
          (fun id => id ≠ holderA.ID ∧ id ≠ idleC.ID)) = "A:port1" :: "B:port1" :: ["C:port1"] ∧
      ((afterHop scenarioStartReversed 2 1 holderA idleB).logicalNodes[1]?
          = some { idleB with Message := holderA.Message, State := "wsc" } ∧
        (1 < 2 → CommunicationProtocol scenarioRouter scenarioStartReversed
          = some (afterHop scenarioStartReversed 2 1 holderA idleB)) ∧
        (2 < 1 → CommunicationProtocol scenarioRouter scenarioStartReversed
          = passFrom scenarioRouter 1 (afterHop scenarioStartReversed 2 1 holderA idleB))) :=
  ⟨by decide, rfl, by decide, by decide,
    CommunicationProtocol_live_state scenarioRouter scenarioStartReversed 2 1 0
      holderA idleB idleC "A:port1" "B:port1" ["C:port1"] (by decide) rfl (by decide) rfl
      (by decide) (by decide) (by decide) (by decide) (by decide) (by decide)⟩

/-- C9 (counterexample): in Scenario A, with the nodes in the order `A, B, C`, node `B` is
Idle when the first pass starts, and when the pass ends no node is RelayPending and the
Instruction has been delivered: it advanced two hops in one pass. -/
theorem scenarioA_first_pass_delivers :
    scenarioStart.logicalNodes[1]? = some idleB ∧
      CommunicationProtocol scenarioRouter scenarioStart
        = some { logicalNodes := GetLogicalNodes scenarioNodes, restrictions := [],
                 delivered := [{ reciever_id := "C", sender_id := "B", payload := "hi" }] } ∧
      ∀ ln ∈ GetLogicalNodes scenarioNodes, ln.State ≠ "wsc" := by
  refine ⟨by decide, by decide, by decide⟩

/-- When the next hop is the objective, the pass hands the sink a record whose sender is
the base id of the node that held the Instruction last, whatever its origin. -/
theorem relayStep_deliver (router : Router) (c : Coordinator) (i j o : Nat)
    (ln tj obj : LogicalNode) (first hop : String) (rest : List String)
    (hi : c.logicalNodes[i]? = some ln) (hst : ln.State = "wsc")
    (ho : ln.Message.Objective = some o) (hobj : c.logicalNodes[o]? = some obj)
    (hpath : router ln.ID obj.ID
      (c.restrictions.filter (fun id => id ≠ ln.ID ∧ id ≠ obj.ID)) = first :: hop :: rest)
    (hj : GetLogicalNodeById hop c.logicalNodes = some j) (htj : c.logicalNodes[j]? = some tj)
    (heq : hop = obj.ID) :
    ∃ c', relayStep router c i = some c' ∧
      c'.delivered = c.delivered ++
        [{ reciever_id := stripID obj.ID, sender_id := stripID ln.ID,
           payload := ln.Message.Payload }] := by
  obtain ⟨t, ht, htid⟩ := GetLogicalNodeById_some hop c.logicalNodes j hj
  rw [htj] at ht
  have htt : tj = t := Option.some.inj ht
  subst htt
  have hgp : GetPath router c.logicalNodes ln c.restrictions = some (first :: hop :: rest) := by
    simp only [GetPath, ho, Option.some_bind, hobj, hpath]
  have hread : readNode c.logicalNodes (some j) = tj := by
    simp [readNode, htj]
  have hcond : some obj.ID = some tj.ID := by rw [htid, heq]
  have hid : tj.ID = obj.ID := by rw [htid, heq]
  simp only [relayStep, hi, hst, ne_eq, not_true_eq_false, if_false, hgp, hj, hread, ho,
    Option.some_bind, hobj, Option.map_some', hcond, if_true, sendMessageToDB, hid]
  exact ⟨_, rfl, rfl⟩

/-- C10 (what the code does): in Scenario A, nodes in the order `C, B, A`, the Instruction
originated at `A` reaches `C` in the second pass, and the record handed to the sink names
`B`, the last relay, as sender. -/
theorem scenarioA_sender_is_last_relay :
    holderA.Message.Origin = some 2 ∧ scenarioStartReversed.logicalNodes[2]? = some holderA ∧
      stripID holderA.ID = "A" ∧
      (CommunicationProtocol scenarioRouter scenarioStartReversed).bind
          (CommunicationProtocol scenarioRouter)
        = some { logicalNodes := GetLogicalNodes scenarioNodes.reverse, restrictions := [],
                 delivered := [{ reciever_id := "C", sender_id := "B", payload := "hi" }] } := by
  refine ⟨rfl, by decide, by decide, by decide⟩

/-! ## The originate command -/

/-- C16: when `SendMessage` finds no free PortNode for the origin base id or for the
destination base id, the coordinator (every PortNode and the RestrictionSet) is the same
after the call as before it. -/
theorem SendMessage_no_free_port_unchanged (originID destinationID message : String)
    (c : Coordinator)
    (h : getFreePortNode originID c.logicalNodes c.restrictions = none ∨
      getFreePortNode destinationID c.logicalNodes c.restrictions = none) :
    SendMessage originID destinationID message c = c := by
  unfold SendMessage
  rcases h with h | h
  · rw [h]
  · rw [h]
    cases getFreePortNode originID c.logicalNodes c.restrictions <;> rfl

theorem SendMessage_no_free_port_unchanged_witness :
    (getFreePortNode "Z" scenarioStart.logicalNodes scenarioStart.restrictions = none ∨
      getFreePortNode "C" scenarioStart.logicalNodes scenarioStart.restrictions = none) ∧
      SendMessage "Z" "C" "hi" scenarioStart = scenarioStart :=
  ⟨Or.inl (by decide),
    SendMessage_no_free_port_unchanged "Z" "C" "hi" scenarioStart (Or.inl (by decide))⟩

/-- C17 (counterexample): in Scenario A the request with origin `Z`, for which no port node
exists, claims nothing and leaves the coordinator as it was, and its answer is the answer
of the request that does claim ports: 200 "Message sent". -/
theorem handleSendMessage_same_answer_without_ports :
    getFreePortNode "Z" (initCoordinator scenarioNodes).logicalNodes [] = none ∧
      (handleSendMessage "POST" (some unknownRequest) (initCoordinator scenarioNodes)).2
        = initCoordinator scenarioNodes ∧
      (handleSendMessage "POST" (some scenarioRequest) (initCoordinator scenarioNodes)).2
        = scenarioStart ∧
      (handleSendMessage "POST" (some unknownRequest) (initCoordinator scenarioNodes)).1
        = (handleSendMessage "POST" (some scenarioRequest) (initCoordinator scenarioNodes)).1 ∧
      (handleSendMessage "POST" (some unknownRequest) (initCoordinator scenarioNodes)).1
        = { status := 200, body := "Message sent" } := by
  refine ⟨by decide, by decide, by decide, by decide, by decide⟩

/-- C17 (amended): for every well-formed request (method POST, no empty field) and every
coordinator state, `handleSendMessage` answers 200 "Message sent", whether or not
`SendMessage` claimed ports. -/
theorem handleSendMessage_always_ok (req : SendRequest) (c : Coordinator)
    (ho : req.Origin ≠ "") (hd : req.Destination ≠ "") (hm : req.Message ≠ "") :
    handleSendMessage "POST" (some req) c
      = ({ status := 200, body := "Message sent" },
          SendMessage req.Origin req.Destination req.Message c) := by
  simp [handleSendMessage, ho, hd, hm]

theorem handleSendMessage_always_ok_witness :
    unknownRequest.Origin ≠ "" ∧ unknownRequest.Destination ≠ "" ∧
      unknownRequest.Message ≠ "" ∧
      handleSendMessage "POST" (some unknownRequest) scenarioStart
        = ({ status := 200, body := "Message sent" },
            SendMessage unknownRequest.Origin unknownRequest.Destination
              unknownRequest.Message scenarioStart) :=
  ⟨by decide, by decide, by decide,
    handleSendMessage_always_ok unknownRequest scenarioStart (by decide) (by decide)
      (by decide)⟩

/-- C14 (what the code does): in Scenario A port node `A:port1` is RelayPending holding the
Instruction with payload `hi` and is not in the RestrictionSet; a second
`SendMessage(A, C, "again")` arms the same port node and overwrites its Instruction. -/
theorem SendMessage_overwrites_pending_origin :
    scenarioStart.logicalNodes[0]? = some pendingA ∧ scenarioStart.restrictions = [] ∧
      getFreePortNode "A" scenarioStart.logicalNodes scenarioStart.restrictions = some 0 ∧
      (SendMessage "A" "C" "again" scenarioStart).logicalNodes[0]?
        = some { pendingA with
                 Message := { Origin := some 0, Objective := some 2, Payload := "again" } } := by
  refine ⟨by decide, by decide, by decide, by decide⟩

/-- C15 (what the code does): with base nodes `AB`, `A`, `C` in this order,
`SendMessage("A", "C", ..)` selects for the origin `A` the port node `AB:port1`, whose id
stripped of its port suffix is `AB`. -/
theorem SendMessage_selects_other_base_node :
    getFreePortNode "A" (initCoordinator overlapNodes).logicalNodes [] = some 0 ∧
      ((SendMessage "A" "C" "hi" (initCoordinator overlapNodes)).logicalNodes[0]?).map
          (fun ln => (ln.ID, ln.State, stripID ln.ID)) = some ("AB:port1", "wsc", "AB") ∧
      ((SendMessage "A" "C" "hi" (initCoordinator overlapNodes)).logicalNodes[1]?).map
          (fun ln => (ln.ID, ln.State)) = some ("A:port1", "") := by
  refine ⟨by decide, by decide, by decide⟩

/-! ## Passes that make no progress -/

theorem relayStep_no_path (router : Router) (c : Coordinator) (k : Nat)
    (h : ∀ ln ∈ c.logicalNodes, ln.State = "wsc" →
      ∃ path, GetPath router c.logicalNodes ln c.restrictions = some path ∧ path.length < 2) :
    relayStep router c k = some c := by
  unfold relayStep
  cases hk : c.logicalNodes[k]? with
  | none => rfl
  | some ln =>
    by_cases hst : ln.State = "wsc"
    · obtain ⟨path, hp, hlen⟩ := h ln (List.getElem?_mem hk) hst
      simp only [hst, ne_eq, not_true_eq_false, if_false, hp]
      match path, hlen with
      | [], _ => rfl
      | [_], _ => rfl
      | _ :: _ :: _, hl => exact absurd hl (by simp)
    · simp [hst]

theorem foldlM_const {α σ : Type} (f : σ → α → Option σ) (s : σ) (l : List α)
    (h : ∀ x ∈ l, f s x = some s) : l.foldlM f s = some s := by
  induction l with
  | nil => rfl
  | cons x rest ih =>
    rw [List.foldlM_cons, h x (List.mem_cons_self _ _)]
    exact ih (fun y hy => h y (List.mem_cons_of_mem _ hy))

/-- C13: if for every RelayPending PortNode the router returns no path or a path of fewer
than 2 elements, one pass, and any number of passes, return without error and leave the
coordinator (every PortNode and the RestrictionSet) unchanged. -/
theorem CommunicationProtocol_no_path_unchanged (router : Router) (c : Coordinator)
    (h : ∀ ln ∈ c.logicalNodes, ln.State = "wsc" →
      ∃ path, GetPath router c.logicalNodes ln c.restrictions = some path ∧ path.length < 2) :
    CommunicationProtocol router c = some c ∧
      ∀ n : Nat, run (List.replicate n (Op.tick router)) c = some c := by
  have hpass : CommunicationProtocol router c = some c := by
    unfold CommunicationProtocol passFrom
    exact foldlM_const _ _ _ (fun k _ => relayStep_no_path router c k h)
  refine ⟨hpass, ?_⟩
  intro n
  induction n with
  | zero => rfl
  | succ m ih =>
    simp only [List.replicate_succ, run, hpass, Option.some_bind]
    exact ih

theorem CommunicationProtocol_no_path_unchanged_witness :
    (∀ ln ∈ scenarioStart.logicalNodes, ln.State = "wsc" →
      ∃ path, GetPath isolatedRouter scenarioStart.logicalNodes ln scenarioStart.restrictions
        = some path ∧ path.length < 2) ∧
      scenarioStart.logicalNodes[0]? = some pendingA ∧
      CommunicationProtocol isolatedRouter scenarioStart = some scenarioStart ∧
      ∀ n : Nat, run (List.replicate n (Op.tick isolatedRouter)) scenarioStart
        = some scenarioStart :=
  have hnodes : scenarioStart.logicalNodes = [pendingA, idleB, idleC] := by decide
  have h : ∀ ln ∈ scenarioStart.logicalNodes, ln.State = "wsc" →
      ∃ path, GetPath isolatedRouter scenarioStart.logicalNodes ln scenarioStart.restrictions
        = some path ∧ path.length < 2 := by
    intro ln hln hst
    rw [hnodes] at hln
    simp only [List.mem_cons, List.mem_singleton, List.not_mem_nil, or_false] at hln
    rcases hln with rfl | rfl | rfl
    · exact ⟨[], by decide, by decide⟩
    · exact absurd hst (by decide)
    · exact absurd hst (by decide)
  ⟨h, by decide, CommunicationProtocol_no_path_unchanged isolatedRouter scenarioStart h⟩

/-- C19 (what the code does): the pathfinder's graph has the node `B:port1` (port count 0
becomes one port), the coordinator has no such PortNode; the pass takes the fresh node
`GetLogicalNodeById` returns, clears the holder `A:port1` and adds the empty id to the
RestrictionSet: the Instruction is lost. -/
theorem CommunicationProtocol_unknown_hop_clears_holder :
    pathfinder ghostNodes scenarioMatrix "A:port1" "C:port1" []
        = ["A:port1", "B:port1", "C:port1"] ∧
      GetLogicalNodeById "B:port1" ghostStart.logicalNodes = none ∧
      ghostStart.logicalNodes[0]?
        = some { pendingA with
                 Message := { Origin := some 0, Objective := some 1, Payload := "hi" } } ∧
      CommunicationProtocol (pathfinder ghostNodes scenarioMatrix) ghostStart
        = some { logicalNodes := GetLogicalNodes ghostNodes, restrictions := [""],
                 delivered := [] } ∧
      ∀ ln ∈ GetLogicalNodes ghostNodes, ln.State ≠ "wsc" ∧ ln.Message = Instruction.empty := by
  refine ⟨by decide, by decide, by decide, by decide, by decide⟩

/-! ## The two outcomes of a relay step -/

theorem mem_setAdd (s : List String) (id x : String) : x ∈ setAdd s id ↔ x ∈ s ∨ x = id := by
  unfold setAdd
  by_cases h : id ∈ s
  · rw [if_pos h]
    constructor
    · intro hx; exact Or.inl hx
    · rintro (hx | hx)
      · exact hx
      · rw [hx]; exact h
  · rw [if_neg h]
    simp

theorem mem_setDel (s : List String) (id x : String) : x ∈ setDel s id ↔ x ∈ s ∧ x ≠ id := by
  simp [setDel]

theorem relayStep_deliver_eq (router : Router) (c : Coordinator) (i j o : Nat)
    (ln tj obj : LogicalNode) (first hop : String) (rest : List String)
    (hi : c.logicalNodes[i]? = some ln) (hst : ln.State = "wsc")
    (ho : ln.Message.Objective = some o) (hobj : c.logicalNodes[o]? = some obj)
    (hpath : router ln.ID obj.ID
      (c.restrictions.filter (fun id => id ≠ ln.ID ∧ id ≠ obj.ID)) = first :: hop :: rest)
    (hj : GetLogicalNodeById hop c.logicalNodes = some j) (htj : c.logicalNodes[j]? = some tj)
    (heq : hop = obj.ID) :
    relayStep router c i = some
      { logicalNodes :=
          clearNode (c.logicalNodes.set j { tj with State := "", Message := Instruction.empty }) i
        restrictions := setDel (setDel (setAdd c.restrictions tj.ID) tj.ID) ln.ID
        delivered := c.delivered ++
          [{ reciever_id := stripID tj.ID, sender_id := stripID ln.ID,
             payload := ln.Message.Payload }] } := by
  obtain ⟨t, ht, htid⟩ := GetLogicalNodeById_some hop c.logicalNodes j hj
  rw [htj] at ht
  have htt : tj = t := Option.some.inj ht
  subst htt
  have hgp : GetPath router c.logicalNodes ln c.restrictions = some (first :: hop :: rest) := by
    simp only [GetPath, ho, Option.some_bind, hobj, hpath]
  have hread : readNode c.logicalNodes (some j) = tj := by
    simp [readNode, htj]
  have hcond : some obj.ID = some tj.ID := by rw [htid, heq]
  simp only [relayStep, hi, hst, ne_eq, not_true_eq_false, if_false, hgp, hj, hread, ho,
    Option.some_bind, hobj, Option.map_some', hcond, if_true, sendMessageToDB, writeNode]

/-- C11: when a RelayPending PortNode `n` gets a path of at least 2 elements whose second
element is the id of an existing PortNode `hop`, different from `n` and from the objective,
then after the step `hop` is RelayPending, holds the Instruction of `n` and is in the
RestrictionSet; `n` is Idle, holds the empty Instruction and is not in the RestrictionSet;
every other PortNode and every other RestrictionSet entry is unchanged. -/
theorem relayStep_handoff (router : Router) (c : Coordinator) (i j o : Nat)
    (ln tj obj : LogicalNode) (first hop : String) (rest : List String)
    (hi : c.logicalNodes[i]? = some ln) (hst : ln.State = "wsc")
    (ho : ln.Message.Objective = some o) (hobj : c.logicalNodes[o]? = some obj)
    (hpath : router ln.ID obj.ID
      (c.restrictions.filter (fun id => id ≠ ln.ID ∧ id ≠ obj.ID)) = first :: hop :: rest)
    (hj : GetLogicalNodeById hop c.logicalNodes = some j) (htj : c.logicalNodes[j]? = some tj)
    (hnn : hop ≠ ln.ID) (hne : hop ≠ obj.ID) :
    ∃ c', relayStep router c i = some c' ∧
      c'.logicalNodes[j]? = some { tj with Message := ln.Message, State := "wsc" } ∧
      tj.ID ∈ c'.restrictions ∧
      c'.logicalNodes[i]? = some { ln with Message := Instruction.empty, State := "" } ∧
      ln.ID ∉ c'.restrictions ∧
      (∀ k, k ≠ i → k ≠ j → c'.logicalNodes[k]? = c.logicalNodes[k]?) ∧
      (∀ id, id ≠ tj.ID → id ≠ ln.ID → (id ∈ c'.restrictions ↔ id ∈ c.restrictions)) ∧
      c'.delivered = c.delivered := by
  obtain ⟨t, ht, htid⟩ := GetLogicalNodeById_some hop c.logicalNodes j hj
  rw [htj] at ht
  have htt : tj = t := Option.some.inj ht
  subst htt
  have hji : j ≠ i := by
    intro hc
    subst hc
    rw [hi] at htj
    have : ln = tj := Option.some.inj htj
    subst this
    exact hnn htid.symm
  have hidne : tj.ID ≠ ln.ID := by rw [htid]; exact hnn
  have hilt : i < c.logicalNodes.length := by
    by_contra hcon
    rw [List.getElem?_eq_none (not_lt.1 hcon)] at hi
    exact absurd hi (by simp)
  have hjlt : j < c.logicalNodes.length := by
    by_contra hcon
    rw [List.getElem?_eq_none (not_lt.1 hcon)] at htj
    exact absurd htj (by simp)
  refine ⟨afterHop c i j ln tj,
    relayStep_forward router c i j o ln tj obj first hop rest hi hst ho hobj hpath hj htj hne hji,
    ?_, ?_, ?_, ?_, ?_, ?_, rfl⟩
  · simp [afterHop, List.getElem?_set, hjlt, hji, Ne.symm hji]
  · simp only [afterHop, mem_setDel, mem_setAdd]
    exact ⟨Or.inr trivial, hidne⟩
  · simp [afterHop, List.getElem?_set, hilt]
  · simp only [afterHop, mem_setDel]
    exact fun h => h.2 rfl
  · intro k hki hkj
    simp only [afterHop]
    rw [List.getElem?_set_ne (Ne.symm hki), List.getElem?_set_ne (Ne.symm hkj)]
  · intro id h1 h2
    simp only [afterHop, mem_setDel, mem_setAdd]
    constructor
    · rintro ⟨h3 | h3, _⟩
      · exact h3
      · exact absurd h3 h1
    · intro h3
      exact ⟨Or.inl h3, h2⟩

theorem relayStep_handoff_witness :
    scenarioStartReversed.logicalNodes[2]? = some holderA ∧
      GetLogicalNodeById "B:port1" scenarioStartReversed.logicalNodes = some 1 ∧
      scenarioRouter holderA.ID idleC.ID
        (scenarioStartReversed.restrictions.filter
          (fun id => id ≠ holderA.ID ∧ id ≠ idleC.ID)) = "A:port1" :: "B:port1" :: ["C:port1"] ∧
      ∃ c', relayStep scenarioRouter scenarioStartReversed 2 = some c' ∧
        c'.logicalNodes[1]? = some { idleB with Message := holderA.Message, State := "wsc" } ∧
        idleB.ID ∈ c'.restrictions ∧
        c'.logicalNodes[2]? = some { holderA with Message := Instruction.empty, State := "" } ∧
        holderA.ID ∉ c'.restrictions ∧
        (∀ k, k ≠ 2 → k ≠ 1 →
          c'.logicalNodes[k]? = scenarioStartReversed.logicalNodes[k]?) ∧
        (∀ id, id ≠ idleB.ID → id ≠ holderA.ID →
          (id ∈ c'.restrictions ↔ id ∈ scenarioStartReversed.restrictions)) ∧
        c'.delivered = scenarioStartReversed.delivered :=
  ⟨by decide, by decide, by decide,
    relayStep_handoff scenarioRouter scenarioStartReversed 2 1 0 holderA idleB idleC
      "A:port1" "B:port1" ["C:port1"] (by decide) rfl rfl (by decide) (by decide) (by decide)
      (by decide) (by decide) (by decide)⟩

/-- C12: when the next hop of a RelayPending PortNode is its Instruction's objective, then
after the step the objective PortNode is Idle, holds the empty Instruction and is not in the
RestrictionSet, and the previous holder is Idle, holds the empty Instruction and is not in
the RestrictionSet. -/
theorem relayStep_delivery (router : Router) (c : Coordinator) (i o : Nat)
    (ln obj : LogicalNode) (first hop : String) (rest : List String)
    (hi : c.logicalNodes[i]? = some ln) (hst : ln.State = "wsc")
    (ho : ln.Message.Objective = some o) (hobj : c.logicalNodes[o]? = some obj)
    (hpath : router ln.ID obj.ID
      (c.restrictions.filter (fun id => id ≠ ln.ID ∧ id ≠ obj.ID)) = first :: hop :: rest)
    (hj : GetLogicalNodeById hop c.logicalNodes = some o) :
    ∃ c', relayStep router c i = some c' ∧
      c'.logicalNodes[o]? = some { obj with State := "", Message := Instruction.empty } ∧
      obj.ID ∉ c'.restrictions ∧
      c'.logicalNodes[i]? = some { ln with State := "", Message := Instruction.empty } ∧
      ln.ID ∉ c'.restrictions := by
  obtain ⟨t, ht, htid⟩ := GetLogicalNodeById_some hop c.logicalNodes o hj
  rw [hobj] at ht
  have htt : obj = t := Option.some.inj ht
  subst htt
  have hilt : i < c.logicalNodes.length := by
    by_contra hcon
    rw [List.getElem?_eq_none (not_lt.1 hcon)] at hi
    exact absurd hi (by simp)
  have holt : o < c.logicalNodes.length := by
    by_contra hcon
    rw [List.getElem?_eq_none (not_lt.1 hcon)] at hobj
    exact absurd hobj (by simp)
  refine ⟨_, relayStep_deliver_eq router c i o o ln obj obj first hop rest hi hst ho hobj hpath
    hj hobj htid.symm, ?_, ?_, ?_, ?_⟩
  · by_cases hoi : o = i
    · subst hoi
      rw [hi] at hobj
      have : ln = obj := Option.some.inj hobj
      subst this
      simp [clearNode, List.getElem?_set, holt]
    · simp [clearNode, List.getElem?_set, holt, hoi, Ne.symm hoi, hi]
  · simp only [mem_setDel]
    exact fun h => h.1.2 rfl
  · by_cases hoi : o = i
    · subst hoi
      rw [hi] at hobj
      have : ln = obj := Option.some.inj hobj
      subst this
      simp [clearNode, List.getElem?_set, holt]
    · have hn2 : (c.logicalNodes.set o
          { obj with State := "", Message := Instruction.empty })[i]? = some ln := by
        rw [List.getElem?_set_ne hoi]; exact hi
      simp only [clearNode, hn2]
      simp [List.getElem?_set, hilt]
  · simp only [mem_setDel]
    exact fun h => h.2 rfl

theorem relayStep_delivery_witness :
    scenarioMidway.logicalNodes[1]? = some holderB ∧
      scenarioMidway.logicalNodes[0]? = some idleC ∧
      scenarioRouter holderB.ID idleC.ID
        (scenarioMidway.restrictions.filter
          (fun id => id ≠ holderB.ID ∧ id ≠ idleC.ID)) = "B:port1" :: "C:port1" :: [] ∧
      GetLogicalNodeById "C:port1" scenarioMidway.logicalNodes = some 0 ∧
      ∃ c', relayStep scenarioRouter scenarioMidway 1 = some c' ∧
        c'.logicalNodes[0]? = some { idleC with State := "", Message := Instruction.empty } ∧
        idleC.ID ∉ c'.restrictions ∧
        c'.logicalNodes[1]? = some { holderB with State := "", Message := Instruction.empty } ∧
        holderB.ID ∉ c'.restrictions :=
  ⟨by decide, by decide, by decide, by decide,
    relayStep_delivery scenarioRouter scenarioMidway 1 0 holderB idleC "B:port1" "C:port1" []
      (by decide) rfl rfl (by decide) (by decide) (by decide)⟩

/-! ## The router as the coordinator queries it -/

theorem pathfinder_path (nodes : List BaseNode) (matrix : List (List Bool))
    (start end_ : String) (restricted : List String) (first hop : String)
    (rest : List String)
    (h : pathfinder nodes matrix start end_ restricted = first :: hop :: rest) :
    ∃ g, CreateGraph nodes matrix = some g ∧ start ≠ end_ ∧
      GoodPath g start end_ (fun x => decide (x ∈ restricted)) (first :: hop :: rest) := by
  unfold pathfinder at h
  by_cases hse : start = "" ∨ end_ = ""
  · rw [if_pos hse] at h
    exact absurd h (by simp)
  rw [if_neg hse] at h
  cases hg : CreateGraph nodes matrix with
  | none => rw [hg] at h; exact absurd h (by simp)
  | some g =>
    rw [hg] at h
    simp only at h
    have hne : start ≠ end_ := by
      intro hc
      subst hc
      rw [WidestPath_same_start_end] at h
      simp at h
    obtain ⟨res, hres, hspec⟩ := WidestPath_spec g start end_
      (fun x => decide (x ∈ restricted)) hne
    rw [hres] at h
    obtain ⟨p, b⟩ := res
    cases b with
    | false => exact absurd h (by simp)
    | true =>
      simp only at h
      subst h
      exact ⟨g, rfl, hne, (hspec.found rfl).1⟩

/-- C18 (amended): with the router being `WidestPath` over a fixed graph, queried with the
RestrictionSet minus the holder and the objective, a hand-off step (next hop different from
the objective) copies the Instruction onto a PortNode whose id is not in the
RestrictionSet. -/
theorem relayStep_hop_unrestricted (nodes : List BaseNode) (matrix : List (List Bool))
    (c : Coordinator) (i j o : Nat) (ln tj obj : LogicalNode) (first hop : String)
    (rest : List String)
    (hi : c.logicalNodes[i]? = some ln) (hst : ln.State = "wsc")
    (ho : ln.Message.Objective = some o) (hobj : c.logicalNodes[o]? = some obj)
    (hpath : pathfinder nodes matrix ln.ID obj.ID
      (c.restrictions.filter (fun id => id ≠ ln.ID ∧ id ≠ obj.ID)) = first :: hop :: rest)
    (hj : GetLogicalNodeById hop c.logicalNodes = some j) (htj : c.logicalNodes[j]? = some tj)
    (hne : hop ≠ obj.ID) :
    tj.ID ∉ c.restrictions ∧
      relayStep (pathfinder nodes matrix) c i = some (afterHop c i j ln tj) ∧
      (afterHop c i j ln tj).logicalNodes[j]?
        = some { tj with Message := ln.Message, State := "wsc" } := by
  obtain ⟨g, _, _, hgood⟩ := pathfinder_path nodes matrix _ _ _ first hop rest hpath
  obtain ⟨t, ht, htid⟩ := GetLogicalNodeById_some hop c.logicalNodes j hj
  rw [htj] at ht
  have htt : tj = t := Option.some.inj ht
  subst htt
  have hfirst : first = ln.ID := by
    have := hgood.isPath.1
    simpa using this
  have hnn : hop ≠ ln.ID := by
    have hnd := hgood.nodup
    rw [hfirst] at hnd
    intro hc
    rw [hc] at hnd
    simp at hnd
  have hji : j ≠ i := by
    intro hc
    subst hc
    rw [hi] at htj
    have : ln = tj := Option.some.inj htj
    subst this
    exact hnn htid.symm
  have hjlt : j < c.logicalNodes.length := by
    by_contra hcon
    rw [List.getElem?_eq_none (not_lt.1 hcon)] at htj
    exact absurd htj (by simp)
  refine ⟨?_, relayStep_forward (pathfinder nodes matrix) c i j o ln tj obj first hop rest
    hi hst ho hobj hpath hj htj hne hji, ?_⟩
  · rw [htid]
    intro hmem
    rcases hgood.allowed hop (by simp) with h | h | h
    · exact hnn h
    · exact hne h
    · have hin : hop ∈ c.restrictions.filter (fun id => id ≠ ln.ID ∧ id ≠ obj.ID) := by
        simp [hmem, hnn, hne]
      have hdec : decide (hop ∈ c.restrictions.filter
          (fun id => id ≠ ln.ID ∧ id ≠ obj.ID)) = true := decide_eq_true hin
      have h' : decide (hop ∈ c.restrictions.filter
          (fun id => id ≠ ln.ID ∧ id ≠ obj.ID)) = false := h
      rw [hdec] at h'
      exact absurd h' (by simp)
  · simp [afterHop, List.getElem?_set, hjlt, hji, Ne.symm hji]

theorem relayStep_hop_unrestricted_witness :
    crossAfterP.restrictions = ["Q:port1"] ∧
      crossAfterP.logicalNodes[3]? = some (armed (idleNode "R:port1" "r (port 1)") instrN) ∧
      pathfinder crossNodes crossMatrix "R:port1" "Y:port1"
        (crossAfterP.restrictions.filter (fun id => id ≠ "R:port1" ∧ id ≠ "Y:port1"))
          = "R:port1" :: "X:port1" :: ["Y:port1"] ∧
      ((idleNode "X:port1" "x (port 1)").ID ∉ crossAfterP.restrictions ∧
        relayStep (pathfinder crossNodes crossMatrix) crossAfterP 3
          = some (afterHop crossAfterP 3 1 (armed (idleNode "R:port1" "r (port 1)") instrN)
              (idleNode "X:port1" "x (port 1)")) ∧
        (afterHop crossAfterP 3 1 (armed (idleNode "R:port1" "r (port 1)") instrN)
            (idleNode "X:port1" "x (port 1)")).logicalNodes[1]?
          = some { idleNode "X:port1" "x (port 1)" with
                   Message := (armed (idleNode "R:port1" "r (port 1)") instrN).Message,
                   State := "wsc" }) :=
  ⟨by decide, by decide, by decide,
    relayStep_hop_unrestricted crossNodes crossMatrix crossAfterP 3 1 4
      (armed (idleNode "R:port1" "r (port 1)") instrN) (idleNode "X:port1" "x (port 1)")
      (idleNode "Y:port1" "y (port 1)") "R:port1" "X:port1" ["Y:port1"]
      (by decide) rfl rfl (by decide) (by decide) (by decide) (by decide) (by decide)⟩

/-- C18 (counterexample): over `crossNodes`, after `SendMessage(P, X, "m")`,
`SendMessage(R, Y, "n")` and one pass, `X:port1` is RelayPending holding the Instruction
`n` for `Y`, and `Q:port1` holds `m`, whose objective is `X:port1`.  The second pass copies
`m` onto `X:port1` and delivers it; `n` is held by no PortNode and was never delivered. -/
theorem crossing_relay_overwrites_pending_objective :
    run (crossSends ++ [Op.tick crossRouter]) (initCoordinator crossNodes) = some crossMidway ∧
      crossMidway.logicalNodes[1]? = some (armed (idleNode "X:port1" "x (port 1)") instrN) ∧
      run (crossSends ++ [Op.tick crossRouter, Op.tick crossRouter]) (initCoordinator crossNodes)
        = some { logicalNodes := GetLogicalNodes crossNodes, restrictions := [],
                 delivered := [{ reciever_id := "X", sender_id := "Q", payload := "m" }] } ∧
      ∀ ln ∈ GetLogicalNodes crossNodes, ln.Message = Instruction.empty := by
  refine ⟨by decide, by decide, by decide, by decide⟩

/-! ## The invariant of the coordinator -/

theorem GetLogicalNodeById_congr (id : String) :
    ∀ (l l' : List LogicalNode), l.map LogicalNode.ID = l'.map LogicalNode.ID →
      GetLogicalNodeById id l = GetLogicalNodeById id l' := by
  intro l
  induction l with
  | nil =>
    intro l' h
    cases l' with
    | nil => rfl
    | cons y ys => simp at h
  | cons x xs ih =>
    intro l' h
    cases l' with
    | nil => simp at h
    | cons y ys =>
      simp only [List.map_cons, List.cons.injEq] at h
      simp only [GetLogicalNodeById, h.1, ih ys h.2]

theorem GetLogicalNodeById_of_mem (id : String) (l : List LogicalNode)
    (h : id ∈ l.map LogicalNode.ID) : ∃ j, GetLogicalNodeById id l = some j := by
  induction l with
  | nil => simp at h
  | cons x xs ih =>
    by_cases hx : x.ID = id
    · exact ⟨0, by simp [GetLogicalNodeById, hx]⟩
    · simp only [List.map_cons, List.mem_cons] at h
      rcases h with h | h
      · exact absurd h.symm hx
      · obtain ⟨j, hj⟩ := ih h
        exact ⟨j + 1, by simp [GetLogicalNodeById, hx, hj]⟩

theorem map_ID_set (l : List LogicalNode) (k : Nat) (t v : LogicalNode)
    (hk : l[k]? = some t) (hv : v.ID = t.ID) :
    (l.set k v).map LogicalNode.ID = l.map LogicalNode.ID := by
  apply List.ext_getElem?
  intro n
  by_cases hn : n = k
  · subst hn
    have hlt : n < l.length := by
      by_contra hcon
      rw [List.getElem?_eq_none (not_lt.1 hcon)] at hk
      exact absurd hk (by simp)
    have hget : l[n] = t := by
      have := List.getElem?_eq_getElem hlt
      rw [this] at hk
      exact Option.some.inj hk
    simp [List.getElem?_map, List.getElem?_set, hlt, hv, hget]
  · simp [List.getElem?_map, List.getElem?_set_ne (Ne.symm hn)]

theorem relayStep_forward_eq (router : Router) (c : Coordinator) (i j o : Nat)
    (ln tj obj : LogicalNode) (first hop : String) (rest : List String)
    (hi : c.logicalNodes[i]? = some ln) (hst : ln.State = "wsc")
    (ho : ln.Message.Objective = some o) (hobj : c.logicalNodes[o]? = some obj)
    (hpath : router ln.ID obj.ID
      (c.restrictions.filter (fun id => id ≠ ln.ID ∧ id ≠ obj.ID)) = first :: hop :: rest)
    (hj : GetLogicalNodeById hop c.logicalNodes = some j) (htj : c.logicalNodes[j]? = some tj)
    (hne : hop ≠ obj.ID) :
    relayStep router c i = some
      { logicalNodes :=
          clearNode (c.logicalNodes.set j { tj with Message := ln.Message, State := "wsc" }) i
        restrictions := setDel (setAdd c.restrictions tj.ID) ln.ID
        delivered := c.delivered } := by
  obtain ⟨t, ht, htid⟩ := GetLogicalNodeById_some hop c.logicalNodes j hj
  rw [htj] at ht
  have htt : tj = t := Option.some.inj ht
  subst htt
  have hgp : GetPath router c.logicalNodes ln c.restrictions = some (first :: hop :: rest) := by
    simp only [GetPath, ho, Option.some_bind, hobj, hpath]
  have hread : readNode c.logicalNodes (some j) = tj := by
    simp [readNode, htj]
  have hcond : ¬ (some obj.ID = some tj.ID) := by
    intro hc
    exact hne (by rw [← htid]; exact (Option.some.inj hc).symm)
  simp only [relayStep, hi, hst, ne_eq, not_true_eq_false, if_false, hgp, hj, hread, ho,
    Option.some_bind, hobj, Option.map_some', hcond, writeNode]

/-- The invariant survives a step that writes `vj` to the hop `j` and clears the holder
`i`, when what is written and the new RestrictionSet agree. -/
theorem Sound_update (c : Coordinator) (hs : Sound c) (i j : Nat) (ln tj vj : LogicalNode)
    (r' : List String) (d' : List Delivery)
    (hi : c.logicalNodes[i]? = some ln) (hst : ln.State = "wsc")
    (htj : c.logicalNodes[j]? = some tj)
    (hfirst : GetLogicalNodeById tj.ID c.logicalNodes = some j)
    (hvid : vj.ID = tj.ID)
    (hvp : vj.State = "wsc" → vj.Message = ln.Message)
    (hvi : vj.State ≠ "wsc" → vj.Message = Instruction.empty)
    (hr1 : ∀ id ∈ r', id ≠ ln.ID ∧ (id ∈ c.restrictions ∨ id = tj.ID))
    (hr2 : vj.State ≠ "wsc" → tj.ID ∉ r') :
    Sound { logicalNodes := clearNode (c.logicalNodes.set j vj) i, restrictions := r',
            delivered := d' } ∧
      (clearNode (c.logicalNodes.set j vj) i).map LogicalNode.ID
        = c.logicalNodes.map LogicalNode.ID := by
  have hilt : i < c.logicalNodes.length := by
    by_contra hcon
    rw [List.getElem?_eq_none (not_lt.1 hcon)] at hi
    exact absurd hi (by simp)
  have hjlt : j < c.logicalNodes.length := by
    by_contra hcon
    rw [List.getElem?_eq_none (not_lt.1 hcon)] at htj
    exact absurd htj (by simp)
  -- the node at `i` after the write to `j`
  obtain ⟨t, ht, htID⟩ : ∃ t, (c.logicalNodes.set j vj)[i]? = some t ∧ t.ID = ln.ID := by
    by_cases hji : j = i
    · subst hji
      rw [hi] at htj
      have : ln = tj := Option.some.inj htj
      subst this
      exact ⟨vj, by simp [List.getElem?_set, hjlt], hvid⟩
    · exact ⟨ln, by rw [List.getElem?_set_ne hji]; exact hi, rfl⟩
  have hclear : clearNode (c.logicalNodes.set j vj) i
      = (c.logicalNodes.set j vj).set i { t with Message := Instruction.empty, State := "" } := by
    simp [clearNode, ht]
  have hF1 : (clearNode (c.logicalNodes.set j vj) i)[i]?
      = some { t with Message := Instruction.empty, State := "" } := by
    rw [hclear]
    simp [List.getElem?_set, hilt]
  have hF2 : j ≠ i → (clearNode (c.logicalNodes.set j vj) i)[j]? = some vj := by
    intro hji
    rw [hclear, List.getElem?_set_ne (Ne.symm hji)]
    simp [List.getElem?_set, hjlt]
  have hF3 : ∀ k, k ≠ i → k ≠ j →
      (clearNode (c.logicalNodes.set j vj) i)[k]? = c.logicalNodes[k]? := by
    intro k hki hkj
    rw [hclear, List.getElem?_set_ne (Ne.symm hki), List.getElem?_set_ne (Ne.symm hkj)]
  have hF4 : (clearNode (c.logicalNodes.set j vj) i).map LogicalNode.ID
      = c.logicalNodes.map LogicalNode.ID := by
    rw [hclear, map_ID_set (c.logicalNodes.set j vj) i t
      { t with Message := Instruction.empty, State := "" } ht rfl,
      map_ID_set c.logicalNodes j tj vj htj hvid]
  have hlen : (clearNode (c.logicalNodes.set j vj) i).length = c.logicalNodes.length := by
    rw [hclear]; simp
  -- a node of the new list is the cleared holder, the written hop, or an old node
  have hcases : ∀ k u, (clearNode (c.logicalNodes.set j vj) i)[k]? = some u →
      (k = i ∧ u.State = "" ∧ u.Message = Instruction.empty) ∨
      (k ≠ i ∧ k = j ∧ u = vj) ∨ (k ≠ i ∧ k ≠ j ∧ c.logicalNodes[k]? = some u) := by
    intro k u hk
    by_cases hki : k = i
    · subst hki
      rw [hF1] at hk
      have := Option.some.inj hk
      subst this
      exact Or.inl ⟨rfl, rfl, rfl⟩
    · by_cases hkj : k = j
      · subst hkj
        rw [hF2 hki] at hk
        exact Or.inr (Or.inl ⟨hki, rfl, (Option.some.inj hk).symm⟩)
      · rw [hF3 k hki hkj] at hk
        exact Or.inr (Or.inr ⟨hki, hkj, hk⟩)
  refine ⟨⟨?_, ?_, ?_, ?_⟩, hF4⟩
  · -- restricted
    intro id hid
    obtain ⟨hne, hor⟩ := hr1 id hid
    have hhop : id = tj.ID → ∃ (k : Nat) (u : LogicalNode),
        (clearNode (c.logicalNodes.set j vj) i)[k]? = some u ∧ u.ID = id ∧ u.State = "wsc" := by
      intro he
      have hvs : vj.State = "wsc" := by
        by_contra hcon
        exact hr2 hcon (he ▸ hid)
      have hji : j ≠ i := by
        intro hc
        subst hc
        rw [hi] at htj
        have : ln = tj := Option.some.inj htj
        subst this
        exact hne he
      exact ⟨j, vj, hF2 hji, by rw [hvid, he], hvs⟩
    rcases hor with hold | he
    · obtain ⟨k, u, hk, huid, hust⟩ := hs.restricted id hold
      by_cases hkj : k = j
      · subst hkj
        rw [htj] at hk
        have : tj = u := Option.some.inj hk
        subst this
        exact hhop huid.symm
      · have hki : k ≠ i := by
          intro hc
          subst hc
          rw [hi] at hk
          have : ln = u := Option.some.inj hk
          subst this
          exact hne huid.symm
        exact ⟨k, u, by rw [hF3 k hki hkj]; exact hk, huid, hust⟩
    · exact hhop he
  · -- pending
    intro k u hk hust
    simp only at hk ⊢
    rw [hlen]
    rcases hcases k u hk with ⟨_, h1, _⟩ | ⟨_, _, h1⟩ | ⟨_, _, h1⟩
    · rw [h1] at hust; exact absurd hust (by decide)
    · subst h1
      rw [hvp hust]
      exact hs.pending i ln hi hst
    · exact hs.pending k u h1 hust
  · -- first
    intro k u hk hust
    simp only at hk ⊢
    rw [GetLogicalNodeById_congr u.ID _ _ hF4]
    rcases hcases k u hk with ⟨_, h1, _⟩ | ⟨_, h2, h1⟩ | ⟨_, _, h1⟩
    · rw [h1] at hust; exact absurd hust (by decide)
    · subst h1
      rw [hvid, h2]
      exact hfirst
    · exact hs.first k u h1 hust
  · -- idle
    intro k u hk hust
    simp only at hk
    rcases hcases k u hk with ⟨_, _, h1⟩ | ⟨_, _, h1⟩ | ⟨_, _, h1⟩
    · exact h1
    · subst h1
      exact hvi hust
    · exact hs.idle k u h1 hust

theorem relayStep_Sound (router : Router) (c : Coordinator) (i : Nat) (hs : Sound c)
    (hh : HopsExist router (c.logicalNodes.map LogicalNode.ID)) :
    ∃ c', relayStep router c i = some c' ∧ Sound c' ∧
      c'.logicalNodes.map LogicalNode.ID = c.logicalNodes.map LogicalNode.ID := by
  cases hi : c.logicalNodes[i]? with
  | none => exact ⟨c, by simp [relayStep, hi], hs, rfl⟩
  | some ln =>
    by_cases hst : ln.State = "wsc"
    · obtain ⟨o, ho, holt⟩ := hs.pending i ln hi hst
      have hobj : c.logicalNodes[o]? = some c.logicalNodes[o] := List.getElem?_eq_getElem holt
      generalize c.logicalNodes[o] = obj at hobj
      have hgp : GetPath router c.logicalNodes ln c.restrictions
          = some (router ln.ID obj.ID
              (c.restrictions.filter (fun id => id ≠ ln.ID ∧ id ≠ obj.ID))) := by
        simp only [GetPath, ho, Option.some_bind, hobj]
      cases hp : router ln.ID obj.ID
          (c.restrictions.filter (fun id => id ≠ ln.ID ∧ id ≠ obj.ID)) with
      | nil =>
        refine ⟨c, ?_, hs, rfl⟩
        simp only [relayStep, hi, hst, ne_eq, not_true_eq_false, if_false, hgp, hp]
      | cons first tail =>
        cases tail with
        | nil =>
          refine ⟨c, ?_, hs, rfl⟩
          simp only [relayStep, hi, hst, ne_eq, not_true_eq_false, if_false, hgp, hp]
        | cons hop rest =>
          obtain ⟨j, hj⟩ := GetLogicalNodeById_of_mem hop c.logicalNodes
            (hh _ _ _ first hop rest hp)
          obtain ⟨tj, htj, htid⟩ := GetLogicalNodeById_some hop c.logicalNodes j hj
          have hfirst : GetLogicalNodeById tj.ID c.logicalNodes = some j := by rw [htid]; exact hj
          by_cases heq : hop = obj.ID
          · have hstep := relayStep_deliver_eq router c i j o ln tj obj first hop rest hi hst ho
              hobj hp hj htj heq
            obtain ⟨h1, h2⟩ := Sound_update c hs i j ln tj
              { tj with State := "", Message := Instruction.empty }
              (setDel (setDel (setAdd c.restrictions tj.ID) tj.ID) ln.ID)
              (c.delivered ++ [{ reciever_id := stripID tj.ID, sender_id := stripID ln.ID,
                                 payload := ln.Message.Payload }])
              hi hst htj hfirst rfl (fun h => by simp at h) (fun _ => rfl)
              (by
                intro id hid
                simp only [mem_setDel, mem_setAdd] at hid
                exact ⟨hid.2, hid.1.1⟩)
              (by
                intro _ hmem
                simp only [mem_setDel] at hmem
                exact hmem.1.2 rfl)
            exact ⟨_, hstep, h1, h2⟩
          · have hstep := relayStep_forward_eq router c i j o ln tj obj first hop rest hi hst ho
              hobj hp hj htj heq
            obtain ⟨h1, h2⟩ := Sound_update c hs i j ln tj
              { tj with Message := ln.Message, State := "wsc" }
              (setDel (setAdd c.restrictions tj.ID) ln.ID) c.delivered
              hi hst htj hfirst rfl (fun _ => rfl) (fun h => absurd rfl h)
              (by
                intro id hid
                simp only [mem_setDel, mem_setAdd] at hid
                exact ⟨hid.2, hid.1⟩)
              (fun h => absurd rfl h)
            exact ⟨_, hstep, h1, h2⟩
    · exact ⟨c, relayStep_idle router c i ln hi hst, hs, rfl⟩

theorem foldlM_total {α σ : Type} (f : σ → α → Option σ) (I : σ → Prop) (l : List α)
    (hstep : ∀ t x, I t → ∃ t', f t x = some t' ∧ I t') :
    ∀ s, I s → ∃ s', l.foldlM f s = some s' ∧ I s' := by
  induction l with
  | nil => intro s hs; exact ⟨s, rfl, hs⟩
  | cons x rest ih =>
    intro s hs
    obtain ⟨t, ht, hIt⟩ := hstep s x hs
    obtain ⟨s', hs', hIs'⟩ := ih t hIt
    exact ⟨s', by rw [List.foldlM_cons, ht]; exact hs', hIs'⟩

theorem CommunicationProtocol_Sound (router : Router) (c : Coordinator) (hs : Sound c)
    (hh : HopsExist router (c.logicalNodes.map LogicalNode.ID)) :
    ∃ c', CommunicationProtocol router c = some c' ∧ Sound c' ∧
      c'.logicalNodes.map LogicalNode.ID = c.logicalNodes.map LogicalNode.ID := by
  unfold CommunicationProtocol passFrom
  refine foldlM_total (relayStep router)
    (fun t => Sound t ∧ t.logicalNodes.map LogicalNode.ID = c.logicalNodes.map LogicalNode.ID)
    _ ?_ c ⟨hs, rfl⟩
  intro t k ht
  obtain ⟨t', h1, h2, h3⟩ := relayStep_Sound router t k ht.1 (by rw [ht.2]; exact hh)
  exact ⟨t', h1, h2, h3.trans ht.2⟩

theorem getFreePortFrom_spec (baseID : String) (restrictions : List String)
    (l : List LogicalNode) :
    ∀ (s i : Nat), getFreePortFrom baseID restrictions s l = some i →
      ∃ (k : Nat) (ln : LogicalNode), i = s + k ∧ l[k]? = some ln ∧
        matchesBaseID ln.ID baseID = true ∧ ln.ID ∉ restrictions ∧
        GetLogicalNodeById ln.ID l = some k := by
  induction l with
  | nil => intro s i h; simp [getFreePortFrom] at h
  | cons x rest ih =>
    intro s i h
    by_cases hx : matchesBaseID x.ID baseID = true ∧ x.ID ∉ restrictions
    · rw [getFreePortFrom, if_pos hx] at h
      have hsi : s = i := Option.some.inj h
      subst hsi
      exact ⟨0, x, rfl, by simp, hx.1, hx.2, by simp [GetLogicalNodeById]⟩
    · rw [getFreePortFrom, if_neg hx] at h
      obtain ⟨k, ln, hik, hk, hm, hr, hg⟩ := ih (s + 1) i h
      have hne : x.ID ≠ ln.ID := by
        intro hc
        apply hx
        rw [hc]
        exact ⟨hm, hr⟩
      refine ⟨k + 1, ln, by omega, by simpa using hk, hm, hr, ?_⟩
      simp [GetLogicalNodeById, hne, hg]

theorem SendMessage_Sound (originID destinationID message : String) (c : Coordinator)
    (hs : Sound c) :
    Sound (SendMessage originID destinationID message c) ∧
      (SendMessage originID destinationID message c).logicalNodes.map LogicalNode.ID
        = c.logicalNodes.map LogicalNode.ID := by
  unfold SendMessage
  cases ha : getFreePortNode originID c.logicalNodes c.restrictions with
  | none => exact ⟨hs, rfl⟩
  | some a =>
    cases hd : getFreePortNode destinationID c.logicalNodes c.restrictions with
    | none => exact ⟨hs, rfl⟩
    | some d =>
      simp only
      obtain ⟨ka, ln, hka, hla, _, _, hga⟩ := getFreePortFrom_spec originID c.restrictions
        c.logicalNodes 0 a ha
      obtain ⟨kd, ld, hkd, hld, _, _, _⟩ := getFreePortFrom_spec destinationID c.restrictions
        c.logicalNodes 0 d hd
      have hka' : ka = a := by omega
      have hkd' : kd = d := by omega
      subst hka' hkd'
      have hdlt : kd < c.logicalNodes.length := by
        by_contra hcon
        rw [List.getElem?_eq_none (not_lt.1 hcon)] at hld
        exact absurd hld (by simp)
      have halt : ka < c.logicalNodes.length := by
        by_contra hcon
        rw [List.getElem?_eq_none (not_lt.1 hcon)] at hla
        exact absurd hla (by simp)
      have hsend : SendInstruction c.logicalNodes ka kd message
          = c.logicalNodes.set ka
              (armed ln { Origin := some ka, Objective := some kd, Payload := message }) := by
        simp [SendInstruction, hla, armed]
      rw [hsend]
      generalize hv : armed ln { Origin := some ka, Objective := some kd, Payload := message }
        = v
      have hvID : v.ID = ln.ID := by rw [← hv]; rfl
      have hvState : v.State = "wsc" := by rw [← hv]; rfl
      have hvObj : v.Message.Objective = some kd := by rw [← hv]; rfl
      have hids := map_ID_set c.logicalNodes ka ln v hla hvID
      have hcases : ∀ k u, (c.logicalNodes.set ka v)[k]? = some u →
          (k = ka ∧ u = v) ∨ (k ≠ ka ∧ c.logicalNodes[k]? = some u) := by
        intro k u hk
        by_cases hkk : k = ka
        · subst hkk
          left
          refine ⟨rfl, ?_⟩
          simp only [List.getElem?_set, halt, if_true] at hk
          simpa using hk.symm
        · right
          rw [List.getElem?_set_ne (Ne.symm hkk)] at hk
          exact ⟨hkk, hk⟩
      refine ⟨⟨?_, ?_, ?_, ?_⟩, hids⟩
      · intro id hid
        obtain ⟨k, u, hk, huid, hust⟩ := hs.restricted id hid
        by_cases hkk : k = ka
        · subst hkk
          rw [hla] at hk
          have : ln = u := Option.some.inj hk
          subst this
          exact ⟨k, v, by simp [List.getElem?_set, halt], by rw [hvID]; exact huid, hvState⟩
        · exact ⟨k, u, by simp only; rw [List.getElem?_set_ne (Ne.symm hkk)]; exact hk,
            huid, hust⟩
      · intro k u hk hust
        simp only at hk ⊢
        rw [List.length_set]
        rcases hcases k u hk with ⟨_, h1⟩ | ⟨_, h1⟩
        · rw [h1]
          exact ⟨kd, hvObj, hdlt⟩
        · exact hs.pending k u h1 hust
      · intro k u hk hust
        simp only at hk ⊢
        rw [GetLogicalNodeById_congr u.ID _ _ hids]
        rcases hcases k u hk with ⟨h2, h1⟩ | ⟨_, h1⟩
        · rw [h1, hvID, h2]
          exact hga
        · exact hs.first k u h1 hust
      · intro k u hk hust
        simp only at hk
        rcases hcases k u hk with ⟨_, h1⟩ | ⟨_, h1⟩
        · rw [h1] at hust
          exact absurd hvState hust
        · exact hs.idle k u h1 hust

theorem Sound_of_AllIdle (c : Coordinator) (h : AllIdle c) : Sound c := by
  obtain ⟨hn, hr⟩ := h
  refine ⟨?_, ?_, ?_, ?_⟩
  · intro id hid
    rw [hr] at hid
    exact absurd hid (List.not_mem_nil _)
  · intro i ln hi hst
    exact absurd hst (hn ln (List.getElem?_mem hi)).1
  · intro i ln hi hst
    exact absurd hst (hn ln (List.getElem?_mem hi)).1
  · intro i ln hi _
    exact (hn ln (List.getElem?_mem hi)).2

theorem run_Sound (ids : List String) (ops : List Op) :
    ∀ c : Coordinator, Sound c → c.logicalNodes.map LogicalNode.ID = ids →
      (∀ r, Op.tick r ∈ ops → HopsExist r ids) →
      ∃ c', run ops c = some c' ∧ Sound c' ∧ c'.logicalNodes.map LogicalNode.ID = ids := by
  induction ops with
  | nil => intro c hs hids _; exact ⟨c, rfl, hs, hids⟩
  | cons op rest ih =>
    intro c hs hids hh
    cases op with
    | send a b m =>
      obtain ⟨h1, h2⟩ := SendMessage_Sound a b m c hs
      exact ih _ h1 (h2.trans hids) (fun r hr => hh r (List.mem_cons_of_mem _ hr))
    | tick r =>
      obtain ⟨c1, h1, h2, h3⟩ := CommunicationProtocol_Sound r c hs
        (by rw [hids]; exact hh r (List.mem_cons_self _ _))
      obtain ⟨c', h4, h5, h6⟩ := ih c1 h2 (h3.trans hids)
        (fun r' hr => hh r' (List.mem_cons_of_mem _ hr))
      exact ⟨c', by simp only [run, h1, Option.some_bind]; exact h4, h5, h6⟩

/-- C20: starting from a coordinator whose PortNodes are all Idle with the empty
Instruction and whose RestrictionSet is empty, after any sequence of `SendMessage` calls and
passes in which every next hop returned by the router is the id of an existing PortNode, no
pass has panicked, every id in the RestrictionSet is the id of a RelayPending PortNode,
every RelayPending PortNode holds an Instruction whose objective is a PortNode of the list
(not nil), and every Idle PortNode holds the empty Instruction. -/
theorem run_invariant (ops : List Op) (c0 : Coordinator) (h0 : AllIdle c0)
    (hhops : ∀ r, Op.tick r ∈ ops → HopsExist r (c0.logicalNodes.map LogicalNode.ID)) :
    ∃ c, run ops c0 = some c ∧
      (∀ id ∈ c.restrictions, ∃ (i : Nat) (ln : LogicalNode),
        c.logicalNodes[i]? = some ln ∧ ln.ID = id ∧ ln.State = "wsc") ∧
      (∀ (i : Nat) (ln : LogicalNode), c.logicalNodes[i]? = some ln → ln.State = "wsc" →
        ∃ (o : Nat) (obj : LogicalNode),
          ln.Message.Objective = some o ∧ c.logicalNodes[o]? = some obj) ∧
      (∀ (i : Nat) (ln : LogicalNode), c.logicalNodes[i]? = some ln → ln.State ≠ "wsc" →
        ln.Message = Instruction.empty) := by
  obtain ⟨c, hrun, hs, _⟩ := run_Sound _ ops c0 (Sound_of_AllIdle c0 h0) rfl hhops
  refine ⟨c, hrun, hs.restricted, ?_, hs.idle⟩
  intro i ln hi hst
  obtain ⟨o, ho, holt⟩ := hs.pending i ln hi hst
  exact ⟨o, c.logicalNodes[o], ho, List.getElem?_eq_getElem holt⟩

theorem mem_GetLogicalNodes_ids (nodes : List BaseNode) (b : BaseNode) (q : Nat)
    (hb : b ∈ nodes) (hq1 : 1 ≤ q) (hq2 : q ≤ b.logicalPorts) :
    portId b.id q ∈ (GetLogicalNodes nodes).map LogicalNode.ID := by
  simp only [GetLogicalNodes, List.mem_map, List.mem_flatMap]
  cases hp : b.ports with
  | none =>
    have hq : q = 1 := by
      simp only [BaseNode.logicalPorts, hp] at hq2
      omega
    subst hq
    exact ⟨_, ⟨b, hb, by rw [hp]; exact List.mem_singleton.2 rfl⟩, rfl⟩
  | some p =>
    simp only [BaseNode.logicalPorts, hp] at hq2
    refine ⟨{ ID := portId b.id q, Name := b.name ++ " (port " ++ toString q ++ ")",
              Message := Instruction.empty, Memory := [], State := "" }, ⟨b, hb, ?_⟩, rfl⟩
    rw [hp]
    exact List.mem_map.2 ⟨q, List.mem_range'_1.2 ⟨hq1, by omega⟩, rfl⟩

/-- When the pathfinder and the coordinator count the same ports for every base node,
every next hop of the pathfinder is the id of a PortNode of the coordinator. -/
theorem pathfinder_HopsExist (nodes : List BaseNode) (matrix : List (List Bool))
    (hports : ∀ b ∈ nodes, b.portCount = b.logicalPorts) :
    HopsExist (pathfinder nodes matrix) ((GetLogicalNodes nodes).map LogicalNode.ID) := by
  intro start end_ restricted first hop rest h
  obtain ⟨g, hg, _, hgood⟩ := pathfinder_path nodes matrix start end_ restricted first hop rest h
  have hadj : hop ∈ g.neighbors first := (List.chain'_cons.1 hgood.isPath.2.2).1
  rw [CreateGraph_adj nodes matrix g first hop hg] at hadj
  obtain ⟨i, j, bi, bj, k, l, hi, hj, _, hk, hl, h4⟩ := hadj
  rcases h4 with ⟨_, h5⟩ | ⟨h5, _⟩
  · rw [h5]
    exact mem_GetLogicalNodes_ids nodes bj l (List.getElem?_mem hj) hl.1
      (by rw [← hports bj (List.getElem?_mem hj)]; exact hl.2)
  · rw [h5]
    exact mem_GetLogicalNodes_ids nodes bi k (List.getElem?_mem hi) hk.1
      (by rw [← hports bi (List.getElem?_mem hi)]; exact hk.2)

theorem scenarioOps_hops (r : Router) (hr : Op.tick r ∈ scenarioOps) :
    HopsExist r ((initCoordinator scenarioNodes).logicalNodes.map LogicalNode.ID) := by
  have hr' : r = scenarioRouter := by
    simp only [scenarioOps, List.mem_cons, List.mem_singleton, List.not_mem_nil, or_false,
      Op.tick.injEq] at hr
    rcases hr with h | h | h | h | h
    · exact Op.noConfusion h
    · exact h
    · exact Op.noConfusion h
    · exact h
    · exact h
  subst hr'
  exact pathfinder_HopsExist scenarioNodes scenarioMatrix (by decide)

theorem run_invariant_witness :
    AllIdle (initCoordinator scenarioNodes) ∧
      (∀ r, Op.tick r ∈ scenarioOps →
        HopsExist r ((initCoordinator scenarioNodes).logicalNodes.map LogicalNode.ID)) ∧
      ∃ c, run scenarioOps (initCoordinator scenarioNodes) = some c ∧
        (∀ id ∈ c.restrictions, ∃ (i : Nat) (ln : LogicalNode),
          c.logicalNodes[i]? = some ln ∧ ln.ID = id ∧ ln.State = "wsc") ∧
        (∀ (i : Nat) (ln : LogicalNode), c.logicalNodes[i]? = some ln → ln.State = "wsc" →
          ∃ (o : Nat) (obj : LogicalNode),
            ln.Message.Objective = some o ∧ c.logicalNodes[o]? = some obj) ∧
        (∀ (i : Nat) (ln : LogicalNode), c.logicalNodes[i]? = some ln → ln.State ≠ "wsc" →
          ln.Message = Instruction.empty) :=
  have h0 : AllIdle (initCoordinator scenarioNodes) := by
    unfold AllIdle
    decide
  ⟨h0, scenarioOps_hops,
    run_invariant scenarioOps (initCoordinator scenarioNodes) h0 scenarioOps_hops⟩

end OrbitalNet
